import Mathlib

/-!
# G-Code input and formatting utility (`gCodeInputAndFormatting.h`)

A shallow embedding of the numeric parser `parseInputWithOptionalMM`, of the
keyboard entry points built on it and of the formatter `formatGCodeDecimals`,
followed by the properties checked against the specification.

Conventions of the embedding:

* a `std::string` is a `List Char`; the literal error messages are `String`s;
* a C++ exception is a value of `Exn`, carried by `Except`;
* a `double` is a value of `Double`: sign, integer significand and binary
  exponent of an IEEE-754 binary64 number, with round-to-nearest-even
  conversions computed on natural numbers;
* `int` is the 32-bit two's complement integer of the Windows targets of the
  header (`<conio.h>`).
-/

set_option exponentiation.threshold 5000

namespace GCode

/-! ## Exceptions -/

/-- The C++ exceptions that occur in the header: `std::out_of_range` and
`std::invalid_argument` from the numeric conversions of `<string>`, and the
`std::runtime_error("EscapePressed")` thrown by the keyboard readers. -/
inductive Exn
  | outOfRange
  | invalidArgument
  | escapePressed
  deriving DecidableEq, Repr

deriving instance DecidableEq for Except

/-! ## Characters and decimal digit strings -/

/-- Value of a decimal digit character. -/
def digitVal (c : Char) : Nat := c.toNat - 48

/-- Value of a string of decimal digits, most significant digit first. -/
def decimalValue (ds : List Char) : Nat :=
  ds.foldl (fun acc c => 10 * acc + digitVal c) 0

/-- The character of a decimal digit. -/
def digitChar (d : Nat) : Char := Char.ofNat (48 + d)

/-- Decimal digits of `n` pushed in front of `acc`, with `fuel` bounding the
number of digits. -/
def natDigitsAux : Nat → Nat → List Char → List Char
  | 0, _, acc => acc
  | fuel + 1, n, acc =>
    if n < 10 then digitChar n :: acc
    else natDigitsAux fuel (n / 10) (digitChar (n % 10) :: acc)

/-- Decimal rendering of a natural number, without leading zeros (`"0"` for 0). -/
def natDigits (n : Nat) : List Char := natDigitsAux (n + 1) n []

/-- The last `w` decimal digits of `n`, padded with zeros on the left. -/
def padDigits : Nat → Nat → List Char
  | 0, _ => []
  | w + 1, n => padDigits w (n / 10) ++ [digitChar (n % 10)]

/-- The minus sign of a negative number, nothing otherwise. -/
def minus (neg : Bool) : List Char := if neg then ['-'] else []

/-- Decimal rendering of an integer, as `std::to_string` writes an `int`. -/
def intDigits (n : Int) : List Char :=
  if n < 0 then '-' :: natDigits n.natAbs else natDigits n.natAbs

/-! ## IEEE-754 binary64 -/

/-- A `double`. `finite neg m e` is the number `(-1)^neg * m * 2^e`; the
operations below produce it in canonical form: `m < 2^53`,
`-1074 ≤ e ≤ 971`, and `e = -1074` when `m < 2^52` (subnormals and zero). -/
inductive Double
  | finite (neg : Bool) (mant : Nat) (exp : Int)
  | inf (neg : Bool)
  | nan
  deriving DecidableEq, Repr

/-- Floor of the binary logarithm (0 for 0), by repeated halving. -/
def ilog2Aux : Nat → Nat → Nat
  | 0, _ => 0
  | fuel + 1, n => if n < 2 then 0 else ilog2Aux fuel (n / 2) + 1

/-- Floor of the binary logarithm of `n` (0 for 0). -/
def ilog2 (n : Nat) : Nat := ilog2Aux n n

/-- The quotient `num / den` rounded to the nearest integer, ties to even. -/
def roundNearestEven (num den : Nat) : Nat :=
  let q := num / den
  let r := num % den
  if 2 * r < den then q
  else if den < 2 * r then q + 1
  else if q % 2 = 0 then q else q + 1

/-- The integer `k` with `2^k ≤ num / den < 2^(k+1)`, for `num, den > 0`. -/
def binade (num den : Nat) : Int :=
  let a := ilog2 num
  let b := ilog2 den
  if b ≤ a then
    if den * 2 ^ (a - b) ≤ num then ((a - b : Nat) : Int) else ((a - b : Nat) : Int) - 1
  else
    if den ≤ num * 2 ^ (b - a) then -((b - a : Nat) : Int) else -((b - a : Nat) : Int) - 1

/-- The quotient `(num / den) / 2^e` rounded to the nearest integer, ties to even. -/
def scaledSignificand (num den : Nat) (e : Int) : Nat :=
  if 0 ≤ e then roundNearestEven num (den * 2 ^ e.toNat)
  else roundNearestEven (num * 2 ^ (-e).toNat) den

/-- The binary64 number nearest to `(-1)^neg * num / den` (`den > 0`), ties to
even: the rounding every IEEE-754 operation and every correctly rounded
conversion performs. Magnitudes that round to `2^1024` or more give infinity. -/
def roundToDouble (neg : Bool) (num den : Nat) : Double :=
  if num = 0 then Double.finite neg 0 (-1074)
  else
    let e : Int := max (binade num den - 52) (-1074)
    let m := scaledSignificand num den e
    let m1 := if m = 2 ^ 53 then 2 ^ 52 else m
    let e1 := if m = 2 ^ 53 then e + 1 else e
    if 971 < e1 then Double.inf neg else Double.finite neg m1 e1

namespace Double

/-- The comparison `v < 0`. -/
def ltZero : Double → Bool
  | finite neg m _ => neg && decide (m ≠ 0)
  | inf neg => neg
  | nan => false

/-- The comparison `v > 0`. -/
def gtZero : Double → Bool
  | finite neg m _ => !neg && decide (m ≠ 0)
  | inf neg => !neg
  | nan => false

/-- The comparison `v == 0` (true of both zeros). -/
def eqZero : Double → Bool
  | finite _ m _ => decide (m = 0)
  | _ => false

/-- The conversion `static_cast<double>(n)` of an `int`, which is exact. -/
def ofInt (n : Int) : Double := roundToDouble (decide (n < 0)) n.natAbs 1

/-- IEEE-754 division `a / b`. -/
def div : Double → Double → Double
  | finite s1 m1 e1, finite s2 m2 e2 =>
    if m2 = 0 then (if m1 = 0 then nan else inf (xor s1 s2))
    else
      let e := min e1 e2
      roundToDouble (xor s1 s2) (m1 * 2 ^ (e1 - e).toNat) (m2 * 2 ^ (e2 - e).toNat)
  | finite s1 _ _, inf s2 => finite (xor s1 s2) 0 (-1074)
  | inf s1, finite s2 _ _ => inf (xor s1 s2)
  | _, _ => nan

/-- The literal `25.4`: the binary64 number nearest to 254/10. -/
def c25_4 : Double := roundToDouble false 254 10

end Double

/-! ## The conversions of `<string>` -/

/-- What the C library's `strtod` does with an input below the normal range.
The C standard leaves it to the implementation whether `errno` becomes
`ERANGE` there, so the embedding takes it as a parameter:
`erangeOnTiny num den m` tells whether `ERANGE` is set when the non-zero
input `num / den`, of magnitude below `2^-1022`, is converted to
`m * 2^-1074`: a subnormal number, zero, or the smallest normal number
`2^52 * 2^-1074` when the input rounds up to it. -/
structure CLib where
  erangeOnTiny : Nat → Nat → Nat → Bool

/-- The Universal C Runtime of the Windows toolchain the header is written
for: `strtod` reports an underflow only when a non-zero input rounds to zero,
and delivers subnormal results without touching `errno`. -/
def CLib.ucrt : CLib := ⟨fun _ _ m => decide (m = 0)⟩

/-- The white space `strtol` and `strtod` skip: `isspace` in the "C" locale. -/
def isspace (c : Char) : Bool :=
  c = ' ' || c = '\t' || c = '\n' || c = Char.ofNat 11 || c = Char.ofNat 12 || c = '\r'

/-- Optional sign in front of a numeric subject sequence: whether it is a
minus sign, and the rest. -/
def splitSign : List Char → Bool × List Char
  | '-' :: t => (true, t)
  | '+' :: t => (false, t)
  | t => (false, t)

/-- The conversion `std::stoi(s)`: `strtol` in base 10 on `s` (white space, an optional sign,
then the longest run of digits), `std::invalid_argument` when there is no
digit and `std::out_of_range` when the value does not fit a 32-bit `int`. -/
def stoi (s : List Char) : Except Exn Int :=
  let t := splitSign (s.dropWhile isspace)
  let ds := t.2.takeWhile Char.isDigit
  if ds = [] then .error Exn.invalidArgument
  else
    let v : Int := if t.1 then -(decimalValue ds : Int) else (decimalValue ds : Int)
    if v < -2147483648 ∨ 2147483647 < v then .error Exn.outOfRange else .ok v

/-- The result of `strtod` for the decimal number `(-1)^neg * num / den`, as
`std::stod` passes it on: the correctly rounded binary64 number, or
`std::out_of_range` when `strtod` sets `ERANGE`: on overflow, and, as the
C library decides, for a non-zero input of magnitude below `2^-1022`
(`num * 2^1022 < den`), whatever it is rounded to. -/
def strtodRound (lib : CLib) (neg : Bool) (num den : Nat) : Except Exn Double :=
  match roundToDouble neg num den with
  | Double.finite s m e =>
    if num ≠ 0 ∧ num * 2 ^ 1022 < den ∧ lib.erangeOnTiny num den m = true then
      .error Exn.outOfRange
    else .ok (Double.finite s m e)
  | _ => .error Exn.outOfRange

/-- The conversion `std::stod(s)` on a decimal subject sequence (white space, an optional
sign, digits with at most one point; the inputs the decimal pattern lets
through have no exponent part), with `std::invalid_argument` when there is
no digit. -/
def stod (lib : CLib) (s : List Char) : Except Exn Double :=
  let t := splitSign (s.dropWhile isspace)
  let ip := t.2.takeWhile Char.isDigit
  let fp := match t.2.dropWhile Char.isDigit with
    | '.' :: u => u.takeWhile Char.isDigit
    | _ => []
  if ip = [] ∧ fp = [] then .error Exn.invalidArgument
  else strtodRound lib t.1 (decimalValue (ip ++ fp)) (10 ^ fp.length)

/-! ## The two grammars -/

section Patterns

open RegularExpression

/-- The class `\d` (the same set as `[0-9]`). -/
def digit : RegularExpression Char :=
  char '0' + char '1' + char '2' + char '3' + char '4' + char '5' + char '6' + char '7' +
    char '8' + char '9'

/-- The quantifier `r?`. -/
def zeroOrOne (r : RegularExpression Char) : RegularExpression Char := 1 + r

/-- The quantifier `r+`. -/
def oneOrMore (r : RegularExpression Char) : RegularExpression Char := r * star r

/-- The pattern `^(-?\d+)/(-?\d+)$`. -/
def fractionPattern : RegularExpression Char :=
  (zeroOrOne (char '-') * oneOrMore digit) * char '/' * (zeroOrOne (char '-') * oneOrMore digit)

/-- The pattern `^-?(?:[0-9]*\.?[0-9]+|[0-9]+\.?[0-9]*)$`. -/
def decimalPattern : RegularExpression Char :=
  zeroOrOne (char '-') *
    ((star digit * zeroOrOne (char '.') * oneOrMore digit) +
      (oneOrMore digit * zeroOrOne (char '.') * star digit))

end Patterns

/-- The call `std::regex_match(s, match, pattern)`: whether the whole of `s` matches. -/
def regex_match (s : List Char) (pattern : RegularExpression Char) : Bool :=
  pattern.rmatch s

/-- The sub-matches `match[1]` and `match[2]` of a string that matches
`fractionPattern`: neither group can contain a slash, so they are what stands
before and after the only slash of the string. -/
def fractionGroups (s : List Char) : List Char × List Char :=
  (s.takeWhile (fun c => c != '/'), (s.dropWhile (fun c => c != '/')).drop 1)

/-! ## The parser -/

/-- The helper `endsWithMM(input, numberPart)`: the returned flag and `numberPart`. -/
def endsWithMM (input : List Char) : Bool × List Char :=
  if 2 ≤ input.length then
    let c1 := (input.getD (input.length - 2) ' ').toLower
    let c2 := (input.getD (input.length - 1) ' ').toLower
    if (c1 = 'm' ∨ c1 = 'M') ∧ (c2 = 'm' ∨ c2 = 'M') then
      (true, input.take (input.length - 2))
    else (false, input)
  else (false, input)

/-- What `parseInputWithOptionalMM` hands back when it returns: `true` with
`result` set, or `false` with `errorMsg` set. -/
inductive ParseResult
  | accepted (result : Double)
  | rejected (errorMsg : String)
  deriving DecidableEq, Repr

/-- The function `parseInputWithOptionalMM`. An exception that leaves it is
`Except.error`; a normal return is `Except.ok`. -/
def parseInputWithOptionalMM (lib : CLib) (input : List Char)
    (allowMM requirePositive requireNegative allowZero : Bool) : Except Exn ParseResult :=
  let coreInput := if allowMM then (endsWithMM input).2 else input
  let inputInMM := allowMM && (endsWithMM input).1
  if regex_match coreInput fractionPattern then
    match stoi (fractionGroups coreInput).1 with
    | .error e => .error e
    | .ok num =>
      match stoi (fractionGroups coreInput).2 with
      | .error e => .error e
      | .ok den =>
        if den = 0 then .ok (.rejected "Denominator cannot be zero.")
        else
          let value := (Double.ofInt num).div (Double.ofInt den)
          if requirePositive && value.ltZero then .ok (.rejected "Fraction must be positive.")
          else if requireNegative && value.gtZero then .ok (.rejected "Fraction must be negative.")
          else if !allowZero && value.eqZero then .ok (.rejected "Zero not allowed.")
          else .ok (.accepted (if inputInMM then value.div Double.c25_4 else value))
  else if regex_match coreInput decimalPattern then
    match stod lib coreInput with
    | .error _ => .ok (.rejected "Invalid decimal input.")
    | .ok val =>
      if requirePositive && val.ltZero then .ok (.rejected "Value must be positive.")
      else if requireNegative && val.gtZero then .ok (.rejected "Value must be negative.")
      else if !allowZero && val.eqZero then .ok (.rejected "Zero not allowed.")
      else .ok (.accepted (if inputInMM then val.div Double.c25_4 else val))
  else .ok (.rejected "Invalid input format.")

/-! ## The keyboard readers -/

/-- Key code of Escape. -/
def ESC : Char := Char.ofNat 27

/-- Key code of Enter. -/
def ENTER : Char := '\r'

/-- Key code of Backspace. -/
def BACKSPACE : Char := Char.ofNat 8

/-- First byte of a special key (function keys). -/
def SPECIAL_KEY_PREFIX_1 : Char := Char.ofNat 0

/-- First byte of a special key (arrow keys). -/
def SPECIAL_KEY_PREFIX_2 : Char := Char.ofNat 224

/-- How a call of `getUserInputString` ends on a finite script of keystrokes
(the bytes `_getch` delivers, in order; polling `_kbhit` until a key is there
is not modelled): it returns the line, with the keys left over and the
characters written to `std::cout`; or it throws; or the script ends first and
the call is still waiting for a key. -/
inductive ReadOutcome
  | line (input : List Char) (rest : List Char) (out : List Char)
  | threw (e : Exn) (out : List Char)
  | waiting (input : List Char) (out : List Char)
  deriving DecidableEq, Repr

/-- The loop of `getUserInputString`, from the buffer `input` and the
output `out` written so far. -/
def getUserInputStringFrom (allowMM : Bool) : List Char → List Char → List Char → ReadOutcome
  | [], input, out => .waiting input out
  | ch :: keys, input, out =>
    if ch = SPECIAL_KEY_PREFIX_1 ∨ ch = SPECIAL_KEY_PREFIX_2 then
      match keys with
      | [] => .waiting input out
      | _ :: keys1 => getUserInputStringFrom allowMM keys1 input out
    else if ch = ESC then .threw Exn.escapePressed out
    else if ch = ENTER then .line input keys (out ++ ['\n'])
    else if ch = BACKSPACE then
      if input ≠ [] then getUserInputStringFrom allowMM keys input.dropLast (out ++ "\x08 \x08".toList)
      else getUserInputStringFrom allowMM keys input out
    else if ch.isDigit ∨ ch = '.' ∨ ch = '/' ∨ ch = '-' then
      getUserInputStringFrom allowMM keys (input ++ [ch]) (out ++ [ch])
    else if allowMM ∧ (ch = 'm' ∨ ch = 'M') then
      getUserInputStringFrom allowMM keys (input ++ [ch]) (out ++ [ch])
    else getUserInputStringFrom allowMM keys input out

/-- The function `getUserInputString`, on a script of keystrokes and the
output written before the call. -/
def getUserInputString (allowMM : Bool) (keys out : List Char) : ReadOutcome :=
  getUserInputStringFrom allowMM keys [] out

/-- How a call of a numeric entry point ends on a finite script of keystrokes. -/
inductive EntryOutcome
  | returned (value : Double) (rest : List Char) (out : List Char)
  | threw (e : Exn) (out : List Char)
  | waiting (out : List Char)
  deriving DecidableEq, Repr

/-- The retry loop shared by the four numeric entry points: read a line,
parse it, return the value or print the message and read again. Every round
uses up at least the Enter key, so `fuel` above the length of the script is
never exhausted. -/
def userInputLoop (lib : CLib) (allowMM requirePositive requireNegative allowZero : Bool) :
    Nat → List Char → List Char → EntryOutcome
  | 0, _, out => .waiting out
  | fuel + 1, keys, out =>
    match getUserInputString allowMM keys out with
    | .threw e out1 => .threw e out1
    | .waiting _ out1 => .waiting out1
    | .line input rest out1 =>
      match parseInputWithOptionalMM lib input allowMM requirePositive requireNegative allowZero with
      | .error e => .threw e out1
      | .ok (.accepted value) => .returned value rest out1
      | .ok (.rejected errorMsg) =>
        userInputLoop lib allowMM requirePositive requireNegative allowZero fuel rest
          (out1 ++ errorMsg.toList ++ ['\n'])

/-- The function `userInputPos`. -/
def userInputPos (lib : CLib) (allowMM : Bool) (keys : List Char) : EntryOutcome :=
  userInputLoop lib allowMM true false false (keys.length + 1) keys []

/-- The function `userInputPosZero`. -/
def userInputPosZero (lib : CLib) (allowMM : Bool) (keys : List Char) : EntryOutcome :=
  userInputLoop lib allowMM true false true (keys.length + 1) keys []

/-- The function `userInputNeg`. -/
def userInputNeg (lib : CLib) (allowMM : Bool) (keys : List Char) : EntryOutcome :=
  userInputLoop lib allowMM false true false (keys.length + 1) keys []

/-- The function `userInputPosNeg`. -/
def userInputPosNeg (lib : CLib) (allowMM : Bool) (keys : List Char) : EntryOutcome :=
  userInputLoop lib allowMM false false true (keys.length + 1) keys []

/-! ## The formatter -/

/-- The exact value `m * 2^e` times `10^p`, rounded to the nearest integer,
ties to even: the digits of the fixed-point rendering with `p` decimals. -/
def fixedScaled (p m : Nat) (e : Int) : Nat :=
  if 0 ≤ e then m * 2 ^ e.toNat * 10 ^ p
  else roundNearestEven (m * 10 ^ p) (2 ^ (-e).toNat)

/-- The text `oss << std::fixed << std::setprecision(p) << val` produces:
the exact value of `val` rounded to `p` decimals (ties to even, as the
C library's `%.*f`), a minus sign when the sign bit is set, at least one
digit before the point and exactly `p` digits after it. -/
def toFixed (p : Nat) : Double → List Char
  | Double.nan => "nan".toList
  | Double.inf neg => minus neg ++ "inf".toList
  | Double.finite neg m e =>
    minus neg ++ natDigits (fixedScaled p m e / 10 ^ p) ++
      '.' :: padDigits p (fixedScaled p m e % 10 ^ p)

/-- The call `s.find(c, pos)`; `none` is `std::string::npos`. -/
def strFind (s : List Char) (c : Char) (pos : Nat) : Option Nat :=
  let i := (s.drop pos).indexOf c
  if i < (s.drop pos).length then some (pos + i) else none

/-- The call `s.find_last_not_of(c, pos)`: the last index at or before `pos` whose
character is not `c`; `none` is `std::string::npos`. -/
def strFindLastNotOf (s : List Char) (c : Char) (pos : Nat) : Option Nat :=
  let n := min (pos + 1) s.length
  let k := ((s.take n).reverse).findIdx (fun x => x != c)
  if k < n then some (n - 1 - k) else none

/-- The call `s.erase(pos)`: everything from index `pos` on is removed (`pos` is
never beyond the end of the string in `formatGCodeDecimals`). -/
def strErase (s : List Char) (pos : Nat) : List Char := s.take pos

/-- The call `s.erase(pos, n)`: `n` characters from index `pos` on are removed. -/
def strEraseN (s : List Char) (pos n : Nat) : List Char := s.take pos ++ s.drop (pos + n)

/-- The function template `formatGCodeDecimals<numDecimalPlaces>`. The
`static_assert` admits `numDecimalPlaces` from 1 to 6 only. -/
def formatGCodeDecimals (numDecimalPlaces : Nat) (val : Double) : List Char :=
  let s := toFixed numDecimalPlaces val
  let startIdx := if s ≠ [] ∧ s.getD 0 ' ' = '-' then 1 else 0
  let s1 :=
    match strFind s '.' startIdx with
    | none => s
    | some decimalPos =>
      match strFindLastNotOf s '0' (s.length - 1) with
      | none => s
      | some lastNonZero =>
        if lastNonZero < decimalPos then strErase s (decimalPos + 1)
        else strErase s (lastNonZero + 1)
  let s2 :=
    if startIdx + 1 < s1.length ∧ s1.getD startIdx ' ' = '0' ∧ s1.getD (startIdx + 1) ' ' = '.' then
      strEraseN s1 startIdx 1
    else s1
  if s2 = ".".toList ∨ s2 = "-.".toList then "0.".toList else s2

/-! ## The grammars, as the specification words them -/

/-- A string of decimal digits (possibly empty). -/
def IsDigits (ds : List Char) : Prop := ∀ c ∈ ds, c.isDigit = true

instance (ds : List Char) : Decidable (IsDigits ds) :=
  inferInstanceAs (Decidable (∀ c ∈ ds, c.isDigit = true))

/-- Grammar A: the text of a fraction with numerator digits `a` and
denominator digits `b`, each with its optional minus sign. -/
def fractionText (n1 : Bool) (a : List Char) (n2 : Bool) (b : List Char) : List Char :=
  minus n1 ++ a ++ '/' :: (minus n2 ++ b)

/-- The point of a decimal text and the digits after it, when there is one. -/
def pointPart : Option (List Char) → List Char
  | none => []
  | some fp => '.' :: fp

/-- Grammar B: the text of a decimal with integer digits `ip` and, when
there is a point, the digits `fp` after it. -/
def decimalText (neg : Bool) (ip : List Char) (frac : Option (List Char)) : List Char :=
  minus neg ++ ip ++ pointPart frac

/-- The digits after the point of a decimal text (none without a point). -/
def fracDigits (frac : Option (List Char)) : List Char := frac.getD []

/-- What Grammar B asks of the parts of a decimal text: digits only, and at
least one digit somewhere. -/
def DecimalParts (ip : List Char) (frac : Option (List Char)) : Prop :=
  IsDigits ip ∧ IsDigits (fracDigits frac) ∧ (ip ≠ [] ∨ fracDigits frac ≠ [])

/-- The integer a signed digit string denotes. -/
def signedValue (neg : Bool) (ds : List Char) : Int :=
  if neg then -(decimalValue ds : Int) else (decimalValue ds : Int)

/-- The range of a 32-bit `int`. -/
def InIntRange (v : Int) : Prop := -2147483648 ≤ v ∧ v ≤ 2147483647

instance (v : Int) : Decidable (InIntRange v) :=
  inferInstanceAs (Decidable (_ ∧ _))

/-- Steps 5 to 7 of the specification of the parser: the sign and zero
constraints on the value, then the conversion from millimetres. The two
grammars word the sign messages differently. -/
def enforce (msgPos msgNeg : String) (requirePositive requireNegative allowZero inputInMM : Bool)
    (v : Double) : ParseResult :=
  if requirePositive && v.ltZero then .rejected msgPos
  else if requireNegative && v.gtZero then .rejected msgNeg
  else if !allowZero && v.eqZero then .rejected "Zero not allowed."
  else .accepted (if inputInMM then v.div Double.c25_4 else v)

/-- Steps 5 to 7 of the specification of the parser, with the sign and zero
constraints read on the exact number `q` that the `double` result `v`
stands for. -/
def admitExact (msgPos msgNeg : String) (requirePositive requireNegative allowZero : Bool)
    (q : ℚ) (v : Double) : ParseResult :=
  if requirePositive = true ∧ q < 0 then .rejected msgPos
  else if requireNegative = true ∧ 0 < q then .rejected msgNeg
  else if allowZero = false ∧ q = 0 then .rejected "Zero not allowed."
  else .accepted v

/-- The letter of the unit suffix, in either case. -/
def isM (c : Char) : Bool := c = 'm' || c = 'M'

/-- Step 1 of the specification of the parser: the text has at least two
characters and its last two are both `m`, whatever their case. -/
def hasUnitSuffix (raw : List Char) : Bool :=
  decide (2 ≤ raw.length) && (raw.drop (raw.length - 2)).all isM

/-- Step 1 of the specification of the parser: whether a unit suffix is
recognised and stripped. -/
def inUnitSuffix (allowUnitSuffix : Bool) (raw : List Char) : Bool :=
  allowUnitSuffix && hasUnitSuffix raw

/-- Step 1 of the specification of the parser: the core of the raw text. -/
def coreOf (allowUnitSuffix : Bool) (raw : List Char) : List Char :=
  if inUnitSuffix allowUnitSuffix raw then raw.take (raw.length - 2) else raw

/-- Steps 2 to 7 of the specification of the parser, on the core of the
input and the flag of the unit suffix. -/
def parseCore (lib : CLib) (core : List Char) (inMM : Bool)
    (requirePositive requireNegative allowZero : Bool) : Except Exn ParseResult :=
  if regex_match core fractionPattern then
    match stoi (fractionGroups core).1 with
    | .error e => .error e
    | .ok num =>
      match stoi (fractionGroups core).2 with
      | .error e => .error e
      | .ok den =>
        if den = 0 then .ok (.rejected "Denominator cannot be zero.")
        else .ok (enforce "Fraction must be positive." "Fraction must be negative."
          requirePositive requireNegative allowZero inMM ((Double.ofInt num).div (Double.ofInt den)))
  else if regex_match core decimalPattern then
    match stod lib core with
    | .error _ => .ok (.rejected "Invalid decimal input.")
    | .ok val => .ok (enforce "Value must be positive." "Value must be negative."
        requirePositive requireNegative allowZero inMM val)
  else .ok (.rejected "Invalid input format.")

/-- The conversion from millimetres applied to an accepted value. -/
def ParseResult.toInches : ParseResult → ParseResult
  | .accepted v => .accepted (v.div Double.c25_4)
  | .rejected msg => .rejected msg

/-- A text that starts with a digit or a point, or is empty. -/
def Unsigned (t : List Char) : Prop := ∀ c u, t = c :: u → c.isDigit = true ∨ c = '.'

/-- The characters the two grammars are written with. -/
def grammarChar (c : Char) : Prop := c.isDigit = true ∨ c = '-' ∨ c = '.' ∨ c = '/'

/-- Grammar A, as a property of a text. -/
def FractionShape (s : List Char) : Prop :=
  ∃ n1 a n2 b, s = fractionText n1 a n2 b ∧ a ≠ [] ∧ IsDigits a ∧ b ≠ [] ∧ IsDigits b

/-- Grammar B, as a property of a text. -/
def DecimalShape (s : List Char) : Prop :=
  ∃ neg ip frac, s = decimalText neg ip frac ∧ DecimalParts ip frac

/-- The two grammars of the parser. -/
inductive Grammar
  | fraction
  | decimal
  deriving DecidableEq, Repr

/-- The message of the must-be-positive error, which names the grammar. -/
def mustBePositive : Grammar → String
  | .fraction => "Fraction must be positive."
  | .decimal => "Value must be positive."

/-- The message of the must-be-negative error, which names the grammar. -/
def mustBeNegative : Grammar → String
  | .fraction => "Fraction must be negative."
  | .decimal => "Value must be negative."

/-- The core `core` matches the grammar `g` with parsed value `v`: a fraction
of two integers that fit an `int`, the second not zero, with their quotient;
or a decimal that `std::stod` converts, with its conversion. -/
inductive ParsesTo (lib : CLib) : List Char → Grammar → Double → Prop
  | fraction (n1 : Bool) (a : List Char) (n2 : Bool) (b : List Char) :
      a ≠ [] → IsDigits a → b ≠ [] → IsDigits b →
      InIntRange (signedValue n1 a) → InIntRange (signedValue n2 b) → signedValue n2 b ≠ 0 →
      ParsesTo lib (fractionText n1 a n2 b) Grammar.fraction
        ((Double.ofInt (signedValue n1 a)).div (Double.ofInt (signedValue n2 b)))
  | decimal (neg : Bool) (ip : List Char) (frac : Option (List Char)) (v : Double) :
      DecimalParts ip frac →
      strtodRound lib neg (decimalValue (ip ++ fracDigits frac)) (10 ^ (fracDigits frac).length)
        = .ok v →
      ParsesTo lib (decimalText neg ip frac) Grammar.decimal v

/-- A C library whose `strtod` reports an underflow exactly when the input
is below the normal range and its conversion is not exact (the underflow
condition of IEEE-754, with tininess detected before rounding): an exactly
representable subnormal is delivered without `ERANGE`, and an input just
below `2^-1022` that rounds up to `2^-1022` sets `ERANGE`. -/
def CLib.inexact : CLib := ⟨fun num den m => decide (m * den ≠ num * 2 ^ 1074)⟩

/-- The text `0.000...0005` with 323 zeros after the point: the number
`5e-324`, whose nearest binary64 number is the smallest subnormal `2^-1074`. -/
def tinyText : List Char := '0' :: '.' :: (List.replicate 323 '0' ++ ['5'])

/-- The text of `2^-1074` written out exactly: `0.` and the 1074 digits of
`5^1074`, zero-padded on the left. -/
def tinyExactText : List Char := '0' :: '.' :: padDigits 1074 (5 ^ 1074)

/-- The text of `2^-1022 - 2^-1075` written out exactly: `0.` and the 1075
digits of `(2^53 - 1) * 5^1075`, zero-padded on the left. The number is below
the normal range and its nearest binary64 number is the smallest normal
number `2^-1022`. -/
def belowNormalText : List Char := '0' :: '.' :: padDigits 1075 ((2 ^ 53 - 1) * 5 ^ 1075)

instance (ip : List Char) (frac : Option (List Char)) : Decidable (DecimalParts ip frac) :=
  inferInstanceAs (Decidable (_ ∧ _ ∧ _))

/-! ## The canonical form of the formatter, as the specification words it -/

/-- The fraction digits without their trailing zeros. -/
def stripTrailingZeros (fp : List Char) : List Char := fp.rdropWhile (fun c => c == '0')

/-- The canonical form of a fixed-point rendering with sign `neg`, integer
digits `ip` and fraction digits `fp`: the trailing zeros of the fraction are
removed; then an integer part that is the single digit `0` is removed; and
when no digit is left the result is `0.` without a sign. -/
def canonicalForm (neg : Bool) (ip fp : List Char) : List Char :=
  if ip = ['0'] ∧ stripTrailingZeros fp = [] then ['0', '.']
  else minus neg ++ (if ip = ['0'] then [] else ip) ++ '.' :: stripTrailingZeros fp

/-- The steps of `formatGCodeDecimals` after the rendering, on the rendered
text `s`. -/
def canonicalize (s : List Char) : List Char :=
  let startIdx := if s ≠ [] ∧ s.getD 0 ' ' = '-' then 1 else 0
  let s1 :=
    match strFind s '.' startIdx with
    | none => s
    | some decimalPos =>
      match strFindLastNotOf s '0' (s.length - 1) with
      | none => s
      | some lastNonZero =>
        if lastNonZero < decimalPos then strErase s (decimalPos + 1)
        else strErase s (lastNonZero + 1)
  let s2 :=
    if startIdx + 1 < s1.length ∧ s1.getD startIdx ' ' = '0' ∧ s1.getD (startIdx + 1) ' ' = '.' then
      strEraseN s1 startIdx 1
    else s1
  if s2 = ".".toList ∨ s2 = "-.".toList then "0.".toList else s2

/-! ## The reader of a single letter -/

/-- How a call of `userInputLR` ends on a finite script of keystrokes: it
returns the letter, with the keys left over and the characters written to
`std::cout`; or it throws; or the script ends first and the call is still
waiting for a key. -/
inductive LROutcome
  | returned (c : Char) (rest : List Char) (out : List Char)
  | threw (e : Exn) (out : List Char)
  | waiting (input : List Char) (out : List Char)
  deriving DecidableEq, Repr

/-- The hint `userInputLR` prints when Enter does not end the read. -/
def lrHint : List Char := "Enter 'l', 'L', 'r', or 'R': ".toList

/-- The loop of `userInputLR`, from the buffer `input` and the output `out`
written so far. -/
def userInputLRFrom : List Char → List Char → List Char → LROutcome
  | [], input, out => .waiting input out
  | ch :: keys, input, out =>
    if ch = SPECIAL_KEY_PREFIX_1 ∨ ch = SPECIAL_KEY_PREFIX_2 then
      match keys with
      | [] => .waiting input out
      | _ :: keys1 => userInputLRFrom keys1 input out
    else if ch = ESC then .threw Exn.escapePressed out
    else if ch = ENTER then
      if input.length = 1 ∧
          (input.getD 0 ' ' = 'l' ∨ input.getD 0 ' ' = 'L' ∨
            input.getD 0 ' ' = 'r' ∨ input.getD 0 ' ' = 'R') then
        .returned (input.getD 0 ' ') keys (out ++ ['\n'])
      else userInputLRFrom keys [] (out ++ ['\n'] ++ lrHint)
    else if ch = BACKSPACE then
      if input ≠ [] then userInputLRFrom keys input.dropLast (out ++ "\x08 \x08".toList)
      else userInputLRFrom keys input out
    else if ch = 'l' ∨ ch = 'L' ∨ ch = 'r' ∨ ch = 'R' then
      if input = [] then userInputLRFrom keys (input ++ [ch]) (out ++ [ch])
      else userInputLRFrom keys input out
    else userInputLRFrom keys input out

/-- The function `userInputLR`, on a script of keystrokes. -/
def userInputLR (keys : List Char) : LROutcome := userInputLRFrom keys [] []

/-! ## The readers, as the specification words them -/

/-- The characters `getUserInputString` accepts into the buffer: a decimal
digit, `.`, `/`, `-`, and the letters `m` and `M` when the unit suffix is
allowed. -/
def Accepted (allowMM : Bool) (c : Char) : Prop :=
  c.isDigit = true ∨ c = '.' ∨ c = '/' ∨ c = '-' ∨ (allowMM = true ∧ (c = 'm' ∨ c = 'M'))

instance (allowMM : Bool) (c : Char) : Decidable (Accepted allowMM c) :=
  inferInstanceAs (Decidable (_ ∨ _))

/-- The control keys of the readers: the two special-key prefixes, Escape,
Enter and Backspace. -/
def IsControl (c : Char) : Prop :=
  c = SPECIAL_KEY_PREFIX_1 ∨ c = SPECIAL_KEY_PREFIX_2 ∨ c = ESC ∨ c = ENTER ∨ c = BACKSPACE

instance (c : Char) : Decidable (IsControl c) :=
  inferInstanceAs (Decidable (_ ∨ _))

/-- The buffer after replaying accepted characters as pushes and Backspaces
as pops of a non-empty buffer. -/
def replay : List Char → List Char → List Char
  | [], buf => buf
  | k :: ks, buf => if k = BACKSPACE then replay ks buf.dropLast else replay ks (buf ++ [k])

/-- The script without its special keys: every special-key prefix byte is
deleted together with the byte that follows it. -/
def dropSpecial : List Char → List Char
  | [] => []
  | p :: ks =>
    if p = SPECIAL_KEY_PREFIX_1 ∨ p = SPECIAL_KEY_PREFIX_2 then
      match ks with
      | [] => []
      | _ :: ks1 => dropSpecial ks1
    else p :: dropSpecial ks

/-- The outcome of a read with the keys left over replaced. -/
def ReadOutcome.mapRest (f : List Char → List Char) : ReadOutcome → ReadOutcome
  | .line input rest out => .line input (f rest) out
  | .threw e out => .threw e out
  | .waiting input out => .waiting input out

/-! ## Rounding, as the specification words it -/

/-- The natural number `n` is an integer nearest to `u`, and the even one of
the two nearest when `u` lies half-way between them. -/
def NearestEven (u : ℚ) (n : ℕ) : Prop :=
  |(n : ℚ) - u| ≤ 1 / 2 ∧ (|(n : ℚ) - u| = 1 / 2 → n % 2 = 0)

instance (u : ℚ) (n : ℕ) : Decidable (NearestEven u n) :=
  inferInstanceAs (Decidable (_ ∧ _))

/-! ## Lemmas on the grammars and the conversions -/

open RegularExpression

theorem isDigit_iff_toNat (c : Char) : c.isDigit = true ↔ 48 ≤ c.toNat ∧ c.toNat ≤ 57 := by
  simp [Char.isDigit, Char.toNat, UInt32.le_def, Fin.le_def]
  rfl

theorem isDigit_cases (c : Char) (h : c.isDigit = true) :
    c = '0' ∨ c = '1' ∨ c = '2' ∨ c = '3' ∨ c = '4' ∨ c = '5' ∨ c = '6' ∨ c = '7' ∨
      c = '8' ∨ c = '9' := by
  rw [isDigit_iff_toNat] at h
  obtain ⟨h1, h2⟩ := h
  have hc : c = Char.ofNat c.toNat := (Char.ofNat_toNat c).symm
  generalize c.toNat = n at *
  interval_cases n <;> simp [hc]

theorem digit_rmatch_iff (x : List Char) : digit.rmatch x ↔ ∃ c, c.isDigit = true ∧ x = [c] := by
  simp only [digit, add_rmatch_iff, char_rmatch_iff]
  constructor
  · intro h
    rcases h with ((((((((h | h) | h) | h) | h) | h) | h) | h) | h) | h <;>
      exact ⟨_, by decide, h⟩
  · rintro ⟨c, hc, rfl⟩
    rcases isDigit_cases c hc with h | h | h | h | h | h | h | h | h | h <;> simp [h]

theorem IsDigits.nil : IsDigits [] := by simp [IsDigits]

theorem isDigits_cons (c : Char) (ds : List Char) :
    IsDigits (c :: ds) ↔ c.isDigit = true ∧ IsDigits ds := by
  simp [IsDigits]

theorem isDigits_append (xs ys : List Char) :
    IsDigits (xs ++ ys) ↔ IsDigits xs ∧ IsDigits ys := by
  simp only [IsDigits, List.mem_append]
  constructor
  · intro h; exact ⟨fun c hc => h c (Or.inl hc), fun c hc => h c (Or.inr hc)⟩
  · rintro ⟨h1, h2⟩ c (hc | hc)
    · exact h1 c hc
    · exact h2 c hc

theorem star_digit_rmatch_iff (x : List Char) : (star digit).rmatch x ↔ IsDigits x := by
  rw [star_rmatch_iff]
  constructor
  · rintro ⟨S, rfl, hS⟩ c hc
    rw [List.mem_flatten] at hc
    obtain ⟨t, ht, hct⟩ := hc
    obtain ⟨d, hd, rfl⟩ := (digit_rmatch_iff t).1 (hS t ht).2
    simp at hct
    rw [hct]; exact hd
  · intro h
    refine ⟨x.map (fun c => [c]), ?_, ?_⟩
    · clear h
      induction x with
      | nil => rfl
      | cons a x ih => simpa using ih
    · intro t ht
      rw [List.mem_map] at ht
      obtain ⟨c, hc, rfl⟩ := ht
      exact ⟨by simp, (digit_rmatch_iff _).2 ⟨c, h c hc, rfl⟩⟩

theorem oneOrMore_digit_rmatch_iff (x : List Char) :
    (oneOrMore digit).rmatch x ↔ x ≠ [] ∧ IsDigits x := by
  rw [oneOrMore, mul_rmatch_iff]
  constructor
  · rintro ⟨t, u, rfl, ht, hu⟩
    obtain ⟨c, hc, rfl⟩ := (digit_rmatch_iff t).1 ht
    rw [star_digit_rmatch_iff] at hu
    exact ⟨by simp, (isDigits_append _ _).2 ⟨by simpa [IsDigits] using hc, hu⟩⟩
  · rintro ⟨hne, hx⟩
    cases x with
    | nil => exact absurd rfl hne
    | cons c x =>
      rw [isDigits_cons] at hx
      exact ⟨[c], x, rfl, (digit_rmatch_iff _).2 ⟨c, hx.1, rfl⟩, (star_digit_rmatch_iff _).2 hx.2⟩

theorem zeroOrOne_char_rmatch_iff (c : Char) (x : List Char) :
    (zeroOrOne (char c)).rmatch x ↔ x = [] ∨ x = [c] := by
  rw [zeroOrOne, add_rmatch_iff, one_rmatch_iff, char_rmatch_iff]

theorem optMinus_rmatch_iff (x : List Char) :
    (zeroOrOne (char '-')).rmatch x ↔ ∃ neg, x = minus neg := by
  rw [zeroOrOne_char_rmatch_iff]
  constructor
  · rintro (h | h)
    · exact ⟨false, h⟩
    · exact ⟨true, h⟩
  · rintro ⟨neg, rfl⟩
    cases neg <;> simp [minus]

theorem signedDigits_rmatch_iff (x : List Char) :
    (zeroOrOne (char '-') * oneOrMore digit).rmatch x ↔
      ∃ neg ds, x = minus neg ++ ds ∧ ds ≠ [] ∧ IsDigits ds := by
  rw [mul_rmatch_iff]
  constructor
  · rintro ⟨t, u, rfl, ht, hu⟩
    obtain ⟨neg, rfl⟩ := (optMinus_rmatch_iff t).1 ht
    exact ⟨neg, u, rfl, (oneOrMore_digit_rmatch_iff u).1 hu⟩
  · rintro ⟨neg, ds, rfl, h⟩
    exact ⟨minus neg, ds, rfl, (optMinus_rmatch_iff _).2 ⟨neg, rfl⟩,
      (oneOrMore_digit_rmatch_iff ds).2 h⟩

theorem fractionPattern_rmatch_iff (x : List Char) :
    fractionPattern.rmatch x ↔
      ∃ n1 a n2 b, x = fractionText n1 a n2 b ∧ a ≠ [] ∧ IsDigits a ∧ b ≠ [] ∧ IsDigits b := by
  rw [fractionPattern, mul_rmatch_iff]
  constructor
  · rintro ⟨t, u, rfl, ht, hu⟩
    rw [mul_rmatch_iff] at ht
    obtain ⟨t1, t2, rfl, ht1, ht2⟩ := ht
    obtain ⟨n1, a, rfl, ha, ha2⟩ := (signedDigits_rmatch_iff t1).1 ht1
    obtain ⟨n2, b, rfl, hb, hb2⟩ := (signedDigits_rmatch_iff u).1 hu
    rw [char_rmatch_iff] at ht2
    subst ht2
    exact ⟨n1, a, n2, b, by simp [fractionText], ha, ha2, hb, hb2⟩
  · rintro ⟨n1, a, n2, b, rfl, ha, ha2, hb, hb2⟩
    refine ⟨minus n1 ++ a ++ ['/'], minus n2 ++ b, by simp [fractionText], ?_, ?_⟩
    · rw [mul_rmatch_iff]
      exact ⟨minus n1 ++ a, ['/'], rfl, (signedDigits_rmatch_iff _).2 ⟨n1, a, rfl, ha, ha2⟩,
        (char_rmatch_iff _ _).2 rfl⟩
    · exact (signedDigits_rmatch_iff _).2 ⟨n2, b, rfl, hb, hb2⟩

theorem decimalPattern_rmatch_iff (x : List Char) :
    decimalPattern.rmatch x ↔
      ∃ neg ip frac, x = decimalText neg ip frac ∧ DecimalParts ip frac := by
  rw [decimalPattern, mul_rmatch_iff]
  constructor
  · rintro ⟨t, u, rfl, ht, hu⟩
    obtain ⟨neg, rfl⟩ := (optMinus_rmatch_iff t).1 ht
    rw [add_rmatch_iff] at hu
    rcases hu with hu | hu
    · rw [mul_rmatch_iff] at hu
      obtain ⟨v, fp, rfl, hv, hfp⟩ := hu
      rw [mul_rmatch_iff] at hv
      obtain ⟨ip, d, rfl, hip, hd⟩ := hv
      rw [star_digit_rmatch_iff] at hip
      rw [oneOrMore_digit_rmatch_iff] at hfp
      rw [zeroOrOne_char_rmatch_iff] at hd
      rcases hd with rfl | rfl
      · exact ⟨neg, ip ++ fp, none, by simp [decimalText, pointPart],
          (isDigits_append _ _).2 ⟨hip, hfp.2⟩, IsDigits.nil, Or.inl (by simp [hfp.1])⟩
      · exact ⟨neg, ip, some fp, by simp [decimalText, pointPart], hip, hfp.2, Or.inr hfp.1⟩
    · rw [mul_rmatch_iff] at hu
      obtain ⟨v, fp, rfl, hv, hfp⟩ := hu
      rw [mul_rmatch_iff] at hv
      obtain ⟨ip, d, rfl, hip, hd⟩ := hv
      rw [star_digit_rmatch_iff] at hfp
      rw [oneOrMore_digit_rmatch_iff] at hip
      rw [zeroOrOne_char_rmatch_iff] at hd
      rcases hd with rfl | rfl
      · exact ⟨neg, ip ++ fp, none, by simp [decimalText, pointPart],
          (isDigits_append _ _).2 ⟨hip.2, hfp⟩, IsDigits.nil, Or.inl (by simp [hip.1])⟩
      · exact ⟨neg, ip, some fp, by simp [decimalText, pointPart], hip.2, hfp, Or.inl hip.1⟩
  · rintro ⟨neg, ip, frac, rfl, hip, hfp, hne⟩
    refine ⟨minus neg, ip ++ pointPart frac, by simp [decimalText, pointPart],
      (optMinus_rmatch_iff _).2 ⟨neg, rfl⟩, ?_⟩
    rw [add_rmatch_iff]
    cases frac with
    | none =>
      simp only [fracDigits, Option.getD_none, ne_eq, not_true_eq_false, or_false] at hne
      right
      rw [mul_rmatch_iff]
      refine ⟨ip, [], by simp [pointPart], ?_, (star_digit_rmatch_iff _).2 IsDigits.nil⟩
      rw [mul_rmatch_iff]
      exact ⟨ip, [], by simp, (oneOrMore_digit_rmatch_iff _).2 ⟨hne, hip⟩,
        (zeroOrOne_char_rmatch_iff _ _).2 (Or.inl rfl)⟩
    | some fp =>
      simp only [fracDigits, Option.getD_some] at hne hfp
      by_cases hfe : fp = []
      · have hie : ip ≠ [] := by rcases hne with h | h; exact h; exact absurd hfe h
        right
        rw [mul_rmatch_iff]
        refine ⟨ip ++ ['.'], fp, by simp [pointPart], ?_, (star_digit_rmatch_iff _).2 hfp⟩
        rw [mul_rmatch_iff]
        exact ⟨ip, ['.'], rfl, (oneOrMore_digit_rmatch_iff _).2 ⟨hie, hip⟩,
          (zeroOrOne_char_rmatch_iff _ _).2 (Or.inr rfl)⟩
      · left
        rw [mul_rmatch_iff]
        refine ⟨ip ++ ['.'], fp, by simp [pointPart], ?_, (oneOrMore_digit_rmatch_iff _).2 ⟨hfe, hfp⟩⟩
        rw [mul_rmatch_iff]
        exact ⟨ip, ['.'], rfl, (star_digit_rmatch_iff _).2 hip,
          (zeroOrOne_char_rmatch_iff _ _).2 (Or.inr rfl)⟩

theorem digit_not_special (c : Char) (h : c.isDigit = true) :
    isspace c = false ∧ c ≠ '-' ∧ c ≠ '+' ∧ c ≠ '/' ∧ c ≠ '.' ∧ c ≠ 'm' ∧ c ≠ 'M' := by
  rcases isDigit_cases c h with h | h | h | h | h | h | h | h | h | h <;> subst h <;> decide

theorem takeWhile_isDigit_append (ds rest : List Char) (hd : IsDigits ds)
    (hr : ∀ c t, rest = c :: t → c.isDigit = false) :
    (ds ++ rest).takeWhile Char.isDigit = ds := by
  induction ds with
  | nil =>
    cases rest with
    | nil => rfl
    | cons c t => simp [List.takeWhile, hr c t rfl]
  | cons d ds ih =>
    rw [isDigits_cons] at hd
    simp [List.takeWhile, hd.1, ih hd.2]

theorem dropWhile_isDigit_append (ds rest : List Char) (hd : IsDigits ds)
    (hr : ∀ c t, rest = c :: t → c.isDigit = false) :
    (ds ++ rest).dropWhile Char.isDigit = rest := by
  induction ds with
  | nil =>
    cases rest with
    | nil => rfl
    | cons c t => simp [List.dropWhile, hr c t rfl]
  | cons d ds ih =>
    rw [isDigits_cons] at hd
    simp [List.dropWhile, hd.1, ih hd.2]

theorem takeWhile_isDigit_self (ds : List Char) (hd : IsDigits ds) :
    ds.takeWhile Char.isDigit = ds := by
  have := takeWhile_isDigit_append ds [] hd (by simp)
  simpa using this

theorem unsigned_digits (ds rest : List Char) (hd : IsDigits ds) (hr : Unsigned rest) :
    Unsigned (ds ++ rest) := by
  cases ds with
  | nil => simpa using hr
  | cons d ds =>
    intro c u h
    simp at h
    rw [← h.1]
    exact Or.inl ((isDigits_cons _ _).1 hd).1

theorem unsigned_pointPart (frac : Option (List Char)) : Unsigned (pointPart frac) := by
  cases frac with
  | none => intro c u h; simp [pointPart] at h
  | some fp => intro c u h; simp [pointPart] at h; exact Or.inr h.1.symm

theorem unsigned_nil : Unsigned [] := by intro c u h; simp at h

theorem head_not_special (c : Char) (h : c.isDigit = true ∨ c = '.') :
    isspace c = false ∧ c ≠ '-' ∧ c ≠ '+' := by
  rcases h with h | h
  · have := digit_not_special c h
    exact ⟨this.1, this.2.1, this.2.2.1⟩
  · subst h; decide

theorem dropWhile_isspace_minus (neg : Bool) (t : List Char) (ht : Unsigned t) :
    (minus neg ++ t).dropWhile isspace = minus neg ++ t := by
  cases neg with
  | true =>
    have h : isspace '-' = false := by decide
    simp [minus, List.dropWhile, h]
  | false =>
    cases t with
    | nil => rfl
    | cons c u => simp [minus, List.dropWhile, (head_not_special c (ht c u rfl)).1]

theorem splitSign_minus (neg : Bool) (t : List Char) (ht : Unsigned t) :
    splitSign (minus neg ++ t) = (neg, t) := by
  cases neg with
  | true => rfl
  | false =>
    cases t with
    | nil => rfl
    | cons c u =>
      have h := head_not_special c (ht c u rfl)
      simp only [minus, Bool.false_eq_true, ↓reduceIte, List.nil_append]
      unfold splitSign
      split
      · rename_i heq; simp at heq; exact absurd heq.1 h.2.1
      · rename_i heq; simp at heq; exact absurd heq.1 h.2.2
      · rfl

theorem stoi_signed (neg : Bool) (ds : List Char) (hne : ds ≠ []) (hd : IsDigits ds) :
    stoi (minus neg ++ ds) =
      if InIntRange (signedValue neg ds) then .ok (signedValue neg ds)
      else .error Exn.outOfRange := by
  have hu : Unsigned ds := by simpa using unsigned_digits ds [] hd unsigned_nil
  unfold stoi
  simp only [dropWhile_isspace_minus neg ds hu, splitSign_minus neg ds hu,
    takeWhile_isDigit_self ds hd, if_neg hne]
  unfold InIntRange
  change (if signedValue neg ds < -2147483648 ∨ 2147483647 < signedValue neg ds then
    Except.error Exn.outOfRange else Except.ok (signedValue neg ds)) = _
  generalize signedValue neg ds = v
  by_cases h : v < -2147483648 ∨ 2147483647 < v
  · rw [if_pos h, if_neg (by omega)]
  · rw [if_neg h, if_pos (by omega)]

theorem no_slash_signed (neg : Bool) (ds : List Char) (hd : IsDigits ds) :
    ∀ c ∈ minus neg ++ ds, (c != '/') = true := by
  intro c hc
  rw [List.mem_append] at hc
  rcases hc with hc | hc
  · cases neg <;> simp [minus] at hc
    subst hc; decide
  · simpa using (digit_not_special c (hd c hc)).2.2.2.1

theorem fractionGroups_text (n1 : Bool) (a : List Char) (n2 : Bool) (b : List Char)
    (ha : IsDigits a) :
    fractionGroups (fractionText n1 a n2 b) = (minus n1 ++ a, minus n2 ++ b) := by
  have h := no_slash_signed n1 a ha
  unfold fractionGroups fractionText
  have h1 : ∀ (l r : List Char), (∀ c ∈ l, (c != '/') = true) →
      (l ++ '/' :: r).takeWhile (fun c => c != '/') = l ∧
      (l ++ '/' :: r).dropWhile (fun c => c != '/') = '/' :: r := by
    intro l r hl
    induction l with
    | nil => simp [List.takeWhile, List.dropWhile]
    | cons x l ih =>
      have hx := hl x (by simp)
      have := ih (fun c hc => hl c (by simp [hc]))
      simp [List.takeWhile, List.dropWhile, hx, this]
  obtain ⟨e1, e2⟩ := h1 (minus n1 ++ a) (minus n2 ++ b) h
  rw [e1, e2]; rfl

theorem stod_text (lib : CLib) (neg : Bool) (ip : List Char) (frac : Option (List Char))
    (h : DecimalParts ip frac) :
    stod lib (decimalText neg ip frac) =
      strtodRound lib neg (decimalValue (ip ++ fracDigits frac)) (10 ^ (fracDigits frac).length) := by
  obtain ⟨hip, hfp, hne⟩ := h
  have hu : Unsigned (ip ++ pointPart frac) := unsigned_digits _ _ hip (unsigned_pointPart frac)
  have hpt : ∀ c t, pointPart frac = c :: t → c.isDigit = false := by
    intro c t h
    cases frac with
    | none => simp [pointPart] at h
    | some fp => simp [pointPart] at h; rw [← h.1]; decide
  unfold stod decimalText
  simp only [List.append_assoc, dropWhile_isspace_minus neg _ hu, splitSign_minus neg _ hu,
    takeWhile_isDigit_append ip _ hip hpt, dropWhile_isDigit_append ip _ hip hpt]
  cases frac with
  | none =>
    simp only [fracDigits, Option.getD_none, ne_eq, not_true_eq_false, or_false] at hne
    simp [pointPart, fracDigits, hne]
  | some fp =>
    simp only [fracDigits, Option.getD_some] at hne hfp
    simp only [pointPart, fracDigits, Option.getD_some, takeWhile_isDigit_self fp hfp]
    rw [if_neg]
    rintro ⟨h1, h2⟩
    rcases hne with h | h
    · exact h h1
    · exact h h2

theorem toLower_isM (c : Char) : (c.toLower = 'm' ∨ c.toLower = 'M') ↔ isM c = true := by
  by_cases h : 65 ≤ c.toNat ∧ c.toNat ≤ 90
  · obtain ⟨h1, h2⟩ := h
    have hc : c = Char.ofNat c.toNat := (Char.ofNat_toNat c).symm
    generalize c.toNat = n at *
    subst hc
    interval_cases n <;> decide
  · have hl : c.toLower = c := by
      unfold Char.toLower
      simp only [ge_iff_le]
      rw [if_neg h]
    rw [hl]
    simp [isM]

theorem endsWithMM_eq (input : List Char) :
    endsWithMM input =
      (hasUnitSuffix input, if hasUnitSuffix input then input.take (input.length - 2) else input) := by
  unfold endsWithMM hasUnitSuffix
  by_cases h2 : 2 ≤ input.length
  · obtain ⟨init, x, y, rfl⟩ : ∃ init x y, input = init ++ [x, y] := by
      refine ⟨input.take (input.length - 2), input.getD (input.length - 2) ' ',
        input.getD (input.length - 1) ' ', ?_⟩
      apply List.ext_getElem
      · simp; omega
      · intro i hi1 hi2
        by_cases hi : i < input.length - 2
        · simp [List.getElem_append_left, hi]
        · rw [List.getElem_append_right (by simp; omega)]
          simp only [List.length_take, List.length_cons, List.length_nil] at *
          have : i = input.length - 2 ∨ i = input.length - 1 := by omega
          rcases this with h | h
          · have e : i - min (input.length - 2) input.length = 0 := by omega
            simp only [e, List.getElem_cons_zero]
            rw [List.getD_eq_getElem _ _ (by omega)]
            simp [h]
          · have e : i - min (input.length - 2) input.length = 1 := by omega
            simp only [e, List.getElem_cons_succ, List.getElem_cons_zero]
            rw [List.getD_eq_getElem _ _ (by omega)]
            simp [h]
    have e1 : (init ++ [x, y]).length - 2 = init.length := by simp
    have e2 : (init ++ [x, y]).length - 1 = init.length + 1 := by simp
    have g1 : (init ++ [x, y]).getD init.length ' ' = x := by
      rw [List.getD_eq_getElem?_getD, List.getElem?_append_right (le_refl _)]
      simp
    have g2 : (init ++ [x, y]).getD (init.length + 1) ' ' = y := by
      rw [List.getD_eq_getElem?_getD, List.getElem?_append_right (by omega)]
      simp
    rw [if_pos h2, e1, e2, g1, g2]
    simp only [toLower_isM, List.take_left', List.drop_left', h2, decide_True, Bool.true_and,
      List.all_cons, List.all_nil, Bool.and_true, Bool.and_eq_true]
    by_cases hm : isM x = true ∧ isM y = true
    · rw [if_pos hm]; simp [hm.1, hm.2]
    · rw [if_neg hm]
      have : (isM x && isM y) = false := by
        rw [Bool.and_eq_false_iff]
        by_cases hx : isM x = true
        · right; simpa using fun hy => hm ⟨hx, hy⟩
        · left; simpa using hx
      simp [this, hm]
  · rw [if_neg h2]; simp [h2]

theorem ok_enforce (mp mn : String) (rp rn az mm : Bool) (v : Double) :
    (Except.ok (enforce mp mn rp rn az mm v) : Except Exn ParseResult) =
      if (rp && v.ltZero) = true then .ok (.rejected mp)
      else if (rn && v.gtZero) = true then .ok (.rejected mn)
      else if (!az && v.eqZero) = true then .ok (.rejected "Zero not allowed.")
      else .ok (.accepted (if mm = true then v.div Double.c25_4 else v)) := by
  unfold enforce
  split_ifs <;> rfl

theorem parse_eq_parseCore (lib : CLib) (input : List Char)
    (allowMM requirePositive requireNegative allowZero : Bool) :
    parseInputWithOptionalMM lib input allowMM requirePositive requireNegative allowZero =
      parseCore lib (coreOf allowMM input) (inUnitSuffix allowMM input)
        requirePositive requireNegative allowZero := by
  have hcore : (if allowMM = true then (endsWithMM input).2 else input) = coreOf allowMM input := by
    rw [endsWithMM_eq]; unfold coreOf inUnitSuffix
    cases allowMM <;> simp
  have hmm : (allowMM && (endsWithMM input).1) = inUnitSuffix allowMM input := by
    rw [endsWithMM_eq]; rfl
  unfold parseInputWithOptionalMM parseCore
  simp only [hcore, hmm, ok_enforce]

theorem regex_match_fractionText (n1 : Bool) (a : List Char) (n2 : Bool) (b : List Char)
    (ha : a ≠ []) (ha2 : IsDigits a) (hb : b ≠ []) (hb2 : IsDigits b) :
    regex_match (fractionText n1 a n2 b) fractionPattern = true :=
  (fractionPattern_rmatch_iff _).2 ⟨n1, a, n2, b, rfl, ha, ha2, hb, hb2⟩

theorem parseCore_fraction (lib : CLib) (n1 : Bool) (a : List Char) (n2 : Bool) (b : List Char)
    (inMM rp rn az : Bool) (ha : a ≠ []) (ha2 : IsDigits a) (hb : b ≠ []) (hb2 : IsDigits b) :
    parseCore lib (fractionText n1 a n2 b) inMM rp rn az =
      if InIntRange (signedValue n1 a) then
        if InIntRange (signedValue n2 b) then
          if signedValue n2 b = 0 then .ok (.rejected "Denominator cannot be zero.")
          else .ok (enforce "Fraction must be positive." "Fraction must be negative." rp rn az inMM
            ((Double.ofInt (signedValue n1 a)).div (Double.ofInt (signedValue n2 b))))
        else .error Exn.outOfRange
      else .error Exn.outOfRange := by
  unfold parseCore
  rw [if_pos (regex_match_fractionText n1 a n2 b ha ha2 hb hb2), fractionGroups_text n1 a n2 b ha2]
  simp only [stoi_signed n1 a ha ha2, stoi_signed n2 b hb hb2]
  by_cases h1 : InIntRange (signedValue n1 a)
  · by_cases h2 : InIntRange (signedValue n2 b)
    · simp only [if_pos h1, if_pos h2]
    · simp only [if_pos h1, if_neg h2]
  · simp only [if_neg h1]

theorem grammarChar_minus (neg : Bool) : ∀ c ∈ minus neg, grammarChar c := by
  intro c hc
  cases neg <;> simp [minus] at hc
  subst hc; exact Or.inr (Or.inl rfl)

theorem grammarChar_digits (ds : List Char) (h : IsDigits ds) : ∀ c ∈ ds, grammarChar c :=
  fun c hc => Or.inl (h c hc)

theorem grammarChar_fractionText (n1 : Bool) (a : List Char) (n2 : Bool) (b : List Char)
    (ha : IsDigits a) (hb : IsDigits b) : ∀ c ∈ fractionText n1 a n2 b, grammarChar c := by
  intro c hc
  simp only [fractionText, List.mem_append, List.mem_cons] at hc
  rcases hc with (hc | hc) | hc | hc | hc
  · exact grammarChar_minus n1 c hc
  · exact Or.inl (ha c hc)
  · subst hc; exact Or.inr (Or.inr (Or.inr rfl))
  · exact grammarChar_minus n2 c hc
  · exact Or.inl (hb c hc)

theorem grammarChar_decimalText (neg : Bool) (ip : List Char) (frac : Option (List Char))
    (h : DecimalParts ip frac) : ∀ c ∈ decimalText neg ip frac, grammarChar c := by
  intro c hc
  simp only [decimalText, List.mem_append] at hc
  rcases hc with (hc | hc) | hc
  · exact grammarChar_minus neg c hc
  · exact Or.inl (h.1 c hc)
  · cases frac with
    | none => simp [pointPart] at hc
    | some fp =>
      simp only [pointPart, List.mem_cons] at hc
      rcases hc with hc | hc
      · subst hc; exact Or.inr (Or.inr (Or.inl rfl))
      · exact Or.inl (h.2.1 c (by simpa [fracDigits] using hc))

theorem grammarChar_not_isM (c : Char) (h : grammarChar c) : isM c = false := by
  rcases h with h | h | h | h
  · have := digit_not_special c h
    simp [isM, this.2.2.2.2.2.1, this.2.2.2.2.2.2]
  · subst h; decide
  · subst h; decide
  · subst h; decide

theorem grammarChar_not_slash_of_decimal (neg : Bool) (ip : List Char)
    (frac : Option (List Char)) (h : DecimalParts ip frac) :
    '/' ∉ decimalText neg ip frac := by
  intro hc
  simp only [decimalText, List.mem_append] at hc
  rcases hc with (hc | hc) | hc
  · cases neg <;> simp [minus] at hc
  · exact absurd (h.1 _ hc) (by decide)
  · cases frac with
    | none => simp [pointPart] at hc
    | some fp =>
      simp only [pointPart, List.mem_cons] at hc
      rcases hc with hc | hc
      · exact absurd hc (by decide)
      · exact absurd (h.2.1 _ (by simpa [fracDigits] using hc)) (by decide)

theorem regex_match_decimalText (neg : Bool) (ip : List Char) (frac : Option (List Char))
    (h : DecimalParts ip frac) :
    regex_match (decimalText neg ip frac) fractionPattern = false ∧
      regex_match (decimalText neg ip frac) decimalPattern = true := by
  constructor
  · rw [Bool.eq_false_iff]
    intro hm
    obtain ⟨n1, a, n2, b, he, -⟩ := (fractionPattern_rmatch_iff _).1 hm
    apply grammarChar_not_slash_of_decimal neg ip frac h
    rw [he]; simp [fractionText]
  · exact (decimalPattern_rmatch_iff _).2 ⟨neg, ip, frac, rfl, h⟩

theorem parseCore_decimal (lib : CLib) (neg : Bool) (ip : List Char) (frac : Option (List Char))
    (inMM rp rn az : Bool) (h : DecimalParts ip frac) :
    parseCore lib (decimalText neg ip frac) inMM rp rn az =
      match strtodRound lib neg (decimalValue (ip ++ fracDigits frac))
          (10 ^ (fracDigits frac).length) with
      | .error _ => .ok (.rejected "Invalid decimal input.")
      | .ok val => .ok (enforce "Value must be positive." "Value must be negative." rp rn az
          inMM val) := by
  unfold parseCore
  rw [(regex_match_decimalText neg ip frac h).1, (regex_match_decimalText neg ip frac h).2,
    stod_text lib neg ip frac h]
  simp only [Bool.false_eq_true, if_false, if_true]

theorem hasUnitSuffix_false_of_grammar (s : List Char) (h : ∀ c ∈ s, grammarChar c) :
    hasUnitSuffix s = false := by
  rw [Bool.eq_false_iff]
  intro hs
  unfold hasUnitSuffix at hs
  simp only [Bool.and_eq_true, decide_eq_true_eq, List.all_eq_true] at hs
  obtain ⟨h2, hall⟩ := hs
  have hne : s.drop (s.length - 2) ≠ [] := by
    intro he
    have := congrArg List.length he
    simp at this; omega
  obtain ⟨c, t, hct⟩ := List.exists_cons_of_ne_nil hne
  have hc : c ∈ s.drop (s.length - 2) := by rw [hct]; simp
  have := hall c hc
  rw [grammarChar_not_isM c (h c (List.mem_of_mem_drop hc))] at this
  exact absurd this (by decide)

theorem core_of_grammar (allowMM : Bool) (s : List Char) (h : ∀ c ∈ s, grammarChar c) :
    coreOf allowMM s = s ∧ inUnitSuffix allowMM s = false := by
  have := hasUnitSuffix_false_of_grammar s h
  simp [coreOf, inUnitSuffix, this]

theorem core_of_suffix (c : List Char) (x y : Char) (hx : isM x = true) (hy : isM y = true) :
    coreOf true (c ++ [x, y]) = c ∧ inUnitSuffix true (c ++ [x, y]) = true := by
  have h1 : (c ++ [x, y]).length - 2 = c.length := by simp
  have : hasUnitSuffix (c ++ [x, y]) = true := by
    unfold hasUnitSuffix
    rw [h1]
    simp [hx, hy]
  simp [coreOf, inUnitSuffix, this]

theorem core_without_flag (s : List Char) : coreOf false s = s ∧ inUnitSuffix false s = false := by
  simp [coreOf, inUnitSuffix]

theorem enforce_toInches (mp mn : String) (rp rn az : Bool) (v : Double) :
    enforce mp mn rp rn az true v = (enforce mp mn rp rn az false v).toInches := by
  unfold enforce
  by_cases h1 : (rp && v.ltZero) = true
  · simp only [if_pos h1, ParseResult.toInches]
  · by_cases h2 : (rn && v.gtZero) = true
    · simp only [if_neg h1, if_pos h2, ParseResult.toInches]
    · by_cases h3 : (!az && v.eqZero) = true
      · simp only [if_neg h1, if_neg h2, if_pos h3, ParseResult.toInches]
      · simp only [if_neg h1, if_neg h2, if_neg h3, ParseResult.toInches, if_true,
          Bool.false_eq_true, if_false]

theorem parseCore_toInches (lib : CLib) (core : List Char) (rp rn az : Bool) :
    parseCore lib core true rp rn az = (parseCore lib core false rp rn az).map ParseResult.toInches := by
  unfold parseCore
  simp only [enforce_toInches]
  split
  · split
    · rfl
    · split
      · rfl
      · split <;> rfl
  · split
    · split <;> rfl
    · rfl

theorem foldl_decimal (l : List Char) (a : Nat) :
    l.foldl (fun acc c => 10 * acc + digitVal c) a = a * 10 ^ l.length + decimalValue l := by
  unfold decimalValue
  induction l generalizing a with
  | nil => simp
  | cons c l ih =>
    simp only [List.foldl_cons, List.length_cons]
    rw [ih (10 * a + digitVal c), ih (10 * 0 + digitVal c)]
    ring

theorem decimalValue_cons (c : Char) (l : List Char) :
    decimalValue (c :: l) = digitVal c * 10 ^ l.length + decimalValue l := by
  have := foldl_decimal l (digitVal c)
  unfold decimalValue at *
  simpa using this

theorem digitChar_spec (d : Nat) (h : d < 10) :
    (digitChar d).isDigit = true ∧ digitVal (digitChar d) = d := by
  interval_cases d <;> decide

theorem natDigitsAux_spec (fuel n : Nat) (acc : List Char) (h : n < fuel) (hacc : IsDigits acc) :
    IsDigits (natDigitsAux fuel n acc) ∧ natDigitsAux fuel n acc ≠ [] ∧
      decimalValue (natDigitsAux fuel n acc) = n * 10 ^ acc.length + decimalValue acc := by
  induction fuel generalizing n acc with
  | zero => omega
  | succ fuel ih =>
    unfold natDigitsAux
    by_cases h10 : n < 10
    · rw [if_pos h10]
      refine ⟨(isDigits_cons _ _).2 ⟨(digitChar_spec n h10).1, hacc⟩, by simp, ?_⟩
      rw [decimalValue_cons, (digitChar_spec n h10).2]
    · rw [if_neg h10]
      have hd := digitChar_spec (n % 10) (Nat.mod_lt _ (by norm_num))
      obtain ⟨h1, h2, h3⟩ := ih (n / 10) (digitChar (n % 10) :: acc) (by omega)
        ((isDigits_cons _ _).2 ⟨hd.1, hacc⟩)
      refine ⟨h1, h2, ?_⟩
      rw [h3, decimalValue_cons, hd.2, List.length_cons, pow_succ]
      have hn : n = 10 * (n / 10) + n % 10 := (Nat.div_add_mod n 10).symm
      conv_rhs => rw [hn]
      ring

theorem natDigits_spec (n : Nat) :
    IsDigits (natDigits n) ∧ natDigits n ≠ [] ∧ decimalValue (natDigits n) = n := by
  have := natDigitsAux_spec (n + 1) n [] (by omega) IsDigits.nil
  simpa [natDigits, decimalValue] using this

theorem decimalValue_snoc (l : List Char) (c : Char) :
    decimalValue (l ++ [c]) = 10 * decimalValue l + digitVal c := by
  simp [decimalValue, List.foldl_append]

theorem padDigits_length (w n : Nat) : (padDigits w n).length = w := by
  induction w generalizing n with
  | zero => rfl
  | succ w ih => simp [padDigits, ih]

theorem isDigits_padDigits (w n : Nat) : IsDigits (padDigits w n) := by
  induction w generalizing n with
  | zero => exact IsDigits.nil
  | succ w ih =>
    unfold padDigits
    rw [isDigits_append]
    exact ⟨ih _, (isDigits_cons _ _).2
      ⟨(digitChar_spec _ (Nat.mod_lt _ (by norm_num))).1, IsDigits.nil⟩⟩

theorem decimalValue_padDigits (w n : Nat) : decimalValue (padDigits w n) = n % 10 ^ w := by
  induction w generalizing n with
  | zero => simp [padDigits, decimalValue, Nat.mod_one]
  | succ w ih =>
    unfold padDigits
    rw [decimalValue_snoc, ih, (digitChar_spec _ (Nat.mod_lt _ (by norm_num))).2, pow_succ,
      Nat.mul_comm (10 ^ w) 10, Nat.mod_mul]
    omega

theorem intDigits_eq (n : Int) : intDigits n = minus (decide (n < 0)) ++ natDigits n.natAbs := by
  unfold intDigits minus
  by_cases h : n < 0 <;> simp [h]

theorem signedValue_natDigits (n : Int) :
    signedValue (decide (n < 0)) (natDigits n.natAbs) = n := by
  unfold signedValue
  rw [(natDigits_spec _).2.2]
  rcases Int.natAbs_eq n with h' | h'
  · have : ¬ n < 0 := by omega
    simp only [this, decide_False, Bool.false_eq_true, if_false]
    exact h'.symm
  · by_cases h : n < 0
    · simp only [h, decide_True, if_true]
      exact h'.symm
    · have h0 : n = 0 := by omega
      subst h0
      simp

theorem intFraction_eq (n d : Int) :
    intDigits n ++ '/' :: intDigits d =
      fractionText (decide (n < 0)) (natDigits n.natAbs) (decide (d < 0)) (natDigits d.natAbs) := by
  rw [intDigits_eq, intDigits_eq]; rfl

theorem parse_fractionText (lib : CLib) (n1 : Bool) (a : List Char) (n2 : Bool) (b : List Char)
    (allowMM rp rn az : Bool) (ha : a ≠ []) (ha2 : IsDigits a) (hb : b ≠ []) (hb2 : IsDigits b) :
    parseInputWithOptionalMM lib (fractionText n1 a n2 b) allowMM rp rn az =
      if InIntRange (signedValue n1 a) then
        if InIntRange (signedValue n2 b) then
          if signedValue n2 b = 0 then .ok (.rejected "Denominator cannot be zero.")
          else .ok (enforce "Fraction must be positive." "Fraction must be negative." rp rn az false
            ((Double.ofInt (signedValue n1 a)).div (Double.ofInt (signedValue n2 b))))
        else .error Exn.outOfRange
      else .error Exn.outOfRange := by
  have hc := core_of_grammar allowMM _ (grammarChar_fractionText n1 a n2 b ha2 hb2)
  rw [parse_eq_parseCore, hc.1, hc.2, parseCore_fraction lib n1 a n2 b false rp rn az ha ha2 hb hb2]

theorem parse_decimalText (lib : CLib) (neg : Bool) (ip : List Char) (frac : Option (List Char))
    (allowMM rp rn az : Bool) (h : DecimalParts ip frac) :
    parseInputWithOptionalMM lib (decimalText neg ip frac) allowMM rp rn az =
      match strtodRound lib neg (decimalValue (ip ++ fracDigits frac))
          (10 ^ (fracDigits frac).length) with
      | .error _ => .ok (.rejected "Invalid decimal input.")
      | .ok val => .ok (enforce "Value must be positive." "Value must be negative." rp rn az
          false val) := by
  have hc := core_of_grammar allowMM _ (grammarChar_decimalText neg ip frac h)
  rw [parse_eq_parseCore, hc.1, hc.2]
  exact parseCore_decimal lib neg ip frac false rp rn az h

theorem parse_suffixed (lib : CLib) (c : List Char) (x y : Char) (rp rn az : Bool)
    (hx : isM x = true) (hy : isM y = true) :
    parseInputWithOptionalMM lib (c ++ [x, y]) true rp rn az =
      (parseInputWithOptionalMM lib c false rp rn az).map ParseResult.toInches := by
  have h1 := core_of_suffix c x y hx hy
  have h2 := core_without_flag c
  rw [parse_eq_parseCore, parse_eq_parseCore, h1.1, h1.2, h2.1, h2.2, parseCore_toInches]

theorem c25_4_eq : Double.c25_4 = Double.finite false 7149464408450662 (-48) := by decide!

theorem gtZero_not_ltZero (v : Double) (h : v.gtZero = true) : v.ltZero = false := by
  cases v with
  | finite neg m e => cases neg <;> simp_all [Double.gtZero, Double.ltZero]
  | inf neg => cases neg <;> simp_all [Double.gtZero, Double.ltZero]
  | nan => simp [Double.ltZero]

theorem eqZero_signs (v : Double) (h : v.eqZero = true) :
    v.ltZero = false ∧ v.gtZero = false := by
  cases v with
  | finite neg m e => simp_all [Double.eqZero, Double.gtZero, Double.ltZero]
  | inf neg => simp [Double.eqZero] at h
  | nan => simp [Double.eqZero] at h

theorem eqZero_div_c25_4 (v : Double) (h : v.eqZero = true) :
    (v.div Double.c25_4).eqZero = true := by
  cases v with
  | finite neg m e =>
    simp only [Double.eqZero, decide_eq_true_eq] at h
    subst h
    rw [c25_4_eq]
    simp [Double.div, roundToDouble, Double.eqZero]
  | inf neg => simp [Double.eqZero] at h
  | nan => simp [Double.eqZero] at h

theorem enforce_positive (mp mn : String) (rn az mm : Bool) (v : Double) (h : v.ltZero = true) :
    enforce mp mn true rn az mm v = .rejected mp := by
  simp [enforce, h]

theorem enforce_negative (mp mn : String) (rp az mm : Bool) (v : Double) (h : v.gtZero = true) :
    enforce mp mn rp true az mm v = .rejected mn := by
  simp [enforce, h, gtZero_not_ltZero v h]

theorem enforce_zero (mp mn : String) (rp rn mm : Bool) (v : Double) (h : v.eqZero = true) :
    enforce mp mn rp rn false mm v = .rejected "Zero not allowed." := by
  simp [enforce, h, eqZero_signs v h]

theorem enforce_zero_allowed (mp mn : String) (rp rn mm : Bool) (v : Double)
    (h : v.eqZero = true) :
    enforce mp mn rp rn true mm v = .accepted (if mm = true then v.div Double.c25_4 else v) := by
  simp [enforce, eqZero_signs v h]

theorem parseCore_of_parsesTo (lib : CLib) (core : List Char) (g : Grammar) (v : Double)
    (inMM rp rn az : Bool) (h : ParsesTo lib core g v) :
    parseCore lib core inMM rp rn az =
      .ok (enforce (mustBePositive g) (mustBeNegative g) rp rn az inMM v) := by
  cases h with
  | fraction n1 a n2 b ha ha2 hb hb2 hn hd hd0 =>
    rw [parseCore_fraction lib n1 a n2 b inMM rp rn az ha ha2 hb hb2, if_pos hn, if_pos hd,
      if_neg hd0]
    rfl
  | decimal neg ip frac v hparts hv =>
    rw [parseCore_decimal lib neg ip frac inMM rp rn az hparts, hv]
    rfl

theorem userInputLoop_returns (lib : CLib) (allowMM rp rn az : Bool) (fuel : Nat)
    (keys out input rest out1 : List Char) (v : Double)
    (hg : getUserInputString allowMM keys out = .line input rest out1)
    (hp : parseInputWithOptionalMM lib input allowMM rp rn az = .ok (.accepted v)) :
    userInputLoop lib allowMM rp rn az (fuel + 1) keys out = .returned v rest out1 := by
  rw [userInputLoop, hg]
  simp only [hp]

theorem userInputLoop_throws (lib : CLib) (allowMM rp rn az : Bool) (fuel : Nat)
    (keys out input rest out1 : List Char) (e : Exn)
    (hg : getUserInputString allowMM keys out = .line input rest out1)
    (hp : parseInputWithOptionalMM lib input allowMM rp rn az = .error e) :
    userInputLoop lib allowMM rp rn az (fuel + 1) keys out = .threw e out1 := by
  rw [userInputLoop, hg]
  simp only [hp]

theorem not_fractionShape (s : List Char) (h : fractionPattern.rmatch s = false) :
    ¬ FractionShape s := by
  intro hs
  rw [(fractionPattern_rmatch_iff s).2 hs] at h
  exact absurd h (by decide)

theorem not_decimalShape (s : List Char) (h : decimalPattern.rmatch s = false) :
    ¬ DecimalShape s := by
  intro hs
  rw [(decimalPattern_rmatch_iff s).2 hs] at h
  exact absurd h (by decide)

theorem parse_invalid (lib : CLib) (input : List Char) (allowMM rp rn az : Bool)
    (hA : ¬ FractionShape (coreOf allowMM input)) (hB : ¬ DecimalShape (coreOf allowMM input)) :
    parseInputWithOptionalMM lib input allowMM rp rn az
      = .ok (.rejected "Invalid input format.") := by
  have h1 : regex_match (coreOf allowMM input) fractionPattern = false := by
    rw [Bool.eq_false_iff]
    exact fun h => hA ((fractionPattern_rmatch_iff _).1 h)
  have h2 : regex_match (coreOf allowMM input) decimalPattern = false := by
    rw [Bool.eq_false_iff]
    exact fun h => hB ((decimalPattern_rmatch_iff _).1 h)
  rw [parse_eq_parseCore]
  unfold parseCore
  rw [h1, h2]
  rfl

/-- With `allowMM` false a text that ends in two letters `m`, whatever their
case, is rejected with the invalid-format error under every profile. -/
theorem suffix_rejected_without_flag (lib : CLib) (s : List Char) (x y : Char) (rp rn az : Bool)
    (hy : isM y = true) :
    parseInputWithOptionalMM lib (s ++ [x, y]) false rp rn az
      = .ok (.rejected "Invalid input format.") := by
  have hmem : y ∈ s ++ [x, y] := by simp
  have hno : ¬ grammarChar y := fun h => by
    rw [grammarChar_not_isM y h] at hy; exact absurd hy (by decide)
  apply parse_invalid
  · rw [(core_without_flag _).1]
    rintro ⟨n1, a, n2, b, he, -, ha, -, hb⟩
    exact hno (grammarChar_fractionText n1 a n2 b ha hb y (he ▸ hmem))
  · rw [(core_without_flag _).1]
    rintro ⟨neg, ip, frac, he, hp⟩
    exact hno (grammarChar_decimalText neg ip frac hp y (he ▸ hmem))

/-! ## Lemmas on the formatter -/

theorem format_eq_canonicalize (p : Nat) (val : Double) :
    formatGCodeDecimals p val = canonicalize (toFixed p val) := rfl

theorem toFixed_finite (p : Nat) (neg : Bool) (m : Nat) (e : Int) :
    toFixed p (Double.finite neg m e) =
      minus neg ++ natDigits (fixedScaled p m e / 10 ^ p) ++
        '.' :: padDigits p (fixedScaled p m e % 10 ^ p) := rfl

theorem strip_decompose (fp : List Char) :
    ∃ z, fp = stripTrailingZeros fp ++ List.replicate z '0' := by
  induction fp using List.reverseRecOn with
  | nil => exact ⟨0, rfl⟩
  | append_singleton l c ih =>
    obtain ⟨z, hz⟩ := ih
    unfold stripTrailingZeros at *
    by_cases hc : c = '0'
    · subst hc
      rw [List.rdropWhile_concat_pos _ _ _ (by simp)]
      refine ⟨z + 1, ?_⟩
      rw [List.replicate_succ', ← List.append_assoc, ← hz]
    · rw [List.rdropWhile_concat_neg _ _ _ (by simpa using hc)]
      exact ⟨0, by simp⟩

theorem findIdx_replicate_append (z : Nat) (c : Char) (r : List Char) :
    (List.replicate z c ++ r).findIdx (fun x => x != c) = z + r.findIdx (fun x => x != c) := by
  induction z with
  | zero => simp
  | succ z ih =>
    rw [List.replicate_succ, List.cons_append, List.findIdx_cons, ih]
    simp; omega

theorem strFindLastNotOf_trailing (t : List Char) (z : Nat) (c x : Char) (hx : x ≠ c) :
    strFindLastNotOf (t ++ x :: List.replicate z c) c ((t ++ x :: List.replicate z c).length - 1)
      = some t.length := by
  unfold strFindLastNotOf
  have hlen : (t ++ x :: List.replicate z c).length = t.length + 1 + z := by
    simp; omega
  have hmin : min ((t ++ x :: List.replicate z c).length - 1 + 1)
      (t ++ x :: List.replicate z c).length = t.length + 1 + z := by
    rw [hlen]; omega
  simp only [hmin]
  rw [← hlen, List.take_length]
  have hrev : (t ++ x :: List.replicate z c).reverse = List.replicate z c ++ x :: t.reverse := by
    simp
  rw [hrev, findIdx_replicate_append, List.findIdx_cons]
  have : (x != c) = true := by simpa using hx
  simp only [this, cond_true, Nat.add_zero]
  rw [hlen, if_pos (by omega)]
  congr 1; omega

theorem strip_last_ne_zero (fp f : List Char) (y : Char) (h : stripTrailingZeros fp = f ++ [y]) :
    y ≠ '0' := by
  have hne : stripTrailingZeros fp ≠ [] := by rw [h]; simp
  have := List.rdropWhile_last_not (fun c => c == '0') fp hne
  have hl : (List.rdropWhile (fun c => c == '0') fp).getLast hne = y := by
    have : List.rdropWhile (fun c => c == '0') fp = f ++ [y] := h
    simp [this]
  rw [hl] at this
  simpa using this

theorem trim_zeros (pre fp : List Char) :
    strFindLastNotOf (pre ++ '.' :: fp) '0' ((pre ++ '.' :: fp).length - 1)
        = some (pre.length + (stripTrailingZeros fp).length) ∧
      strErase (pre ++ '.' :: fp) (pre.length + (stripTrailingZeros fp).length + 1)
        = pre ++ '.' :: stripTrailingZeros fp := by
  obtain ⟨z, hz⟩ := strip_decompose fp
  generalize hfp1 : stripTrailingZeros fp = fp1 at hz
  have hsplit : fp1 = [] ∨ ∃ f y, fp1 = f ++ [y] := by
    rcases List.eq_nil_or_concat fp1 with h | ⟨f, y, h⟩
    · exact Or.inl h
    · exact Or.inr ⟨f, y, by simpa using h⟩
  constructor
  · rcases hsplit with h | ⟨f, y, h⟩
    · subst h
      rw [hz]
      simpa using strFindLastNotOf_trailing pre z '0' '.' (by decide)
    · have hy := strip_last_ne_zero fp f y (hfp1.trans h)
      subst h
      rw [hz]
      have := strFindLastNotOf_trailing (pre ++ '.' :: f) z '0' y hy
      have e : pre ++ '.' :: (f ++ [y] ++ List.replicate z '0')
          = pre ++ '.' :: f ++ y :: List.replicate z '0' := by simp
      rw [e, this]
      simp
  · unfold strErase
    rw [hz]
    have : pre ++ '.' :: (fp1 ++ List.replicate z '0')
        = (pre ++ '.' :: fp1) ++ List.replicate z '0' := by simp
    rw [this]
    have hl : pre.length + fp1.length + 1 = (pre ++ '.' :: fp1).length := by simp; omega
    rw [hl, List.take_left']
    rfl

theorem strFind_point (pre ip rest : List Char) (h : '.' ∉ ip) :
    strFind (pre ++ ip ++ '.' :: rest) '.' pre.length = some (pre.length + ip.length) := by
  unfold strFind
  rw [List.append_assoc, List.drop_left', List.indexOf_append_of_not_mem h, List.indexOf_cons_self]
  · simp
  · rfl

theorem point_not_mem_digits (ip : List Char) (h : IsDigits ip) : '.' ∉ ip :=
  fun hm => absurd (h _ hm) (by decide)

theorem canonicalize_rendering (neg : Bool) (ip fp : List Char) (hne : ip ≠ [])
    (hip : IsDigits ip) :
    canonicalize (minus neg ++ ip ++ '.' :: fp) = canonicalForm neg ip fp := by
  obtain ⟨d, ip', rfl⟩ := List.exists_cons_of_ne_nil hne
  have hd := ((isDigits_cons _ _).1 hip).1
  have hip' := ((isDigits_cons _ _).1 hip).2
  have hdm : d ≠ '-' ∧ d ≠ '.' := ⟨(digit_not_special d hd).2.1, (digit_not_special d hd).2.2.2.2.1⟩
  have hstart : (if (minus neg ++ d :: ip' ++ '.' :: fp) ≠ [] ∧
      (minus neg ++ d :: ip' ++ '.' :: fp).getD 0 ' ' = '-' then 1 else 0) = (minus neg).length := by
    cases neg <;> simp [minus, hdm.1]
  have hfind := strFind_point (minus neg) (d :: ip') fp (point_not_mem_digits _ hip)
  have htrim := trim_zeros (minus neg ++ d :: ip') fp
  have hlt : ¬ ((minus neg ++ d :: ip').length + (stripTrailingZeros fp).length
      < (minus neg).length + (d :: ip').length) := by simp
  unfold canonicalize
  simp only [hstart, hfind, htrim.1, if_neg hlt, htrim.2]
  unfold canonicalForm
  generalize stripTrailingZeros fp = fp1
  cases neg
  · cases ip' with
    | nil =>
      by_cases h0 : d = '0'
      · subst h0
        cases fp1 <;> simp [minus, strEraseN]
      · simp [minus, strEraseN, h0, hdm.1, hdm.2]
    | cons d2 ip2 =>
      have hd2 := (digit_not_special d2 ((isDigits_cons _ _).1 hip').1).2.2.2.2.1
      simp [minus, strEraseN, hd2, hdm.1, hdm.2]
  · cases ip' with
    | nil =>
      by_cases h0 : d = '0'
      · subst h0
        cases fp1 <;> simp [minus, strEraseN]
      · simp [minus, strEraseN, h0, hdm.1, hdm.2]
    | cons d2 ip2 =>
      have hd2 := (digit_not_special d2 ((isDigits_cons _ _).1 hip').1).2.2.2.2.1
      simp [minus, strEraseN, hd2, hdm.1, hdm.2]

theorem format_finite (p : Nat) (neg : Bool) (m : Nat) (e : Int) :
    formatGCodeDecimals p (Double.finite neg m e) =
      canonicalForm neg (natDigits (fixedScaled p m e / 10 ^ p))
        (padDigits p (fixedScaled p m e % 10 ^ p)) := by
  rw [format_eq_canonicalize, toFixed_finite]
  exact canonicalize_rendering neg _ _ (natDigits_spec _).2.1 (natDigits_spec _).1

theorem decimalValue_zeros (l : List Char) (h : ∀ c ∈ l, c = '0') : decimalValue l = 0 := by
  induction l with
  | nil => rfl
  | cons c l ih =>
    rw [decimalValue_cons, ih (fun x hx => h x (by simp [hx])), h c (by simp)]
    have : digitVal '0' = 0 := by decide
    rw [this]; simp

theorem natDigits_zero : natDigits 0 = ['0'] := by decide

theorem padDigits_zero (w : Nat) : ∀ c ∈ padDigits w 0, c = '0' := by
  induction w with
  | zero => simp [padDigits]
  | succ w ih =>
    intro c hc
    simp only [padDigits, Nat.zero_div, Nat.zero_mod, List.mem_append, List.mem_singleton] at hc
    rcases hc with hc | hc
    · exact ih c hc
    · rw [hc]; decide

theorem strip_eq_nil_iff (fp : List Char) :
    stripTrailingZeros fp = [] ↔ ∀ c ∈ fp, c = '0' := by
  unfold stripTrailingZeros
  rw [List.rdropWhile_eq_nil_iff]
  simp

theorem strip_padDigits_ne_nil (w n : Nat) (h : n % 10 ^ w ≠ 0) :
    stripTrailingZeros (padDigits w n) ≠ [] := by
  intro hs
  rw [strip_eq_nil_iff] at hs
  have := decimalValue_zeros _ hs
  rw [decimalValue_padDigits] at this
  exact h this

theorem strip_subset (fp : List Char) : ∀ c ∈ stripTrailingZeros fp, c ∈ fp :=
  fun _ hc => List.IsPrefix.subset ( List.rdropWhile_prefix (fun c => c == '0') fp) hc

theorem count_point_digits (l : List Char) (h : IsDigits l) : l.count '.' = 0 :=
  List.count_eq_zero.2 (point_not_mem_digits l h)

theorem count_point_minus (neg : Bool) : (minus neg).count '.' = 0 := by
  cases neg <;> decide

/-- The shape of a canonical form: `0.`, or sign, digits, point, and digits
that are empty or end in a digit other than `0`. -/
theorem canonicalForm_shape (neg : Bool) (ip fp : List Char) (hip : IsDigits ip)
    (hfp : IsDigits fp) :
    (canonicalForm neg ip fp).count '.' = 1 ∧
      ∃ init c, canonicalForm neg ip fp = init ++ [c] ∧
        (c = '.' ∨ (c.isDigit = true ∧ c ≠ '0')) ∧
        (stripTrailingZeros fp = [] → c = '.') := by
  have hs : IsDigits (stripTrailingZeros fp) := fun c hc => hfp c (strip_subset fp c hc)
  have hip1 : IsDigits (if ip = ['0'] then [] else ip) := by
    split_ifs
    · exact IsDigits.nil
    · exact hip
  unfold canonicalForm
  by_cases h : ip = ['0'] ∧ stripTrailingZeros fp = []
  · rw [if_pos h]
    exact ⟨by decide, ['0'], '.', rfl, Or.inl rfl, fun _ => rfl⟩
  · rw [if_neg h]
    constructor
    · rw [List.count_append, List.count_append, List.count_cons_self, count_point_minus,
        count_point_digits _ hip1, count_point_digits _ hs]
    · rcases List.eq_nil_or_concat (stripTrailingZeros fp) with h1 | ⟨f, y, h1⟩
      · rw [h1]
        exact ⟨_, '.', rfl, Or.inl rfl, fun _ => rfl⟩
      · have h2 : stripTrailingZeros fp = f ++ [y] := by simpa using h1
        rw [h2]
        refine ⟨minus neg ++ (if ip = ['0'] then [] else ip) ++ '.' :: f, y, by simp, Or.inr ?_, ?_⟩
        · exact ⟨hs y (by rw [h2]; simp), strip_last_ne_zero fp f y h2⟩
        · intro h3; simp at h3

/-! ## Lemmas on binary64 rounding -/

theorem ilog2Aux_spec (fuel n : Nat) (h0 : 0 < n) (hf : n ≤ fuel) :
    2 ^ ilog2Aux fuel n ≤ n ∧ n < 2 ^ (ilog2Aux fuel n + 1) := by
  induction fuel generalizing n with
  | zero => omega
  | succ fuel ih =>
    unfold ilog2Aux
    by_cases h2 : n < 2
    · rw [if_pos h2]
      have : n = 1 := by omega
      subst this; decide
    · rw [if_neg h2]
      obtain ⟨h3, h4⟩ := ih (n / 2) (by omega) (by omega)
      constructor
      · rw [pow_succ]; omega
      · rw [pow_succ]; omega

theorem ilog2_spec (n : Nat) (h0 : 0 < n) : 2 ^ ilog2 n ≤ n ∧ n < 2 ^ (ilog2 n + 1) :=
  ilog2Aux_spec n n h0 (le_refl n)

theorem binade_spec (num den : Nat) (hn : 0 < num) (hd : 0 < den) :
    (den : ℚ) * 2 ^ (binade num den) ≤ num ∧ (num : ℚ) < den * 2 ^ (binade num den + 1) := by
  obtain ⟨ha1, ha2⟩ := ilog2_spec num hn
  obtain ⟨hb1, hb2⟩ := ilog2_spec den hd
  unfold binade
  simp only []
  generalize ilog2 num = a at *
  generalize ilog2 den = b at *
  by_cases hba : b ≤ a
  · rw [if_pos hba]
    obtain ⟨j, rfl⟩ : ∃ j, a = b + j := ⟨a - b, by omega⟩
    have hj : b + j - b = j := by omega
    rw [hj]
    by_cases hc : den * 2 ^ j ≤ num
    · rw [if_pos hc]
      constructor
      · rw [zpow_natCast]; exact_mod_cast hc
      · rw [show ((j : ℕ) : ℤ) + 1 = ((j + 1 : ℕ) : ℤ) by simp, zpow_natCast]
        have : num < den * 2 ^ (j + 1) := by
          calc num < 2 ^ (b + j + 1) := ha2
            _ = 2 ^ b * 2 ^ (j + 1) := by rw [← pow_add, Nat.add_assoc]
            _ ≤ den * 2 ^ (j + 1) := Nat.mul_le_mul_right _ hb1
        exact_mod_cast this
    · rw [if_neg hc]
      constructor
      · cases j with
        | zero =>
          simp only [Nat.cast_zero, zero_sub, zpow_neg, zpow_one]
          have : den ≤ num * 2 := by
            have h1 : den < 2 ^ (b + 1) := hb2
            have h2 : 2 ^ (b + 0) ≤ num := ha1
            rw [pow_succ] at h1
            simp only [Nat.add_zero] at h2
            omega
          rw [← div_eq_mul_inv, div_le_iff₀ (by norm_num)]
          exact_mod_cast this
        | succ j =>
          rw [show ((j + 1 : ℕ) : ℤ) - 1 = ((j : ℕ) : ℤ) by push_cast; ring, zpow_natCast]
          have : den * 2 ^ j ≤ num := by
            calc den * 2 ^ j ≤ 2 ^ (b + 1) * 2 ^ j := Nat.mul_le_mul_right _ (le_of_lt hb2)
              _ = 2 ^ (b + (j + 1)) := by rw [← pow_add]; congr 1; omega
              _ ≤ num := ha1
          exact_mod_cast this
      · rw [sub_add_cancel, zpow_natCast]
        have : num < den * 2 ^ j := by omega
        exact_mod_cast this
  · rw [if_neg hba]
    obtain ⟨j, rfl⟩ : ∃ j, b = a + j + 1 := ⟨b - a - 1, by omega⟩
    have hj : a + j + 1 - a = j + 1 := by omega
    rw [hj]
    by_cases hc : den ≤ num * 2 ^ (j + 1)
    · rw [if_pos hc]
      constructor
      · rw [zpow_neg, zpow_natCast, ← div_eq_mul_inv, div_le_iff₀ (by positivity)]
        exact_mod_cast hc
      · rw [show -((j + 1 : ℕ) : ℤ) + 1 = -((j : ℕ) : ℤ) by push_cast; ring, zpow_neg,
          zpow_natCast, ← div_eq_mul_inv, lt_div_iff₀ (by positivity)]
        have : num * 2 ^ j < den := by
          calc num * 2 ^ j < 2 ^ (a + 1) * 2 ^ j := Nat.mul_lt_mul_of_pos_right ha2 (by positivity)
            _ = 2 ^ (a + j + 1) := by rw [← pow_add]; congr 1; omega
            _ ≤ den := hb1
        exact_mod_cast this
    · rw [if_neg hc]
      constructor
      · rw [show -((j + 1 : ℕ) : ℤ) - 1 = -((j + 2 : ℕ) : ℤ) by push_cast; ring, zpow_neg,
          zpow_natCast, ← div_eq_mul_inv, div_le_iff₀ (by positivity)]
        have : den ≤ num * 2 ^ (j + 2) := by
          calc den ≤ 2 ^ (a + j + 1 + 1) := le_of_lt hb2
            _ = 2 ^ a * 2 ^ (j + 2) := by rw [← pow_add]; congr 1
            _ ≤ num * 2 ^ (j + 2) := Nat.mul_le_mul_right _ ha1
        exact_mod_cast this
      · rw [sub_add_cancel, zpow_neg, zpow_natCast, ← div_eq_mul_inv, lt_div_iff₀ (by positivity)]
        have : num * 2 ^ (j + 1) < den := by omega
        exact_mod_cast this

theorem rne_ge (x y A : Nat) (hy : 0 < y) (h : A * y ≤ x) : A ≤ roundNearestEven x y := by
  have hq : A ≤ x / y := (Nat.le_div_iff_mul_le hy).2 h
  unfold roundNearestEven
  simp only []
  split_ifs <;> omega

theorem rne_le (x y B : Nat) (hy : 0 < y) (h : x ≤ B * y) : roundNearestEven x y ≤ B := by
  have hq : x / y ≤ B := by
    calc x / y ≤ B * y / y := Nat.div_le_div_right h
      _ = B := Nat.mul_div_cancel _ hy
  have hdm := Nat.div_add_mod x y
  have hlt : 0 < x % y → x / y < B := by
    intro hr
    by_contra hc
    have : x / y = B := by omega
    rw [this, Nat.mul_comm] at hdm
    omega
  unfold roundNearestEven
  simp only []
  split_ifs with h1 h2 h3
  · exact hq
  · exact hlt (by omega)
  · exact hq
  · exact hlt (by omega)

theorem scaled_ge (num den A : Nat) (e : Int) (hd : 0 < den)
    (h : (A : ℚ) * den * 2 ^ e ≤ num) : A ≤ scaledSignificand num den e := by
  unfold scaledSignificand
  by_cases he : 0 ≤ e
  · rw [if_pos he]
    obtain ⟨n, rfl⟩ := Int.eq_ofNat_of_zero_le he
    rw [zpow_natCast] at h
    simp only [Int.toNat_ofNat]
    apply rne_ge _ _ _ (by positivity)
    have : (A : ℚ) * (den * 2 ^ n) ≤ num := by rw [← mul_assoc]; exact h
    exact_mod_cast this
  · rw [if_neg he]
    obtain ⟨n, hn⟩ : ∃ n : ℕ, e = -(n : ℤ) := ⟨(-e).toNat, by omega⟩
    subst hn
    rw [zpow_neg, zpow_natCast, ← div_eq_mul_inv, div_le_iff₀ (by positivity)] at h
    simp only [neg_neg, Int.toNat_ofNat]
    apply rne_ge _ _ _ hd
    exact_mod_cast h

theorem scaled_le (num den B : Nat) (e : Int) (hd : 0 < den)
    (h : (num : ℚ) ≤ B * den * 2 ^ e) : scaledSignificand num den e ≤ B := by
  unfold scaledSignificand
  by_cases he : 0 ≤ e
  · rw [if_pos he]
    obtain ⟨n, rfl⟩ := Int.eq_ofNat_of_zero_le he
    rw [zpow_natCast] at h
    simp only [Int.toNat_ofNat]
    apply rne_le _ _ _ (by positivity)
    have : (num : ℚ) ≤ B * (den * 2 ^ n) := by rw [← mul_assoc]; exact h
    exact_mod_cast this
  · rw [if_neg he]
    obtain ⟨n, hn⟩ : ∃ n : ℕ, e = -(n : ℤ) := ⟨(-e).toNat, by omega⟩
    subst hn
    rw [zpow_neg, zpow_natCast, ← div_eq_mul_inv, le_div_iff₀ (by positivity)] at h
    simp only [neg_neg, Int.toNat_ofNat]
    apply rne_le _ _ _ hd
    exact_mod_cast h

/-- A quotient in the normal range is rounded to a normal number of the
same sign, in its binade or at the start of the next one. -/
theorem roundToDouble_normal (neg : Bool) (num den : Nat) (hn : 0 < num) (hd : 0 < den)
    (hlo : -1022 ≤ binade num den) (hhi : binade num den ≤ 1022) :
    ∃ m e, roundToDouble neg num den = Double.finite neg m e ∧ 2 ^ 52 ≤ m ∧ m < 2 ^ 53 ∧
      binade num den - 52 ≤ e ∧ e ≤ binade num den - 51 := by
  obtain ⟨hb1, hb2⟩ := binade_spec num den hn hd
  unfold roundToDouble
  rw [if_neg (by omega)]
  simp only []
  generalize binade num den = k at *
  have hdq : (0 : ℚ) < den := by exact_mod_cast hd
  have hge : 2 ^ 52 ≤ scaledSignificand num den (k - 52) := by
    apply scaled_ge _ _ _ _ hd
    have : ((2 ^ 52 : ℕ) : ℚ) * den * 2 ^ (k - 52) = den * 2 ^ k := by
      rw [zpow_sub₀ (by norm_num)]; push_cast; field_simp; ring
    rw [this]; exact hb1
  have hle : scaledSignificand num den (k - 52) ≤ 2 ^ 53 := by
    apply scaled_le _ _ _ _ hd
    have : ((2 ^ 53 : ℕ) : ℚ) * den * 2 ^ (k - 52) = den * 2 ^ (k + 1) := by
      rw [zpow_sub₀ (by norm_num), zpow_add₀ (by norm_num)]; push_cast; field_simp; ring
    rw [this]; exact le_of_lt hb2
  have hmax : max (k - 52) (-1074) = k - 52 := max_eq_left (by omega)
  rw [hmax]
  by_cases h53 : scaledSignificand num den (k - 52) = 2 ^ 53
  · rw [if_pos h53, if_pos h53, if_neg (by omega)]
    exact ⟨2 ^ 52, k - 52 + 1, rfl, le_refl _, by norm_num, by omega, by omega⟩
  · rw [if_neg h53, if_neg h53, if_neg (by omega)]
    exact ⟨_, k - 52, rfl, hge, by omega, by omega, by omega⟩

theorem binade_of_bounds (num den : Nat) (hn : 0 < num) (hd : 0 < den) (lo hi : Int)
    (hlo : (den : ℚ) * 2 ^ lo ≤ num) (hhi : (num : ℚ) < den * 2 ^ hi) :
    lo ≤ binade num den ∧ binade num den < hi := by
  obtain ⟨hb1, hb2⟩ := binade_spec num den hn hd
  have hdq : (0 : ℚ) < den := by exact_mod_cast hd
  constructor
  · have : (den : ℚ) * 2 ^ lo < den * 2 ^ (binade num den + 1) := lt_of_le_of_lt hlo hb2
    have := (zpow_lt_zpow_iff_right₀ (by norm_num : (1 : ℚ) < 2)).1 (lt_of_mul_lt_mul_left this hdq.le)
    omega
  · have : (den : ℚ) * 2 ^ (binade num den) < den * 2 ^ hi := lt_of_le_of_lt hb1 hhi
    exact (zpow_lt_zpow_iff_right₀ (by norm_num : (1 : ℚ) < 2)).1 (lt_of_mul_lt_mul_left this hdq.le)

theorem ofInt_normal (n : Int) (h0 : n ≠ 0) (hr : InIntRange n) :
    ∃ m e, Double.ofInt n = Double.finite (decide (n < 0)) m e ∧ 2 ^ 52 ≤ m ∧ m < 2 ^ 53 ∧
      -52 ≤ e ∧ e ≤ -20 := by
  have hn : 0 < n.natAbs := Int.natAbs_pos.2 h0
  have hub : n.natAbs < 2 ^ 32 := by
    unfold InIntRange at hr
    have : (n.natAbs : Int) < 2 ^ 32 := by
      rcases Int.natAbs_eq n with h | h <;> omega
    exact_mod_cast this
  have hb := binade_of_bounds n.natAbs 1 hn (by norm_num) 0 32
    (by simp; exact_mod_cast hn) (by simp; exact_mod_cast hub)
  obtain ⟨m, e, h1, h2, h3, h4, h5⟩ := roundToDouble_normal (decide (n < 0)) n.natAbs 1 hn
    (by norm_num) (by omega) (by omega)
  exact ⟨m, e, h1, h2, h3, by omega, by omega⟩

theorem ofInt_zero : Double.ofInt 0 = Double.finite false 0 (-1074) := by decide

theorem div_finite (s1 : Bool) (m1 : Nat) (e1 : Int) (s2 : Bool) (m2 : Nat) (e2 : Int) :
    (Double.finite s1 m1 e1).div (Double.finite s2 m2 e2) =
      if m2 = 0 then (if m1 = 0 then Double.nan else Double.inf (xor s1 s2))
      else roundToDouble (xor s1 s2) (m1 * 2 ^ (e1 - min e1 e2).toNat)
        (m2 * 2 ^ (e2 - min e1 e2).toNat) := rfl

theorem div_normal (s1 : Bool) (m1 : Nat) (e1 : Int) (s2 : Bool) (m2 : Nat) (e2 : Int)
    (h1 : 2 ^ 52 ≤ m1) (h1' : m1 < 2 ^ 53) (h2 : 2 ^ 52 ≤ m2) (h2' : m2 < 2 ^ 53)
    (hlo : -1000 ≤ e1 - e2) (hhi : e1 - e2 ≤ 1000) :
    ∃ m e, (Double.finite s1 m1 e1).div (Double.finite s2 m2 e2)
        = Double.finite (xor s1 s2) m e ∧ 2 ^ 52 ≤ m ∧ m < 2 ^ 53 := by
  rw [div_finite, if_neg (by omega)]
  obtain ⟨a, ha⟩ : ∃ a : ℕ, e1 - min e1 e2 = (a : ℤ) :=
    Int.eq_ofNat_of_zero_le (by omega)
  obtain ⟨b, hb⟩ : ∃ b : ℕ, e2 - min e1 e2 = (b : ℤ) :=
    Int.eq_ofNat_of_zero_le (by omega)
  rw [ha, hb]
  simp only [Int.toNat_ofNat]
  have hab : e1 - e2 = (a : ℤ) - b := by omega
  have hN : 0 < m1 * 2 ^ a := by positivity
  have hD : 0 < m2 * 2 ^ b := by positivity
  have hm1 : (m2 : ℚ) ≤ 2 * m1 := by exact_mod_cast (by omega : m2 ≤ 2 * m1)
  have hm2 : (m1 : ℚ) < 2 * m2 := by exact_mod_cast (by omega : m1 < 2 * m2)
  have hpa : (0 : ℚ) < 2 ^ a := by positivity
  have hpb : (0 : ℚ) < 2 ^ b := by positivity
  have hk := binade_of_bounds (m1 * 2 ^ a) (m2 * 2 ^ b) hN hD (e1 - e2 - 1) (e1 - e2 + 1)
    (by
      rw [hab]
      push_cast
      have e : (2 : ℚ) ^ ((a : ℤ) - b - 1) = 2 ^ a / 2 ^ b / 2 := by
        rw [zpow_sub₀ (by norm_num), zpow_sub₀ (by norm_num), zpow_one, zpow_natCast,
          zpow_natCast]
      rw [e]
      have : (m2 : ℚ) * 2 ^ b * (2 ^ a / 2 ^ b / 2) = m2 * (2 ^ a / 2) := by
        field_simp; ring
      rw [this]
      calc (m2 : ℚ) * (2 ^ a / 2) ≤ (2 * m1) * (2 ^ a / 2) := by gcongr
        _ = m1 * 2 ^ a := by ring)
    (by
      rw [hab]
      push_cast
      have e : (2 : ℚ) ^ ((a : ℤ) - b + 1) = 2 ^ a / 2 ^ b * 2 := by
        rw [zpow_add₀ (by norm_num), zpow_sub₀ (by norm_num), zpow_one, zpow_natCast,
          zpow_natCast]
      rw [e]
      have : (m2 : ℚ) * 2 ^ b * (2 ^ a / 2 ^ b * 2) = (2 * m2) * 2 ^ a := by
        field_simp; ring
      rw [this]
      gcongr)
  obtain ⟨m, e, h3, h4, h5, -, -⟩ := roundToDouble_normal (xor s1 s2) (m1 * 2 ^ a) (m2 * 2 ^ b)
    hN hD (by omega) (by omega)
  exact ⟨m, e, h3, h4, h5⟩

/-- The `double` quotient of two integers that fit an `int` has the sign and
the zero-ness of their exact quotient. -/
theorem quotient_signs (n d : Int) (hn : InIntRange n) (hd : InIntRange d) (hd0 : d ≠ 0) :
    (((Double.ofInt n).div (Double.ofInt d)).ltZero = true ↔ (n : ℚ) / d < 0) ∧
      (((Double.ofInt n).div (Double.ofInt d)).gtZero = true ↔ 0 < (n : ℚ) / d) ∧
      (((Double.ofInt n).div (Double.ofInt d)).eqZero = true ↔ (n : ℚ) / d = 0) := by
  obtain ⟨m2, e2, hd1, hd2, hd3, hd4, hd5⟩ := ofInt_normal d hd0 hd
  have hdq : (d : ℚ) ≠ 0 := by exact_mod_cast hd0
  by_cases hn0 : n = 0
  · subst hn0
    rw [ofInt_zero, hd1]
    have : (Double.finite false 0 (-1074)).div (Double.finite (decide (d < 0)) m2 e2)
        = Double.finite (xor false (decide (d < 0))) 0 (-1074) := by
      rw [div_finite, if_neg (by omega)]
      simp [roundToDouble]
    rw [this]
    simp [Double.ltZero, Double.gtZero, Double.eqZero]
  · obtain ⟨m1, e1, hn1, hn2, hn3, hn4, hn5⟩ := ofInt_normal n hn0 hn
    obtain ⟨m, e, hq1, hq2, hq3⟩ := div_normal (decide (n < 0)) m1 e1 (decide (d < 0)) m2 e2
      hn2 hn3 hd2 hd3 (by omega) (by omega)
    rw [hn1, hd1, hq1]
    have hm : m ≠ 0 := by omega
    have hnq : (n : ℚ) ≠ 0 := by exact_mod_cast hn0
    simp only [Double.ltZero, Double.gtZero, Double.eqZero, hm, ne_eq, not_false_eq_true,
      decide_True, Bool.and_true, decide_False, Bool.false_eq_true, false_iff]
    refine ⟨?_, ?_, ?_⟩
    · rw [div_neg_iff]
      rcases lt_or_gt_of_ne hn0 with h | h <;> rcases lt_or_gt_of_ne hd0 with h' | h'
      all_goals
        have a1 : ((n : ℚ) < 0) ↔ n < 0 := by exact_mod_cast Iff.rfl
        have a2 : ((d : ℚ) < 0) ↔ d < 0 := by exact_mod_cast Iff.rfl
        have a3 : ((0 : ℚ) < n) ↔ 0 < n := by exact_mod_cast Iff.rfl
        have a4 : ((0 : ℚ) < d) ↔ 0 < d := by exact_mod_cast Iff.rfl
        rw [a1, a2, a3, a4]
        simp [h, h', not_lt_of_gt h, not_lt_of_gt h', le_of_lt h, le_of_lt h']
    · rw [div_pos_iff]
      rcases lt_or_gt_of_ne hn0 with h | h <;> rcases lt_or_gt_of_ne hd0 with h' | h'
      all_goals
        have a1 : ((n : ℚ) < 0) ↔ n < 0 := by exact_mod_cast Iff.rfl
        have a2 : ((d : ℚ) < 0) ↔ d < 0 := by exact_mod_cast Iff.rfl
        have a3 : ((0 : ℚ) < n) ↔ 0 < n := by exact_mod_cast Iff.rfl
        have a4 : ((0 : ℚ) < d) ↔ 0 < d := by exact_mod_cast Iff.rfl
        rw [a1, a2, a3, a4]
        simp [h, h', not_lt_of_gt h, not_lt_of_gt h', le_of_lt h, le_of_lt h']
    · exact div_ne_zero hnq hdq

theorem enforce_eq_admitExact (mp mn : String) (rp rn az : Bool) (q : ℚ) (v : Double)
    (h1 : v.ltZero = true ↔ q < 0) (h2 : v.gtZero = true ↔ 0 < q) (h3 : v.eqZero = true ↔ q = 0) :
    enforce mp mn rp rn az false v = admitExact mp mn rp rn az q v := by
  unfold enforce admitExact
  simp only [Bool.and_eq_true, h1, h2, h3, Bool.not_eq_true', Bool.false_eq_true, if_false]

/-- The parse of a text `0.` followed by the `w` digits of `n`. -/
theorem parse_zeroPoint (lib : CLib) (w n : ℕ) (hn : n < 10 ^ w) (rp rn az : Bool) :
    parseInputWithOptionalMM lib ('0' :: '.' :: padDigits w n) false rp rn az =
      match strtodRound lib false n (10 ^ w) with
      | .error _ => .ok (.rejected "Invalid decimal input.")
      | .ok val => .ok (enforce "Value must be positive." "Value must be negative." rp rn az
          false val) := by
  have h := parse_decimalText lib false ['0'] (some (padDigits w n))
    false rp rn az ⟨by decide, isDigits_padDigits _ _, Or.inl (by decide)⟩
  have ev : decimalValue (['0'] ++ fracDigits (some (padDigits w n))) = n := by
    have e0 : ∀ P : List Char, ['0'] ++ fracDigits (some P) = '0' :: P := fun _ => rfl
    rw [e0, decimalValue_cons, decimalValue_padDigits, padDigits_length, Nat.mod_eq_of_lt hn]
    have : digitVal '0' = 0 := by decide
    rw [this]; simp
  have el : (fracDigits (some (padDigits w n))).length = w := by
    have e0 : ∀ P : List Char, fracDigits (some P) = P := fun _ => rfl
    rw [e0, padDigits_length]
  have e2 : ∀ P : List Char, decimalText false ['0'] (some P) = '0' :: '.' :: P :=
    fun _ => rfl
  rw [ev, el, e2] at h
  exact h

/-! ## The parser: claims -/

/-- C1, at its failing input: the text `99999999999/1` matches the fraction
grammar, `std::stoi` throws `std::out_of_range` on its numerator, nothing
catches it, and the exception leaves `parseInputWithOptionalMM` under every
profile and then leaves `userInputPos`, which is not an Escape abort. -/
theorem C1_stoi_exception_leaves_the_entry_point (lib : CLib) (allowMM rp rn az : Bool) :
    parseInputWithOptionalMM lib "99999999999/1".toList allowMM rp rn az
        = .error Exn.outOfRange ∧
      userInputPos lib allowMM "99999999999/1\r".toList
        = .threw Exn.outOfRange "99999999999/1\n".toList := by
  have hp : ∀ rp rn az, parseInputWithOptionalMM lib "99999999999/1".toList allowMM rp rn az
      = .error Exn.outOfRange := by
    intro rp rn az
    have h := parse_fractionText lib false "99999999999".toList false "1".toList allowMM rp rn az
      (by decide) (by decide) (by decide) (by decide)
    rw [if_neg (by decide)] at h
    exact h
  refine ⟨hp rp rn az, ?_⟩
  have hg : getUserInputString allowMM "99999999999/1\r".toList []
      = .line "99999999999/1".toList [] "99999999999/1\n".toList := by
    cases allowMM <;> decide!
  exact userInputLoop_throws _ _ _ _ _ _ _ _ _ _ _ _ hg (hp true false false)

/-- C2, counterexample: for `n = 99999999999` and `d = 1` the text `n/d`
is not parsed to the value `n/d` under the any-sign profile, which admits
it: `std::stoi` throws `std::out_of_range`. -/
theorem C2_counterexample :
    parseInputWithOptionalMM CLib.ucrt (intDigits 99999999999 ++ '/' :: intDigits 1)
        false false false true = .error Exn.outOfRange ∧
      parseInputWithOptionalMM CLib.ucrt (intDigits 99999999999 ++ '/' :: intDigits 1)
        false false false true ≠ .ok (.accepted (roundToDouble false 99999999999 1)) := by
  decide!

/-- C2, amended: for all integers `n` and `d` that fit a 32-bit `int`, with
`d ≠ 0`, and every profile, parsing the text `n/d` computes the `double`
quotient `static_cast<double>(n) / d` and returns it when the sign and zero
constraints admit the value `n/d`, and the corresponding constraint error
otherwise. -/
theorem C2_fraction_value (lib : CLib) (n d : Int) (allowMM rp rn az : Bool)
    (hn : InIntRange n) (hd : InIntRange d) (hd0 : d ≠ 0) :
    parseInputWithOptionalMM lib (intDigits n ++ '/' :: intDigits d) allowMM rp rn az =
      .ok (admitExact "Fraction must be positive." "Fraction must be negative." rp rn az
        ((n : ℚ) / d) ((Double.ofInt n).div (Double.ofInt d))) := by
  rw [intFraction_eq, parse_fractionText lib _ _ _ _ allowMM rp rn az (natDigits_spec _).2.1
    (natDigits_spec _).1 (natDigits_spec _).2.1 (natDigits_spec _).1]
  simp only [signedValue_natDigits]
  rw [if_pos hn, if_pos hd, if_neg hd0]
  obtain ⟨h1, h2, h3⟩ := quotient_signs n d hn hd hd0
  rw [enforce_eq_admitExact _ _ _ _ _ _ _ h1 h2 h3]

/-- C2, witness: `1/2` gives 0.5, and the quotient of `-3` and `-4` gives
0.75 and is accepted, under the positive-only profile; the quotient of `-3`
and `4` is rejected there. -/
theorem C2_fraction_value_witness :
    (InIntRange (-3) ∧ InIntRange (-4) ∧ (-4 : Int) ≠ 0) ∧
      intDigits (-3) ++ '/' :: intDigits (-4) = ['-', '3', '/', '-', '4'] ∧
      parseInputWithOptionalMM CLib.ucrt (intDigits (-3) ++ '/' :: intDigits (-4))
        false true false false = .ok (.accepted (Double.finite false (3 * 2 ^ 51) (-53))) ∧
      parseInputWithOptionalMM CLib.ucrt (intDigits 1 ++ '/' :: intDigits 2)
        false true false false = .ok (.accepted (Double.finite false (2 ^ 52) (-53))) ∧
      parseInputWithOptionalMM CLib.ucrt (intDigits (-3) ++ '/' :: intDigits 4)
        false true false false = .ok (.rejected "Fraction must be positive.") :=
  ⟨by decide, by decide!,
    (C2_fraction_value CLib.ucrt (-3) (-4) false true false false (by decide) (by decide)
      (by decide)).trans (by norm_num [admitExact]; decide!),
    (C2_fraction_value CLib.ucrt 1 2 false true false false (by decide) (by decide)
      (by decide)).trans (by norm_num [admitExact]; decide!),
    (C2_fraction_value CLib.ucrt (-3) 4 false true false false (by decide) (by decide)
      (by decide)).trans (by norm_num [admitExact])⟩

/-- C3, counterexample: `99999999999/0` matches the fraction grammar with a
zero denominator, and the parse does not fail with the zero-denominator
error: `std::stoi` throws on the numerator before the denominator is read. -/
theorem C3_counterexample :
    parseInputWithOptionalMM CLib.ucrt "99999999999/0".toList false false false true
        = .error Exn.outOfRange ∧
      parseInputWithOptionalMM CLib.ucrt "99999999999/0".toList false false false true
        ≠ .ok (.rejected "Denominator cannot be zero.") := by
  decide!

/-- C3, amended: for every text of the fraction grammar whose numerator fits
a 32-bit `int` and whose denominator is numerically zero (whatever its sign
and its number of zeros), under every profile, the parse returns the error
`Denominator cannot be zero.`. -/
theorem C3_zero_denominator (lib : CLib) (n1 : Bool) (a : List Char) (n2 : Bool) (b : List Char)
    (allowMM rp rn az : Bool) (ha : a ≠ []) (ha2 : IsDigits a) (hb : b ≠ []) (hb2 : IsDigits b)
    (hnum : InIntRange (signedValue n1 a)) (hzero : decimalValue b = 0) :
    parseInputWithOptionalMM lib (fractionText n1 a n2 b) allowMM rp rn az =
      .ok (.rejected "Denominator cannot be zero.") := by
  have hd : signedValue n2 b = 0 := by
    unfold signedValue; rw [hzero]; cases n2 <;> simp
  rw [parse_fractionText lib n1 a n2 b allowMM rp rn az ha ha2 hb hb2, if_pos hnum, hd,
    if_pos (by decide), if_pos rfl]

/-- C3, witness: the texts with numerator 5 and denominator `-0`, and with
numerator 7 and denominator `00`, under the positive-only profile. -/
theorem C3_zero_denominator_witness :
    parseInputWithOptionalMM CLib.ucrt "5/-0".toList false true false false
        = .ok (.rejected "Denominator cannot be zero.") ∧
      parseInputWithOptionalMM CLib.ucrt "7/00".toList true true false false
        = .ok (.rejected "Denominator cannot be zero.") :=
  ⟨C3_zero_denominator CLib.ucrt false "5".toList true "0".toList false true false false
      (by decide) (by decide) (by decide) (by decide) (by decide) (by decide),
    C3_zero_denominator CLib.ucrt false "7".toList false "00".toList true true false false
      (by decide) (by decide) (by decide) (by decide) (by decide) (by decide)⟩

/-- C4, counterexample: the digit `1` followed by 400 zeros matches the
decimal grammar, and under the any-sign profile the parse returns neither
the number it denotes nor a constraint error: `std::stod` throws
`std::out_of_range`, which is caught and reported as `Invalid decimal input.`. -/
theorem C4_counterexample :
    DecimalParts ('1' :: List.replicate 400 '0') none ∧
      parseInputWithOptionalMM CLib.ucrt (decimalText false ('1' :: List.replicate 400 '0') none)
        false false false true = .ok (.rejected "Invalid decimal input.") ∧
      parseInputWithOptionalMM CLib.inexact
        (decimalText false ('1' :: List.replicate 400 '0') none)
        false false false true = .ok (.rejected "Invalid decimal input.") := by
  have h1 := parse_decimalText CLib.ucrt false ('1' :: List.replicate 400 '0') none
    false false false true (by decide!)
  have h2 := parse_decimalText CLib.inexact false ('1' :: List.replicate 400 '0') none
    false false false true (by decide!)
  have e1 : strtodRound CLib.ucrt false
      (decimalValue (('1' :: List.replicate 400 '0') ++ fracDigits none))
      (10 ^ (fracDigits none).length) = .error Exn.outOfRange := by decide!
  have e2 : strtodRound CLib.inexact false
      (decimalValue (('1' :: List.replicate 400 '0') ++ fracDigits none))
      (10 ^ (fracDigits none).length) = .error Exn.outOfRange := by decide!
  rw [e1] at h1
  rw [e2] at h2
  exact ⟨by decide!, h1, h2⟩

/-- C4, amended: for every text of the decimal grammar (an optional minus
sign, digits with at most one point, at least one digit) and every profile,
the parse returns the `double` nearest to the number the text denotes when
the sign and zero constraints admit it and the matching constraint error
otherwise, unless `std::stod` reports the number out of the range of
`double`, in which case the parse fails with `Invalid decimal input.`; it
never fails with `Invalid input format.`. -/
theorem C4_decimal_value (lib : CLib) (neg : Bool) (ip : List Char) (frac : Option (List Char))
    (allowMM rp rn az : Bool) (h : DecimalParts ip frac) :
    parseInputWithOptionalMM lib (decimalText neg ip frac) allowMM rp rn az =
        (match strtodRound lib neg (decimalValue (ip ++ fracDigits frac))
            (10 ^ (fracDigits frac).length) with
          | .error _ => .ok (.rejected "Invalid decimal input.")
          | .ok val => .ok (enforce "Value must be positive." "Value must be negative." rp rn az
              false val)) ∧
      parseInputWithOptionalMM lib (decimalText neg ip frac) allowMM rp rn az
        ≠ .ok (.rejected "Invalid input format.") := by
  have hp := parse_decimalText lib neg ip frac allowMM rp rn az h
  refine ⟨hp, ?_⟩
  rw [hp]
  cases strtodRound lib neg (decimalValue (ip ++ fracDigits frac))
      (10 ^ (fracDigits frac).length) with
  | error e => simp only [ne_eq, Except.ok.injEq, ParseResult.rejected.injEq]; decide
  | ok val =>
    simp only [ne_eq, Except.ok.injEq]
    unfold enforce
    split_ifs <;> first | (simp only [ParseResult.rejected.injEq]; decide) | simp

/-- C4, witness: the texts `1.5`, `1.`, `.5`, `1` and `-0.3`; and the text
of `2^-1022 - 2^-1075`, which a C library that reports every inexact
conversion below the normal range rejects, and which the C library of the
Windows toolchain converts to `2^-1022`. -/
theorem C4_decimal_value_witness :
    DecimalParts ['1'] (some ['5']) ∧
      decimalText false ['1'] (some ['5']) = ['1', '.', '5'] ∧
      parseInputWithOptionalMM CLib.ucrt (decimalText false ['1'] (some ['5']))
        false true false false = .ok (.accepted (Double.finite false (3 * 2 ^ 51) (-52))) ∧
      parseInputWithOptionalMM CLib.ucrt (decimalText false ['1'] (some []))
        false true false false = .ok (.accepted (Double.ofInt 1)) ∧
      parseInputWithOptionalMM CLib.ucrt (decimalText false [] (some ['5']))
        false true false false = .ok (.accepted (Double.finite false (2 ^ 52) (-53))) ∧
      parseInputWithOptionalMM CLib.ucrt (decimalText false ['1'] none)
        false true false false = .ok (.accepted (Double.ofInt 1)) ∧
      parseInputWithOptionalMM CLib.ucrt (decimalText true ['0'] (some ['3']))
        false false false true = .ok (.accepted (roundToDouble true 3 10)) ∧
      parseInputWithOptionalMM CLib.ucrt (decimalText true ['0'] (some ['3']))
        false true false false = .ok (.rejected "Value must be positive.") ∧
      parseInputWithOptionalMM CLib.inexact belowNormalText false false false true
        = .ok (.rejected "Invalid decimal input.") ∧
      parseInputWithOptionalMM CLib.ucrt belowNormalText false false false true
        = .ok (.accepted (Double.finite false (2 ^ 52) (-1074))) := by
  have hn : (2 ^ 53 - 1) * 5 ^ 1075 < 10 ^ 1075 := by decide!
  have e1 : strtodRound CLib.inexact false ((2 ^ 53 - 1) * 5 ^ 1075) (10 ^ 1075)
      = .error Exn.outOfRange := by decide!
  have e2 : strtodRound CLib.ucrt false ((2 ^ 53 - 1) * 5 ^ 1075) (10 ^ 1075)
      = .ok (Double.finite false (2 ^ 52) (-1074)) := by decide!
  have hb1 := parse_zeroPoint CLib.inexact 1075 ((2 ^ 53 - 1) * 5 ^ 1075) hn false false true
  have hb2 := parse_zeroPoint CLib.ucrt 1075 ((2 ^ 53 - 1) * 5 ^ 1075) hn false false true
  rw [e1] at hb1
  rw [e2] at hb2
  exact ⟨by decide, by decide,
    (C4_decimal_value CLib.ucrt false ['1'] (some ['5']) false true false false
      (by decide)).1.trans (by decide!),
    (C4_decimal_value CLib.ucrt false ['1'] (some []) false true false false
      (by decide)).1.trans (by decide!),
    (C4_decimal_value CLib.ucrt false [] (some ['5']) false true false false
      (by decide)).1.trans (by decide!),
    (C4_decimal_value CLib.ucrt false ['1'] none false true false false
      (by decide)).1.trans (by decide!),
    (C4_decimal_value CLib.ucrt true ['0'] (some ['3']) false false false true
      (by decide)).1.trans (by decide!),
    (C4_decimal_value CLib.ucrt true ['0'] (some ['3']) false true false false
      (by decide)).1.trans (by decide!),
    hb1, hb2.trans (by decide!)⟩

/-- C6: for every input whose core matches either grammar with parsed value
`v`: if `requirePositive` holds and `v < 0` the parse fails with the
must-be-positive error; if `requireNegative` holds and `v > 0` it fails with
the must-be-negative error; if `allowZero` is false and `v = 0` it fails with
`Zero not allowed.`; and if `allowZero` is true and `v = 0` it succeeds with
a zero. -/
theorem C6_constraints (lib : CLib) (input : List Char) (allowMM rp rn az : Bool) (g : Grammar)
    (v : Double) (hv : ParsesTo lib (coreOf allowMM input) g v) :
    (rp = true → v.ltZero = true →
        parseInputWithOptionalMM lib input allowMM rp rn az
          = .ok (.rejected (mustBePositive g))) ∧
      (rn = true → v.gtZero = true →
        parseInputWithOptionalMM lib input allowMM rp rn az
          = .ok (.rejected (mustBeNegative g))) ∧
      (az = false → v.eqZero = true →
        parseInputWithOptionalMM lib input allowMM rp rn az
          = .ok (.rejected "Zero not allowed.")) ∧
      (az = true → v.eqZero = true →
        ∃ r, parseInputWithOptionalMM lib input allowMM rp rn az = .ok (.accepted r) ∧
          r.eqZero = true) := by
  rw [parse_eq_parseCore,
    parseCore_of_parsesTo lib _ g v (inUnitSuffix allowMM input) rp rn az hv]
  refine ⟨?_, ?_, ?_, ?_⟩
  · intro h1 h2; subst h1; rw [enforce_positive _ _ _ _ _ v h2]
  · intro h1 h2; subst h1; rw [enforce_negative _ _ _ _ _ v h2]
  · intro h1 h2; subst h1; rw [enforce_zero _ _ _ _ _ v h2]
  · intro h1 h2; subst h1
    rw [enforce_zero_allowed _ _ _ _ _ v h2]
    refine ⟨_, rfl, ?_⟩
    cases inUnitSuffix allowMM input
    · simpa using h2
    · simpa using eqZero_div_c25_4 v h2

/-- C6, witness: `-5` under the positive-only profile fails with the
must-be-positive error, `5` under the negative-only profile with the
must-be-negative error, `0` under the positive-only profile with
`Zero not allowed.`, and `0` under the positive-or-zero profile succeeds
with 0. -/
theorem C6_constraints_witness :
    parseInputWithOptionalMM CLib.ucrt (decimalText true ['5'] none) false true false false
        = .ok (.rejected "Value must be positive.") ∧
      parseInputWithOptionalMM CLib.ucrt (decimalText false ['5'] none) false false true false
        = .ok (.rejected "Value must be negative.") ∧
      parseInputWithOptionalMM CLib.ucrt (decimalText false ['0'] none) false true false false
        = .ok (.rejected "Zero not allowed.") ∧
      (∃ r, parseInputWithOptionalMM CLib.ucrt (decimalText false ['0'] none)
          false true false true = .ok (.accepted r) ∧ r.eqZero = true) ∧
      parseInputWithOptionalMM CLib.ucrt (decimalText false ['0'] none) false true false true
        = .ok (.accepted (Double.ofInt 0)) :=
  ⟨(C6_constraints CLib.ucrt (decimalText true ['5'] none) false true false false
      Grammar.decimal (Double.ofInt (-5))
      (ParsesTo.decimal true ['5'] none _ (by decide) (by decide!))).1 rfl (by decide!),
    (C6_constraints CLib.ucrt (decimalText false ['5'] none) false false true false
      Grammar.decimal (Double.ofInt 5)
      (ParsesTo.decimal false ['5'] none _ (by decide) (by decide!))).2.1 rfl (by decide!),
    (C6_constraints CLib.ucrt (decimalText false ['0'] none) false true false false
      Grammar.decimal (Double.ofInt 0)
      (ParsesTo.decimal false ['0'] none _ (by decide) (by decide!))).2.2.1 rfl (by decide!),
    (C6_constraints CLib.ucrt (decimalText false ['0'] none) false true false true
      Grammar.decimal (Double.ofInt 0)
      (ParsesTo.decimal false ['0'] none _ (by decide) (by decide!))).2.2.2 rfl (by decide!),
    by decide!⟩

/-- C7, at its failing input: under the positive-only profile with `allowMM`
true, the text `0.000...0005mm` (323 zeros after the point) is parsed to the
smallest subnormal `2^-1074`, which passes the checks `value < 0` and
`value == 0`, and the division by 25.4 that follows rounds it to zero: the
parse succeeds with the value 0, and `userInputPos` returns it. With a minus
sign in front, the negative-only profile returns the negative zero. The same
happens with the exact decimal expansion of `2^-1074`, also in a C library
that reports every inexact underflow. -/
theorem C7_positive_only_returns_zero :
    parseInputWithOptionalMM CLib.ucrt (tinyText ++ ['m', 'm']) true true false false
        = .ok (.accepted (Double.finite false 0 (-1074))) ∧
      userInputPos CLib.ucrt true (tinyText ++ ['m', 'm', ENTER])
        = .returned (Double.finite false 0 (-1074)) [] (tinyText ++ ['m', 'm', '\n']) ∧
      parseInputWithOptionalMM CLib.ucrt (('-' :: tinyText) ++ ['m', 'm']) true false true false
        = .ok (.accepted (Double.finite true 0 (-1074))) ∧
      parseInputWithOptionalMM CLib.ucrt (tinyExactText ++ ['m', 'm']) true true false false
        = .ok (.accepted (Double.finite false 0 (-1074))) ∧
      parseInputWithOptionalMM CLib.inexact (tinyExactText ++ ['m', 'm']) true true false false
        = .ok (.accepted (Double.finite false 0 (-1074))) := by
  have h0 : ∀ (neg rp rn : Bool),
      enforce "Value must be positive." "Value must be negative." rp rn false false
        (Double.finite neg 1 (-1074)) = .accepted (Double.finite neg 1 (-1074)) →
      parseInputWithOptionalMM CLib.ucrt (decimalText neg ['0']
        (some (List.replicate 323 '0' ++ ['5'])) ++ ['m', 'm']) true rp rn false
      = .ok (.accepted ((Double.finite neg 1 (-1074)).div Double.c25_4)) := by
    intro neg rp rn henf
    rw [parse_suffixed _ _ _ _ _ _ _ (by decide) (by decide)]
    have h := parse_decimalText CLib.ucrt neg ['0'] (some (List.replicate 323 '0' ++ ['5']))
      false rp rn false (by decide!)
    have e : strtodRound CLib.ucrt neg
        (decimalValue (['0'] ++ fracDigits (some (List.replicate 323 '0' ++ ['5']))))
        (10 ^ (fracDigits (some (List.replicate 323 '0' ++ ['5']))).length)
        = .ok (Double.finite neg 1 (-1074)) := by cases neg <;> decide!
    rw [e] at h
    rw [h]
    simp only [henf]
    rfl
  have h1 : parseInputWithOptionalMM CLib.ucrt (tinyText ++ ['m', 'm']) true true false false
      = .ok (.accepted (Double.finite false 0 (-1074))) :=
    (h0 false true false (by decide!)).trans (by decide!)
  have h1n : parseInputWithOptionalMM CLib.ucrt (('-' :: tinyText) ++ ['m', 'm'])
      true false true false = .ok (.accepted (Double.finite true 0 (-1074))) :=
    (h0 true false true (by decide!)).trans (by decide!)
  have h2 : ∀ lib : CLib,
      lib.erangeOnTiny (5 ^ 1074) (10 ^ 1074) 1 = false →
      parseInputWithOptionalMM lib (tinyExactText ++ ['m', 'm']) true true false false
      = .ok (.accepted (Double.finite false 0 (-1074))) := by
    intro lib hl
    rw [parse_suffixed _ _ _ _ _ _ _ (by decide) (by decide)]
    have h := parse_decimalText lib false ['0'] (some (padDigits 1074 (5 ^ 1074)))
      false true false false ⟨by decide, isDigits_padDigits _ _, Or.inl (by decide)⟩
    have ev : decimalValue (['0'] ++ fracDigits (some (padDigits 1074 (5 ^ 1074)))) = 5 ^ 1074 := by
      have e0 : ∀ P : List Char, ['0'] ++ fracDigits (some P) = '0' :: P := fun _ => rfl
      rw [e0, decimalValue_cons, decimalValue_padDigits, padDigits_length]
      decide!
    have el : (fracDigits (some (padDigits 1074 (5 ^ 1074)))).length = 1074 := by
      have e0 : ∀ P : List Char, fracDigits (some P) = P := fun _ => rfl
      rw [e0, padDigits_length]
    have er : roundToDouble false (5 ^ 1074) (10 ^ 1074) = Double.finite false 1 (-1074) := by
      decide!
    have e : strtodRound lib false (5 ^ 1074) (10 ^ 1074) = .ok (Double.finite false 1 (-1074)) := by
      unfold strtodRound
      rw [er]
      simp only [hl, Bool.false_eq_true, and_false, if_false]
    rw [ev, el, e] at h
    have e2 : ∀ P : List Char, decimalText false ['0'] (some P) = '0' :: '.' :: P :=
      fun _ => rfl
    rw [e2] at h
    unfold tinyExactText
    rw [h]
    decide!
  have hg : getUserInputString true (tinyText ++ ['m', 'm', ENTER]) []
      = .line (tinyText ++ ['m', 'm']) [] (tinyText ++ ['m', 'm', '\n']) := by decide!
  exact ⟨h1, userInputLoop_returns _ _ _ _ _ _ _ _ _ _ _ _ hg h1, h1n,
    h2 CLib.ucrt (by decide!), h2 CLib.inexact (by decide!)⟩

/-- C8: for every profile and every input whose core (the input without its
last two characters when `allowMM` is true and both are `m` or `M`,
otherwise the whole input) matches neither the fraction nor the decimal
grammar, the parse fails with `Invalid input format.`. -/
theorem C8_invalid_format (lib : CLib) (input : List Char) (allowMM rp rn az : Bool)
    (hA : ¬ FractionShape (coreOf allowMM input)) (hB : ¬ DecimalShape (coreOf allowMM input)) :
    parseInputWithOptionalMM lib input allowMM rp rn az
      = .ok (.rejected "Invalid input format.") :=
  parse_invalid lib input allowMM rp rn az hA hB

/-- C8, witness: the empty text, `-`, `.`, `-.`, `1/`, `1/2/3`, `1.5/2`,
`--1` and `1.2.3`; `5mm` with `allowMM` false; `mm` and `5m` with `allowMM`
true. -/
theorem C8_invalid_format_witness :
    parseInputWithOptionalMM CLib.ucrt [] false false false true
        = .ok (.rejected "Invalid input format.") ∧
      parseInputWithOptionalMM CLib.ucrt ['-'] false false false true
        = .ok (.rejected "Invalid input format.") ∧
      parseInputWithOptionalMM CLib.ucrt ['.'] false false false true
        = .ok (.rejected "Invalid input format.") ∧
      parseInputWithOptionalMM CLib.ucrt ['-', '.'] true false false true
        = .ok (.rejected "Invalid input format.") ∧
      parseInputWithOptionalMM CLib.ucrt ['1', '/'] false true false false
        = .ok (.rejected "Invalid input format.") ∧
      parseInputWithOptionalMM CLib.ucrt ['1', '/', '2', '/', '3'] false true false true
        = .ok (.rejected "Invalid input format.") ∧
      parseInputWithOptionalMM CLib.ucrt ['1', '.', '5', '/', '2'] true false true false
        = .ok (.rejected "Invalid input format.") ∧
      parseInputWithOptionalMM CLib.ucrt ['-', '-', '1'] false false true false
        = .ok (.rejected "Invalid input format.") ∧
      parseInputWithOptionalMM CLib.ucrt ['1', '.', '2', '.', '3'] false false false true
        = .ok (.rejected "Invalid input format.") ∧
      parseInputWithOptionalMM CLib.ucrt ['5', 'm', 'm'] false false false true
        = .ok (.rejected "Invalid input format.") ∧
      parseInputWithOptionalMM CLib.ucrt ['m', 'm'] true false false true
        = .ok (.rejected "Invalid input format.") ∧
      parseInputWithOptionalMM CLib.ucrt ['5', 'm'] true false false true
        = .ok (.rejected "Invalid input format.") :=
  ⟨C8_invalid_format _ _ _ _ _ _ (not_fractionShape _ (by decide!)) (not_decimalShape _ (by decide!)),
    C8_invalid_format _ _ _ _ _ _ (not_fractionShape _ (by decide!)) (not_decimalShape _ (by decide!)),
    C8_invalid_format _ _ _ _ _ _ (not_fractionShape _ (by decide!)) (not_decimalShape _ (by decide!)),
    C8_invalid_format _ _ _ _ _ _ (not_fractionShape _ (by decide!)) (not_decimalShape _ (by decide!)),
    C8_invalid_format _ _ _ _ _ _ (not_fractionShape _ (by decide!)) (not_decimalShape _ (by decide!)),
    C8_invalid_format _ _ _ _ _ _ (not_fractionShape _ (by decide!)) (not_decimalShape _ (by decide!)),
    C8_invalid_format _ _ _ _ _ _ (not_fractionShape _ (by decide!)) (not_decimalShape _ (by decide!)),
    C8_invalid_format _ _ _ _ _ _ (not_fractionShape _ (by decide!)) (not_decimalShape _ (by decide!)),
    C8_invalid_format _ _ _ _ _ _ (not_fractionShape _ (by decide!)) (not_decimalShape _ (by decide!)),
    C8_invalid_format _ _ _ _ _ _ (not_fractionShape _ (by decide!)) (not_decimalShape _ (by decide!)),
    C8_invalid_format _ _ _ _ _ _ (not_fractionShape _ (by decide!)) (not_decimalShape _ (by decide!)),
    C8_invalid_format _ _ _ _ _ _ (not_fractionShape _ (by decide!)) (not_decimalShape _ (by decide!))⟩

/-! ## The formatter: claims -/

/-- C9: for every finite value and every `p` from 1 to 6, the fixed-point
rendering is the sign, the integer digits, the point and exactly `p`
fraction digits, and `formatGCodeDecimals<p>` returns its canonical form:
the trailing zeros of the fraction are removed, then an integer part that is
the single digit `0` is removed, and a rendering all of whose digits are
zero, negative or not, gives `0.` without a sign. -/
theorem C9_format_canonical (p : Nat) (neg : Bool) (m : Nat) (e : Int)
    (_hp1 : 1 ≤ p) (_hp6 : p ≤ 6) :
    toFixed p (Double.finite neg m e) =
        minus neg ++ natDigits (fixedScaled p m e / 10 ^ p) ++
          '.' :: padDigits p (fixedScaled p m e % 10 ^ p) ∧
      (padDigits p (fixedScaled p m e % 10 ^ p)).length = p ∧
      formatGCodeDecimals p (Double.finite neg m e) =
        canonicalForm neg (natDigits (fixedScaled p m e / 10 ^ p))
          (padDigits p (fixedScaled p m e % 10 ^ p)) :=
  ⟨toFixed_finite p neg m e, padDigits_length _ _, format_finite p neg m e⟩

/-- C9, witness: `format(3.0, 2)` is `3.`, `format(0.5, 1)` is `.5`,
`format(-0.5, 1)` is `-.5`, `format(3.14159, 2)` is `3.14`, `format(0.0, 3)`
is `0.`, and the negative zero and `-0.001` at two places give `0.`. -/
theorem C9_format_canonical_witness :
    formatGCodeDecimals 2 (Double.finite false (3 * 2 ^ 51) (-51)) = ['3', '.'] ∧
      formatGCodeDecimals 1 (Double.finite false (2 ^ 52) (-53)) = ['.', '5'] ∧
      formatGCodeDecimals 1 (Double.finite true (2 ^ 52) (-53)) = ['-', '.', '5'] ∧
      roundToDouble false 314159 100000 = Double.finite false 7074231776675438 (-51) ∧
      formatGCodeDecimals 2 (Double.finite false 7074231776675438 (-51)) = ['3', '.', '1', '4'] ∧
      formatGCodeDecimals 3 (Double.finite false 0 (-1074)) = ['0', '.'] ∧
      formatGCodeDecimals 2 (Double.finite true 0 (-1074)) = ['0', '.'] ∧
      roundToDouble true 1 1000 = Double.finite true 4611686018427388 (-62) ∧
      formatGCodeDecimals 2 (Double.finite true 4611686018427388 (-62)) = ['0', '.'] ∧
      toFixed 2 (Double.finite true 4611686018427388 (-62)) = ['-', '0', '.', '0', '0'] :=
  ⟨(C9_format_canonical 2 false (3 * 2 ^ 51) (-51) (by decide) (by decide)).2.2.trans (by decide!),
    (C9_format_canonical 1 false (2 ^ 52) (-53) (by decide) (by decide)).2.2.trans (by decide!),
    (C9_format_canonical 1 true (2 ^ 52) (-53) (by decide) (by decide)).2.2.trans (by decide!),
    by decide!,
    (C9_format_canonical 2 false 7074231776675438 (-51) (by decide)
      (by decide)).2.2.trans (by decide!),
    (C9_format_canonical 3 false 0 (-1074) (by decide) (by decide)).2.2.trans (by decide!),
    (C9_format_canonical 2 true 0 (-1074) (by decide) (by decide)).2.2.trans (by decide!),
    by decide!,
    (C9_format_canonical 2 true 4611686018427388 (-62) (by decide)
      (by decide)).2.2.trans (by decide!),
    (C9_format_canonical 2 true 4611686018427388 (-62) (by decide)
      (by decide)).1.trans (by decide!)⟩

/-- C10: for every finite value and every `p` from 1 to 6, the text
`formatGCodeDecimals<p>` returns contains exactly one decimal point; its
last character is the point or a digit other than `0`, and it is the point
when all the fraction digits of the rendering are zero; and when the
rendered magnitude is not zero and less than 1, the point follows the sign
directly, with no digit before it. -/
theorem C10_format_invariants (p : Nat) (neg : Bool) (m : Nat) (e : Int)
    (_hp1 : 1 ≤ p) (_hp6 : p ≤ 6) :
    (formatGCodeDecimals p (Double.finite neg m e)).count '.' = 1 ∧
      (∃ init c, formatGCodeDecimals p (Double.finite neg m e) = init ++ [c] ∧
        (c = '.' ∨ (c.isDigit = true ∧ c ≠ '0')) ∧
        (fixedScaled p m e % 10 ^ p = 0 → c = '.')) ∧
      (fixedScaled p m e ≠ 0 → fixedScaled p m e < 10 ^ p →
        ∃ rest, formatGCodeDecimals p (Double.finite neg m e) = minus neg ++ '.' :: rest) := by
  rw [format_finite]
  have hshape := canonicalForm_shape neg (natDigits (fixedScaled p m e / 10 ^ p))
    (padDigits p (fixedScaled p m e % 10 ^ p)) (natDigits_spec _).1 (isDigits_padDigits _ _)
  obtain ⟨hcount, init, c, hc1, hc2, hc3⟩ := hshape
  refine ⟨hcount, ⟨init, c, hc1, hc2, ?_⟩, ?_⟩
  · intro hz
    apply hc3
    rw [hz, strip_eq_nil_iff]
    exact padDigits_zero p
  · intro h0 hlt
    have hq : fixedScaled p m e / 10 ^ p = 0 := Nat.div_eq_of_lt hlt
    have hr : fixedScaled p m e % 10 ^ p = fixedScaled p m e := Nat.mod_eq_of_lt hlt
    have hne := strip_padDigits_ne_nil p (fixedScaled p m e) (by rw [hr]; exact h0)
    rw [hq, hr, natDigits_zero]
    unfold canonicalForm
    rw [if_neg (fun h => hne h.2)]
    exact ⟨stripTrailingZeros (padDigits p (fixedScaled p m e)), by simp⟩

/-- C10, witness: 0.5 at one place and -0.05 at two places. -/
theorem C10_format_invariants_witness :
    (formatGCodeDecimals 1 (Double.finite false (2 ^ 52) (-53))).count '.' = 1 ∧
      (∃ init c, formatGCodeDecimals 1 (Double.finite false (2 ^ 52) (-53)) = init ++ [c] ∧
        (c = '.' ∨ (c.isDigit = true ∧ c ≠ '0')) ∧
        (fixedScaled 1 (2 ^ 52) (-53) % 10 ^ 1 = 0 → c = '.')) ∧
      (∃ rest, formatGCodeDecimals 1 (Double.finite false (2 ^ 52) (-53))
        = minus false ++ '.' :: rest) ∧
      formatGCodeDecimals 1 (Double.finite false (2 ^ 52) (-53)) = ['.', '5'] :=
  ⟨(C10_format_invariants 1 false (2 ^ 52) (-53) (by decide) (by decide)).1,
    (C10_format_invariants 1 false (2 ^ 52) (-53) (by decide) (by decide)).2.1,
    (C10_format_invariants 1 false (2 ^ 52) (-53) (by decide) (by decide)).2.2
      (by decide!) (by decide!),
    by decide!⟩

/-! ## Lemmas on the readers -/

theorem read_cons (allowMM : Bool) (ch : Char) (keys input out : List Char) :
    getUserInputStringFrom allowMM (ch :: keys) input out =
      if ch = SPECIAL_KEY_PREFIX_1 ∨ ch = SPECIAL_KEY_PREFIX_2 then
        match keys with
        | [] => .waiting input out
        | _ :: keys1 => getUserInputStringFrom allowMM keys1 input out
      else if ch = ESC then .threw Exn.escapePressed out
      else if ch = ENTER then .line input keys (out ++ ['\n'])
      else if ch = BACKSPACE then
        if input ≠ [] then
          getUserInputStringFrom allowMM keys input.dropLast (out ++ "\x08 \x08".toList)
        else getUserInputStringFrom allowMM keys input out
      else if ch.isDigit ∨ ch = '.' ∨ ch = '/' ∨ ch = '-' then
        getUserInputStringFrom allowMM keys (input ++ [ch]) (out ++ [ch])
      else if allowMM ∧ (ch = 'm' ∨ ch = 'M') then
        getUserInputStringFrom allowMM keys (input ++ [ch]) (out ++ [ch])
      else getUserInputStringFrom allowMM keys input out := by
  rw [getUserInputStringFrom.eq_def]

theorem dropSpecial_cons (p : Char) (ks : List Char) :
    dropSpecial (p :: ks) =
      if p = SPECIAL_KEY_PREFIX_1 ∨ p = SPECIAL_KEY_PREFIX_2 then
        match ks with
        | [] => []
        | _ :: ks1 => dropSpecial ks1
      else p :: dropSpecial ks := by
  rw [dropSpecial.eq_def]

theorem accepted_not_control (allowMM : Bool) (c : Char) (h : Accepted allowMM c) :
    ¬IsControl c := by
  unfold IsControl
  rcases h with h | h | h | h | ⟨_, h | h⟩
  · rcases isDigit_cases c h with h | h | h | h | h | h | h | h | h | h <;> subst h <;> decide
  all_goals subst h; decide

theorem read_accepted (allowMM : Bool) (c : Char) (keys input out : List Char)
    (h : Accepted allowMM c) :
    getUserInputStringFrom allowMM (c :: keys) input out
      = getUserInputStringFrom allowMM keys (input ++ [c]) (out ++ [c]) := by
  have hc := accepted_not_control allowMM c h
  simp only [IsControl, not_or] at hc
  obtain ⟨h1, h2, h3, h4, h5⟩ := hc
  rw [read_cons]
  by_cases hd : c.isDigit = true ∨ c = '.' ∨ c = '/' ∨ c = '-'
  · simp only [h1, h2, h3, h4, h5, or_self, if_false, hd, if_true]
  · have hm : allowMM = true ∧ (c = 'm' ∨ c = 'M') := by
      rcases h with h | h | h | h | h
      · exact absurd (Or.inl h) hd
      · exact absurd (Or.inr (Or.inl h)) hd
      · exact absurd (Or.inr (Or.inr (Or.inl h))) hd
      · exact absurd (Or.inr (Or.inr (Or.inr h))) hd
      · exact h
    simp only [h1, h2, h3, h4, h5, or_self, if_false, hd, hm, and_self, if_true]

theorem read_ignored (allowMM : Bool) (c : Char) (keys input out : List Char)
    (hc : ¬IsControl c) (h : ¬Accepted allowMM c) :
    getUserInputStringFrom allowMM (c :: keys) input out
      = getUserInputStringFrom allowMM keys input out := by
  simp only [IsControl, not_or] at hc
  obtain ⟨h1, h2, h3, h4, h5⟩ := hc
  simp only [Accepted, not_or] at h
  obtain ⟨a1, a2, a3, a4, a5⟩ := h
  rw [read_cons]
  simp only [h1, h2, h3, h4, h5, a1, a2, a3, a4, a5, or_self, if_false, Bool.false_eq_true]

theorem read_backspace (allowMM : Bool) (keys input out : List Char) :
    getUserInputStringFrom allowMM (BACKSPACE :: keys) input out
      = getUserInputStringFrom allowMM keys input.dropLast
          (if input = [] then out else out ++ "\x08 \x08".toList) := by
  rw [read_cons]
  rw [if_neg (by decide), if_neg (by decide), if_neg (by decide), if_pos rfl]
  by_cases hi : input = []
  · subst hi; simp
  · simp [hi]

theorem read_enter (allowMM : Bool) (keys input out : List Char) :
    getUserInputStringFrom allowMM (ENTER :: keys) input out = .line input keys (out ++ ['\n']) := by
  rw [read_cons]
  rw [if_neg (by decide), if_neg (by decide), if_pos rfl]

theorem read_escape (allowMM : Bool) (keys input out : List Char) :
    getUserInputStringFrom allowMM (ESC :: keys) input out = .threw Exn.escapePressed out := by
  rw [read_cons]
  rw [if_neg (by decide), if_pos rfl]

theorem read_special (allowMM : Bool) (p b : Char) (keys input out : List Char)
    (hp : p = SPECIAL_KEY_PREFIX_1 ∨ p = SPECIAL_KEY_PREFIX_2) :
    getUserInputStringFrom allowMM (p :: b :: keys) input out
      = getUserInputStringFrom allowMM keys input out := by
  rw [read_cons]
  rw [if_pos hp]

theorem read_replay (allowMM : Bool) (ks : List Char) :
    ∀ (keys input out : List Char), (∀ k ∈ ks, Accepted allowMM k ∨ k = BACKSPACE) →
      ∃ out1, getUserInputStringFrom allowMM (ks ++ ENTER :: keys) input out
        = .line (replay ks input) keys out1 := by
  induction ks with
  | nil =>
    intro keys input out _
    exact ⟨_, read_enter allowMM keys input out⟩
  | cons k ks ih =>
    intro keys input out h
    have hk := h k (List.mem_cons_self _ _)
    have ht : ∀ k ∈ ks, Accepted allowMM k ∨ k = BACKSPACE :=
      fun x hx => h x (List.mem_cons_of_mem _ hx)
    by_cases hb : k = BACKSPACE
    · subst hb
      obtain ⟨o, ho⟩ := ih keys input.dropLast
        (if input = [] then out else out ++ "\x08 \x08".toList) ht
      refine ⟨o, ?_⟩
      rw [List.cons_append, read_backspace, ho, replay, if_pos rfl]
    · have ha : Accepted allowMM k := hk.resolve_right hb
      obtain ⟨o, ho⟩ := ih keys (input ++ [k]) (out ++ [k]) ht
      refine ⟨o, ?_⟩
      rw [List.cons_append, read_accepted _ _ _ _ _ ha, ho, replay, if_neg hb]

theorem read_dropSpecial (allowMM : Bool) (keys input out : List Char) :
    (getUserInputStringFrom allowMM keys input out).mapRest dropSpecial
      = getUserInputStringFrom allowMM (dropSpecial keys) input out := by
  induction keys, input, out using getUserInputStringFrom.induct allowMM with
  | case1 input out => rfl
  | case2 ch input out hp =>
    simp only [getUserInputStringFrom, dropSpecial, hp, if_true]
    rfl
  | case3 ch input out hp b keys1 ih =>
    rw [read_special _ _ _ _ _ _ hp, ih]
    simp only [dropSpecial, hp, if_true]
  | case4 keys input out h1 =>
    rw [read_escape, dropSpecial_cons, if_neg h1, read_escape]
    rfl
  | case5 keys input out h1 h2 =>
    rw [read_enter, dropSpecial_cons, if_neg h1, read_enter]
    rfl
  | case6 keys input out hi h1 h2 h3 ih =>
    rw [read_backspace, dropSpecial_cons, if_neg h1, read_backspace, if_neg hi, ih]
  | case7 keys input out hi h1 h2 h3 ih =>
    rw [read_backspace, dropSpecial_cons, if_neg h1, read_backspace]
    have hi : input = [] := by simpa using hi
    subst hi
    simpa using ih
  | case8 ch keys input out h1 h2 h3 h4 h5 ih =>
    have ha : Accepted allowMM ch := by
      rcases h5 with h | h | h | h
      · exact Or.inl h
      · exact Or.inr (Or.inl h)
      · exact Or.inr (Or.inr (Or.inl h))
      · exact Or.inr (Or.inr (Or.inr (Or.inl h)))
    rw [read_accepted _ _ _ _ _ ha, dropSpecial_cons, if_neg h1, read_accepted _ _ _ _ _ ha, ih]
  | case9 ch keys input out h1 h2 h3 h4 h5 h6 ih =>
    have ha : Accepted allowMM ch := Or.inr (Or.inr (Or.inr (Or.inr h6)))
    rw [read_accepted _ _ _ _ _ ha, dropSpecial_cons, if_neg h1, read_accepted _ _ _ _ _ ha, ih]
  | case10 ch keys input out h1 h2 h3 h4 h5 h6 ih =>
    have hc : ¬IsControl ch := by
      simp only [IsControl, not_or] at *
      exact ⟨h1.1, h1.2, h2, h3, h4⟩
    have ha : ¬Accepted allowMM ch := by
      simp only [Accepted, not_or] at *
      exact ⟨h5.1, h5.2.1, h5.2.2.1, h5.2.2.2, h6⟩
    rw [read_ignored _ _ _ _ _ hc ha, dropSpecial_cons, if_neg h1, read_ignored _ _ _ _ _ hc ha, ih]

theorem read_line_accepted (allowMM : Bool) (keys input out : List Char) :
    ∀ (s rest out1 : List Char), (∀ c ∈ input, Accepted allowMM c) →
      getUserInputStringFrom allowMM keys input out = .line s rest out1 →
      ∀ c ∈ s, Accepted allowMM c := by
  induction keys, input, out using getUserInputStringFrom.induct allowMM with
  | case1 input out => intro s rest out1 _ h; simp [getUserInputStringFrom] at h
  | case2 ch input out hp =>
    intro s rest out1 _ h; simp [getUserInputStringFrom, hp] at h
  | case3 ch input out hp b keys1 ih =>
    intro s rest out1 hi h
    rw [read_special _ _ _ _ _ _ hp] at h
    exact ih s rest out1 hi h
  | case4 keys input out h1 =>
    intro s rest out1 _ h; rw [read_escape] at h; cases h
  | case5 keys input out h1 h2 =>
    intro s rest out1 hi h; rw [read_enter] at h
    cases h; exact hi
  | case6 keys input out hi h1 h2 h3 ih =>
    intro s rest out1 hin h
    rw [read_backspace, if_neg hi] at h
    exact ih s rest out1 (fun c hc => hin c (List.dropLast_subset _ hc)) h
  | case7 keys input out hi h1 h2 h3 ih =>
    intro s rest out1 hin h
    have hi : input = [] := by simpa using hi
    subst hi
    rw [read_backspace] at h
    exact ih s rest out1 hin (by simpa using h)
  | case8 ch keys input out h1 h2 h3 h4 h5 ih =>
    intro s rest out1 hin h
    have ha : Accepted allowMM ch := by
      rcases h5 with h | h | h | h
      · exact Or.inl h
      · exact Or.inr (Or.inl h)
      · exact Or.inr (Or.inr (Or.inl h))
      · exact Or.inr (Or.inr (Or.inr (Or.inl h)))
    rw [read_accepted _ _ _ _ _ ha] at h
    refine ih s rest out1 ?_ h
    intro c hc
    rcases List.mem_append.1 hc with hc | hc
    · exact hin c hc
    · rw [List.mem_singleton.1 hc]; exact ha
  | case9 ch keys input out h1 h2 h3 h4 h5 h6 ih =>
    intro s rest out1 hin h
    have ha : Accepted allowMM ch := Or.inr (Or.inr (Or.inr (Or.inr h6)))
    rw [read_accepted _ _ _ _ _ ha] at h
    refine ih s rest out1 ?_ h
    intro c hc
    rcases List.mem_append.1 hc with hc | hc
    · exact hin c hc
    · rw [List.mem_singleton.1 hc]; exact ha
  | case10 ch keys input out h1 h2 h3 h4 h5 h6 ih =>
    intro s rest out1 hin h
    have hc : ¬IsControl ch := by
      simp only [IsControl, not_or] at *
      exact ⟨h1.1, h1.2, h2, h3, h4⟩
    have ha : ¬Accepted allowMM ch := by
      simp only [Accepted, not_or] at *
      exact ⟨h5.1, h5.2.1, h5.2.2.1, h5.2.2.2, h6⟩
    rw [read_ignored _ _ _ _ _ hc ha] at h
    exact ih s rest out1 hin h

theorem lr_cons (ch : Char) (keys input out : List Char) :
    userInputLRFrom (ch :: keys) input out =
      if ch = SPECIAL_KEY_PREFIX_1 ∨ ch = SPECIAL_KEY_PREFIX_2 then
        match keys with
        | [] => .waiting input out
        | _ :: keys1 => userInputLRFrom keys1 input out
      else if ch = ESC then .threw Exn.escapePressed out
      else if ch = ENTER then
        if input.length = 1 ∧
            (input.getD 0 ' ' = 'l' ∨ input.getD 0 ' ' = 'L' ∨
              input.getD 0 ' ' = 'r' ∨ input.getD 0 ' ' = 'R') then
          .returned (input.getD 0 ' ') keys (out ++ ['\n'])
        else userInputLRFrom keys [] (out ++ ['\n'] ++ lrHint)
      else if ch = BACKSPACE then
        if input ≠ [] then userInputLRFrom keys input.dropLast (out ++ "\x08 \x08".toList)
        else userInputLRFrom keys input out
      else if ch = 'l' ∨ ch = 'L' ∨ ch = 'r' ∨ ch = 'R' then
        if input = [] then userInputLRFrom keys (input ++ [ch]) (out ++ [ch])
        else userInputLRFrom keys input out
      else userInputLRFrom keys input out := by
  rw [userInputLRFrom.eq_def]

theorem lr_escape (keys input out : List Char) :
    userInputLRFrom (ESC :: keys) input out = .threw Exn.escapePressed out := by
  rw [lr_cons, if_neg (by decide), if_pos rfl]

theorem lr_enter (keys input out : List Char) :
    userInputLRFrom (ENTER :: keys) input out =
      if input.length = 1 ∧
          (input.getD 0 ' ' = 'l' ∨ input.getD 0 ' ' = 'L' ∨
            input.getD 0 ' ' = 'r' ∨ input.getD 0 ' ' = 'R') then
        .returned (input.getD 0 ' ') keys (out ++ ['\n'])
      else userInputLRFrom keys [] (out ++ ['\n'] ++ lrHint) := by
  rw [lr_cons, if_neg (by decide), if_neg (by decide), if_pos rfl]

theorem lr_returns (keys input out0 : List Char) :
    ∀ (c : Char) (rest out : List Char),
      userInputLRFrom keys input out0 = .returned c rest out →
      (c = 'l' ∨ c = 'L' ∨ c = 'r' ∨ c = 'R') ∧
        ∃ pre o, keys = pre ++ ENTER :: rest ∧ userInputLRFrom pre input out0 = .waiting [c] o ∧
          out = o ++ ['\n'] := by
  induction keys, input, out0 using userInputLRFrom.induct with
  | case1 input out => intro c rest o h; simp [userInputLRFrom] at h
  | case2 ch input out hp => intro c rest o h; simp [userInputLRFrom, hp] at h
  | case3 ch input out hp b keys1 ih =>
    intro c rest o h
    have E : ∀ K, userInputLRFrom (ch :: b :: K) input out = userInputLRFrom K input out := by
      intro K; rw [lr_cons, if_pos hp]
    rw [E] at h
    obtain ⟨hc, pre, o1, hk, hw, ho⟩ := ih c rest o h
    exact ⟨hc, ch :: b :: pre, o1, by rw [hk]; rfl, by rw [E]; exact hw, ho⟩
  | case4 keys input out h1 => intro c rest o h; rw [lr_escape] at h; cases h
  | case5 keys input out hv h1 h2 =>
    intro c rest o h
    rw [lr_enter, if_pos hv] at h
    cases h
    refine ⟨hv.2, [], out, rfl, ?_, rfl⟩
    obtain ⟨hl, _⟩ := hv
    match input, hl with
    | [x], _ => rfl
  | case6 keys input out hv h1 h2 ih =>
    intro c rest o h
    have E : ∀ K, userInputLRFrom (ENTER :: K) input out
        = userInputLRFrom K [] (out ++ ['\n'] ++ lrHint) := by
      intro K; rw [lr_enter, if_neg hv]
    rw [E] at h
    obtain ⟨hc, pre, o1, hk, hw, ho⟩ := ih c rest o h
    exact ⟨hc, ENTER :: pre, o1, by rw [hk]; rfl, by rw [E]; exact hw, ho⟩
  | case7 keys input out hi h1 h2 h3 ih =>
    intro c rest o h
    have E : ∀ K, userInputLRFrom (BACKSPACE :: K) input out
        = userInputLRFrom K input.dropLast (out ++ "\x08 \x08".toList) := by
      intro K; rw [lr_cons, if_neg h1, if_neg h2, if_neg h3, if_pos rfl, if_pos hi]
    rw [E] at h
    obtain ⟨hc, pre, o1, hk, hw, ho⟩ := ih c rest o h
    exact ⟨hc, BACKSPACE :: pre, o1, by rw [hk]; rfl, by rw [E]; exact hw, ho⟩
  | case8 keys input out hi h1 h2 h3 ih =>
    intro c rest o h
    have E : ∀ K, userInputLRFrom (BACKSPACE :: K) input out
        = userInputLRFrom K input out := by
      intro K; rw [lr_cons, if_neg h1, if_neg h2, if_neg h3, if_pos rfl, if_neg hi]
    rw [E] at h
    obtain ⟨hc, pre, o1, hk, hw, ho⟩ := ih c rest o h
    exact ⟨hc, BACKSPACE :: pre, o1, by rw [hk]; rfl, by rw [E]; exact hw, ho⟩
  | case9 ch keys out h1 h2 h3 h4 h5 ih =>
    intro c rest o h
    have E : ∀ K, userInputLRFrom (ch :: K) [] out
        = userInputLRFrom K ([] ++ [ch]) (out ++ [ch]) := by
      intro K; rw [lr_cons, if_neg h1, if_neg h2, if_neg h3, if_neg h4, if_pos h5, if_pos rfl]
    rw [E] at h
    obtain ⟨hc, pre, o1, hk, hw, ho⟩ := ih c rest o h
    exact ⟨hc, ch :: pre, o1, by rw [hk]; rfl, by rw [E]; exact hw, ho⟩
  | case10 ch keys input out h1 h2 h3 h4 h5 h6 ih =>
    intro c rest o h
    have E : ∀ K, userInputLRFrom (ch :: K) input out = userInputLRFrom K input out := by
      intro K; rw [lr_cons, if_neg h1, if_neg h2, if_neg h3, if_neg h4, if_pos h5, if_neg h6]
    rw [E] at h
    obtain ⟨hc, pre, o1, hk, hw, ho⟩ := ih c rest o h
    exact ⟨hc, ch :: pre, o1, by rw [hk]; rfl, by rw [E]; exact hw, ho⟩
  | case11 ch keys input out h1 h2 h3 h4 h5 ih =>
    intro c rest o h
    have E : ∀ K, userInputLRFrom (ch :: K) input out = userInputLRFrom K input out := by
      intro K; rw [lr_cons, if_neg h1, if_neg h2, if_neg h3, if_neg h4, if_neg h5]
    rw [E] at h
    obtain ⟨hc, pre, o1, hk, hw, ho⟩ := ih c rest o h
    exact ⟨hc, ch :: pre, o1, by rw [hk]; rfl, by rw [E]; exact hw, ho⟩

/-! ## Lemmas on nearest integers and nearest binary64 numbers -/

theorem nearestEven_div_iff (x y n : ℕ) (hy : 0 < y) :
    NearestEven ((x : ℚ) / y) n ↔
      (2 * |(n : ℤ) * y - x| ≤ y ∧ (2 * |(n : ℤ) * y - x| = y → n % 2 = 0)) := by
  have hyq : (0 : ℚ) < y := by exact_mod_cast hy
  have habs : |(n : ℚ) - (x : ℚ) / y| = ((|(n : ℤ) * y - x| : ℤ) : ℚ) / y := by
    have : (n : ℚ) - (x : ℚ) / y = ((n : ℚ) * y - x) / y := by field_simp
    rw [this, abs_div, abs_of_pos hyq]
    push_cast
    rfl
  unfold NearestEven
  rw [habs]
  have h1 : ((|(n : ℤ) * y - x| : ℤ) : ℚ) / y ≤ 1 / 2 ↔ 2 * |(n : ℤ) * y - x| ≤ (y : ℤ) := by
    rw [div_le_iff₀ hyq]
    constructor
    · intro h
      have : (2 : ℚ) * ((|(n : ℤ) * y - x| : ℤ) : ℚ) ≤ (y : ℚ) := by linarith
      exact_mod_cast this
    · intro h
      have : (2 : ℚ) * ((|(n : ℤ) * y - x| : ℤ) : ℚ) ≤ (y : ℚ) := by exact_mod_cast h
      linarith
  have h2 : ((|(n : ℤ) * y - x| : ℤ) : ℚ) / y = 1 / 2 ↔ 2 * |(n : ℤ) * y - x| = (y : ℤ) := by
    rw [div_eq_iff (ne_of_gt hyq)]
    constructor
    · intro h
      have : (2 : ℚ) * ((|(n : ℤ) * y - x| : ℤ) : ℚ) = (y : ℚ) := by linarith
      exact_mod_cast this
    · intro h
      have : (2 : ℚ) * ((|(n : ℤ) * y - x| : ℤ) : ℚ) = (y : ℚ) := by exact_mod_cast h
      linarith
  rw [h1, h2]

theorem rne_nearestEven (x y : ℕ) (hy : 0 < y) :
    NearestEven ((x : ℚ) / y) (roundNearestEven x y) := by
  rw [nearestEven_div_iff x y _ hy]
  have hdm : y * (x / y) + x % y = x := Nat.div_add_mod x y
  have hr : x % y < y := Nat.mod_lt x hy
  unfold roundNearestEven
  simp only []
  generalize x / y = q at *
  generalize x % y = r at *
  have hx : (x : ℤ) = (q : ℤ) * y + r := by
    have : ((y * q + r : ℕ) : ℤ) = (x : ℤ) := by rw [hdm]
    push_cast at this
    linarith
  split_ifs with h1 h2 h3
  · have e : (q : ℤ) * y - x = -(r : ℤ) := by rw [hx]; ring
    rw [e, abs_neg, abs_of_nonneg (by positivity)]
    constructor
    · omega
    · intro h; omega
  · have e : ((q + 1 : ℕ) : ℤ) * y - x = (y : ℤ) - r := by rw [hx]; push_cast; ring
    rw [e, abs_of_nonneg (by omega)]
    constructor
    · omega
    · intro h; omega
  · have e : (q : ℤ) * y - x = -(r : ℤ) := by rw [hx]; ring
    rw [e, abs_neg, abs_of_nonneg (by positivity)]
    exact ⟨by omega, fun _ => h3⟩
  · have e : ((q + 1 : ℕ) : ℤ) * y - x = (y : ℤ) - r := by rw [hx]; push_cast; ring
    rw [e, abs_of_nonneg (by omega)]
    exact ⟨by omega, fun _ => by omega⟩

theorem nearestEven_unique (u : ℚ) (a b : ℕ) (ha : NearestEven u a) (hb : NearestEven u b) :
    a = b := by
  obtain ⟨ha1, ha2⟩ := ha
  obtain ⟨hb1, hb2⟩ := hb
  have ha3 := abs_le.1 ha1
  have hb3 := abs_le.1 hb1
  have h1 : (a : ℚ) ≤ b + 1 := by linarith
  have h2 : (b : ℚ) ≤ a + 1 := by linarith
  have h1n : a ≤ b + 1 := by exact_mod_cast h1
  have h2n : b ≤ a + 1 := by exact_mod_cast h2
  by_contra hne
  rcases Nat.lt_or_gt_of_ne hne with hlt | hgt
  · have hba : b = a + 1 := by omega
    have hbq : (b : ℚ) = a + 1 := by exact_mod_cast hba
    have e1 : (a : ℚ) - u = -(1 / 2) := by linarith
    have e2 : (b : ℚ) - u = 1 / 2 := by linarith
    have := ha2 (by rw [e1, abs_neg]; norm_num)
    have := hb2 (by rw [e2]; norm_num)
    omega
  · have hab : a = b + 1 := by omega
    have haq : (a : ℚ) = b + 1 := by exact_mod_cast hab
    have e1 : (b : ℚ) - u = -(1 / 2) := by linarith
    have e2 : (a : ℚ) - u = 1 / 2 := by linarith
    have := hb2 (by rw [e1, abs_neg]; norm_num)
    have := ha2 (by rw [e2]; norm_num)
    omega

theorem nearestEven_nearest (u : ℚ) (a n : ℕ) (ha : NearestEven u a) :
    |(a : ℚ) - u| ≤ |(n : ℚ) - u| := by
  by_contra hlt
  push_neg at hlt
  have h1 := ha.1
  have h2 : |(n : ℚ) - a| < 1 := by
    have : (n : ℚ) - a = ((n : ℚ) - u) - ((a : ℚ) - u) := by ring
    rw [this]
    calc |((n : ℚ) - u) - ((a : ℚ) - u)| ≤ |(n : ℚ) - u| + |(a : ℚ) - u| := abs_sub _ _
      _ < 1 := by linarith
  have h3 := abs_lt.1 h2
  have h4 : (n : ℚ) < a + 1 := by linarith
  have h5 : (a : ℚ) < n + 1 := by linarith
  have h4n : n < a + 1 := by exact_mod_cast h4
  have h5n : a < n + 1 := by exact_mod_cast h5
  have : n = a := by omega
  subst this
  exact lt_irrefl _ hlt

theorem rne_scale (x y c : ℕ) (hy : 0 < y) (hc : 0 < c) :
    roundNearestEven (x * c) (y * c) = roundNearestEven x y := by
  apply nearestEven_unique ((x : ℚ) / y)
  · have := rne_nearestEven (x * c) (y * c) (Nat.mul_pos hy hc)
    have e : ((x * c : ℕ) : ℚ) / ((y * c : ℕ) : ℚ) = (x : ℚ) / y := by
      have hcq : (c : ℚ) ≠ 0 := by exact_mod_cast (ne_of_gt hc)
      push_cast
      rw [mul_div_mul_right _ _ hcq]
    rwa [e] at this
  · exact rne_nearestEven x y hy

theorem scaled_nearestEven (num den : ℕ) (e : ℤ) (hd : 0 < den) :
    NearestEven ((num : ℚ) / den / 2 ^ e) (scaledSignificand num den e) := by
  have hdq : (den : ℚ) ≠ 0 := by exact_mod_cast (ne_of_gt hd)
  unfold scaledSignificand
  by_cases he : 0 ≤ e
  · rw [if_pos he]
    obtain ⟨n, rfl⟩ := Int.eq_ofNat_of_zero_le he
    simp only [Int.toNat_ofNat]
    have := rne_nearestEven num (den * 2 ^ n) (by positivity)
    have e1 : (num : ℚ) / ((den * 2 ^ n : ℕ) : ℚ) = (num : ℚ) / den / 2 ^ (n : ℤ) := by
      rw [zpow_natCast]; push_cast; rw [div_div]
    rwa [e1] at this
  · rw [if_neg he]
    obtain ⟨n, hn⟩ : ∃ n : ℕ, e = -(n : ℤ) := ⟨(-e).toNat, by omega⟩
    subst hn
    simp only [neg_neg, Int.toNat_ofNat]
    have := rne_nearestEven (num * 2 ^ n) den hd
    have e1 : ((num * 2 ^ n : ℕ) : ℚ) / (den : ℚ) = (num : ℚ) / den / 2 ^ (-(n : ℤ)) := by
      rw [zpow_neg, zpow_natCast]; push_cast; field_simp
    rwa [e1] at this

theorem scaled_scale (num den c : ℕ) (e : ℤ) (hd : 0 < den) (hc : 0 < c) :
    scaledSignificand (num * c) (den * c) e = scaledSignificand num den e := by
  apply nearestEven_unique ((num : ℚ) / den / 2 ^ e)
  · have := scaled_nearestEven (num * c) (den * c) e (Nat.mul_pos hd hc)
    have e1 : ((num * c : ℕ) : ℚ) / ((den * c : ℕ) : ℚ) = (num : ℚ) / den := by
      have hcq : (c : ℚ) ≠ 0 := by exact_mod_cast (ne_of_gt hc)
      push_cast
      rw [mul_div_mul_right _ _ hcq]
    rwa [e1] at this
  · exact scaled_nearestEven num den e hd

theorem binade_scale (num den c : ℕ) (hn : 0 < num) (hd : 0 < den) (hc : 0 < c) :
    binade (num * c) (den * c) = binade num den := by
  obtain ⟨hb1, hb2⟩ := binade_spec num den hn hd
  have hcq : (0 : ℚ) < c := by exact_mod_cast hc
  have := binade_of_bounds (num * c) (den * c) (Nat.mul_pos hn hc) (Nat.mul_pos hd hc)
    (binade num den) (binade num den + 1)
    (by push_cast; nlinarith) (by push_cast; nlinarith)
  omega

theorem roundToDouble_scale (neg : Bool) (num den c : ℕ) (hd : 0 < den) (hc : 0 < c) :
    roundToDouble neg (num * c) (den * c) = roundToDouble neg num den := by
  rcases Nat.eq_zero_or_pos num with h0 | hn
  · subst h0
    simp [roundToDouble]
  · unfold roundToDouble
    rw [if_neg (Nat.pos_iff_ne_zero.1 (Nat.mul_pos hn hc)), if_neg (Nat.pos_iff_ne_zero.1 hn)]
    simp only [binade_scale num den c hn hd hc, scaled_scale num den c _ hd hc]

/-- The rounding of a positive quotient that does not exceed the largest
binary64 number: the result is a finite number in canonical form, a normal
one when the quotient is at least `2^-1022`, and no binary64 number of that
sign is nearer to the quotient. -/
theorem roundToDouble_nearest (neg : Bool) (num den : ℕ) (hn : 0 < num) (hd : 0 < den)
    (hmax : (num : ℚ) ≤ (2 ^ 53 - 1) * 2 ^ 971 * den) :
    ∃ m1 e1, roundToDouble neg num den = Double.finite neg m1 e1 ∧ m1 < 2 ^ 53 ∧
      -1074 ≤ e1 ∧ e1 ≤ 971 ∧
      ((den : ℚ) * 2 ^ (-1022 : ℤ) ≤ num → 2 ^ 52 ≤ m1) ∧
      ∀ (mw : ℕ) (ew : ℤ), mw < 2 ^ 53 → -1074 ≤ ew →
        |(m1 : ℚ) * 2 ^ e1 - (num : ℚ) / den| ≤ |(mw : ℚ) * 2 ^ ew - (num : ℚ) / den| := by
  obtain ⟨hb1, hb2⟩ := binade_spec num den hn hd
  have hdq : (0 : ℚ) < den := by exact_mod_cast hd
  have hnq : (0 : ℚ) < num := by exact_mod_cast hn
  have hk : binade num den < 1024 := by
    have h1 : (num : ℚ) < den * 2 ^ (1024 : ℤ) := by
      have : ((2 : ℚ) ^ 53 - 1) * 2 ^ 971 < 2 ^ (1024 : ℤ) := by norm_num
      calc (num : ℚ) ≤ (2 ^ 53 - 1) * 2 ^ 971 * den := hmax
        _ < 2 ^ (1024 : ℤ) * den := by
          exact mul_lt_mul_of_pos_right this hdq
        _ = den * 2 ^ (1024 : ℤ) := mul_comm _ _
    exact (binade_of_bounds num den hn hd (binade num den) 1024 hb1 h1).2
  have hlow : (den : ℚ) * 2 ^ (-1022 : ℤ) ≤ num → -1022 ≤ binade num den := fun h =>
    (binade_of_bounds num den hn hd (-1022) (binade num den + 1) h hb2).1
  unfold roundToDouble
  rw [if_neg (Nat.pos_iff_ne_zero.1 hn)]
  simp only []
  generalize binade num den = k at *
  obtain ⟨e, he⟩ : ∃ e : ℤ, e = max (k - 52) (-1074) := ⟨_, rfl⟩
  rw [← he]
  have he1 : k - 52 ≤ e := by rw [he]; exact le_max_left _ _
  have he2 : -1074 ≤ e := by rw [he]; exact le_max_right _ _
  have he3 : e ≤ 971 := by rw [he]; exact max_le (by omega) (by omega)
  have he4 : e = k - 52 ∨ e = -1074 := by
    rcases max_choice (k - 52) (-1074) with h | h
    · left; rw [he, h]
    · right; rw [he, h]
  have hM := scaled_nearestEven num den e hd
  have h2e : (0 : ℚ) < 2 ^ e := by positivity
  have hMle : scaledSignificand num den e ≤ 2 ^ 53 := by
    apply scaled_le _ _ _ _ hd
    have h1 : (2 : ℚ) ^ (k + 1) ≤ 2 ^ 53 * 2 ^ e := by
      rw [show (2 : ℚ) ^ 53 = 2 ^ (53 : ℤ) by norm_num, ← zpow_add₀ (by norm_num)]
      exact zpow_le_zpow_right₀ (by norm_num) (by omega)
    calc (num : ℚ) ≤ den * 2 ^ (k + 1) := le_of_lt hb2
      _ ≤ den * (2 ^ 53 * 2 ^ e) := by exact mul_le_mul_of_nonneg_left h1 hdq.le
      _ = ((2 ^ 53 : ℕ) : ℚ) * den * 2 ^ e := by push_cast; ring
  have hMtop : e = 971 → scaledSignificand num den e ≤ 2 ^ 53 - 1 := by
    intro h
    apply scaled_le _ _ _ _ hd
    rw [h]
    calc (num : ℚ) ≤ (2 ^ 53 - 1) * 2 ^ 971 * den := hmax
      _ = ((2 ^ 53 - 1 : ℕ) : ℚ) * den * 2 ^ (971 : ℤ) := by
        rw [show ((2 ^ 53 - 1 : ℕ) : ℚ) = 2 ^ 53 - 1 by norm_num]
        rw [show (2 : ℚ) ^ (971 : ℤ) = 2 ^ 971 by norm_num]
        ring
  have hMge : e = k - 52 → 2 ^ 52 ≤ scaledSignificand num den e := by
    intro h
    apply scaled_ge _ _ _ _ hd
    have : ((2 ^ 52 : ℕ) : ℚ) * den * 2 ^ e = den * 2 ^ k := by
      rw [h, zpow_sub₀ (by norm_num)]; push_cast; field_simp; ring
    rw [this]; exact hb1
  generalize scaledSignificand num den e = M at *
  -- the value delivered is `M * 2^e`
  have hopt : ∀ (mw : ℕ) (ew : ℤ), mw < 2 ^ 53 → -1074 ≤ ew →
      |(M : ℚ) * 2 ^ e - (num : ℚ) / den| ≤ |(mw : ℚ) * 2 ^ ew - (num : ℚ) / den| := by
    intro mw ew hmw hew
    have hx : (num : ℚ) / den = (num : ℚ) / den / 2 ^ e * 2 ^ e :=
      (div_mul_cancel₀ _ (ne_of_gt h2e)).symm
    by_cases hc : e ≤ ew
    · obtain ⟨j, hj⟩ : ∃ j : ℕ, ew = e + j := ⟨(ew - e).toNat, by omega⟩
      have hw : (mw : ℚ) * 2 ^ ew = ((mw * 2 ^ j : ℕ) : ℚ) * 2 ^ e := by
        rw [hj, zpow_add₀ (by norm_num), zpow_natCast]; push_cast; ring
      have hnear := nearestEven_nearest _ M (mw * 2 ^ j) hM
      rw [hw]
      have e1 : (M : ℚ) * 2 ^ e - (num : ℚ) / den
          = ((M : ℚ) - (num : ℚ) / den / 2 ^ e) * 2 ^ e := by
        rw [sub_mul, ← hx]
      have e2 : ((mw * 2 ^ j : ℕ) : ℚ) * 2 ^ e - (num : ℚ) / den
          = (((mw * 2 ^ j : ℕ) : ℚ) - (num : ℚ) / den / 2 ^ e) * 2 ^ e := by
        rw [sub_mul, ← hx]
      rw [e1, e2, abs_mul, abs_mul]
      exact mul_le_mul_of_nonneg_right hnear (abs_nonneg _)
    · push_neg at hc
      have hek : e = k - 52 := by
        rcases he4 with h | h
        · exact h
        · omega
      have hxk : (2 : ℚ) ^ k ≤ (num : ℚ) / den := by
        rw [le_div_iff₀ hdq, mul_comm]; exact hb1
      have hy : ((2 ^ 52 : ℕ) : ℚ) * 2 ^ e = 2 ^ k := by
        rw [hek, zpow_sub₀ (by norm_num)]; push_cast; field_simp; ring
      have hnear := nearestEven_nearest _ M (2 ^ 52) hM
      have e1 : (M : ℚ) * 2 ^ e - (num : ℚ) / den
          = ((M : ℚ) - (num : ℚ) / den / 2 ^ e) * 2 ^ e := by
        rw [sub_mul, ← hx]
      have e2 : (2 : ℚ) ^ k - (num : ℚ) / den
          = (((2 ^ 52 : ℕ) : ℚ) - (num : ℚ) / den / 2 ^ e) * 2 ^ e := by
        rw [sub_mul, ← hx, hy]
      have h1 : |(M : ℚ) * 2 ^ e - (num : ℚ) / den| ≤ |(2 : ℚ) ^ k - (num : ℚ) / den| := by
        rw [e1, e2, abs_mul, abs_mul]
        exact mul_le_mul_of_nonneg_right hnear (abs_nonneg _)
      have hwlt : (mw : ℚ) * 2 ^ ew < 2 ^ k := by
        have h2 : (2 : ℚ) ^ ew ≤ 2 ^ (e - 1) := zpow_le_zpow_right₀ (by norm_num) (by omega)
        have h3 : (mw : ℚ) < 2 ^ 53 := by exact_mod_cast hmw
        have h4 : (2 : ℚ) ^ 53 * 2 ^ (e - 1) = 2 ^ k := by
          rw [hek, show (2 : ℚ) ^ 53 = 2 ^ (53 : ℤ) by norm_num, ← zpow_add₀ (by norm_num)]
          congr 1; omega
        calc (mw : ℚ) * 2 ^ ew ≤ mw * 2 ^ (e - 1) :=
              mul_le_mul_of_nonneg_left h2 (by positivity)
          _ < 2 ^ 53 * 2 ^ (e - 1) := mul_lt_mul_of_pos_right h3 (by positivity)
          _ = 2 ^ k := h4
      rw [abs_of_nonpos (a := (2 : ℚ) ^ k - (num : ℚ) / den) (by linarith)] at h1
      rw [abs_of_nonpos (a := (mw : ℚ) * 2 ^ ew - (num : ℚ) / den) (by linarith)]
      linarith
  by_cases h53 : M = 2 ^ 53
  · rw [if_pos h53, if_pos h53]
    have hne : e ≠ 971 := by
      intro h
      have := hMtop h
      omega
    rw [if_neg (by omega)]
    refine ⟨2 ^ 52, e + 1, rfl, by norm_num, by omega, by omega, fun _ => le_refl _, ?_⟩
    intro mw ew hmw hew
    have : ((2 ^ 52 : ℕ) : ℚ) * 2 ^ (e + 1) = (M : ℚ) * 2 ^ e := by
      rw [h53, zpow_add₀ (by norm_num)]; push_cast; ring
    rw [this]
    exact hopt mw ew hmw hew
  · rw [if_neg h53, if_neg h53, if_neg (by omega)]
    refine ⟨M, e, rfl, by omega, he2, he3, ?_, hopt⟩
    intro hl
    have := hlow hl
    apply hMge
    rcases he4 with h | h
    · exact h
    · omega

/-! ## Lemmas on the round trip through the formatter -/

theorem fixedScaled_nearestEven (p m : ℕ) (e : ℤ) :
    NearestEven ((m : ℚ) * 2 ^ e * 10 ^ p) (fixedScaled p m e) := by
  unfold fixedScaled
  by_cases he : 0 ≤ e
  · rw [if_pos he]
    obtain ⟨n, rfl⟩ := Int.eq_ofNat_of_zero_le he
    simp only [Int.toNat_ofNat]
    have : ((m * 2 ^ n * 10 ^ p : ℕ) : ℚ) - (m : ℚ) * 2 ^ (n : ℤ) * 10 ^ p = 0 := by
      rw [zpow_natCast]; push_cast; ring
    unfold NearestEven
    rw [this]
    norm_num
  · rw [if_neg he]
    obtain ⟨n, hn⟩ : ∃ n : ℕ, e = -(n : ℤ) := ⟨(-e).toNat, by omega⟩
    subst hn
    simp only [neg_neg, Int.toNat_ofNat]
    have := rne_nearestEven (m * 10 ^ p) (2 ^ n) (by positivity)
    have e1 : ((m * 10 ^ p : ℕ) : ℚ) / ((2 ^ n : ℕ) : ℚ) = (m : ℚ) * 2 ^ (-(n : ℤ)) * 10 ^ p := by
      rw [zpow_neg, zpow_natCast]; push_cast; field_simp
    rwa [e1] at this

theorem fixedScaled_le_max (p m : ℕ) (e : ℤ) (hm : m < 2 ^ 53) (he : e ≤ 971) :
    ((fixedScaled p m e : ℕ) : ℚ) ≤ (2 ^ 53 - 1) * 2 ^ 971 * ((10 ^ p : ℕ) : ℚ) := by
  have h := (abs_le.1 (fixedScaled_nearestEven p m e).1).2
  have hm1 : (m : ℚ) ≤ 2 ^ 53 - 1 := by
    have : m ≤ 2 ^ 53 - 1 := by omega
    have h2 : (m : ℚ) ≤ ((2 ^ 53 - 1 : ℕ) : ℚ) := by exact_mod_cast this
    rwa [show ((2 ^ 53 - 1 : ℕ) : ℚ) = 2 ^ 53 - 1 by norm_num] at h2
  have h2e : (2 : ℚ) ^ e ≤ 2 ^ 971 := by
    rw [show (2 : ℚ) ^ 971 = 2 ^ (971 : ℤ) by norm_num]
    exact zpow_le_zpow_right₀ (by norm_num) he
  have hu : (m : ℚ) * 2 ^ e * 10 ^ p ≤ (2 ^ 53 - 1) * 2 ^ 971 * 10 ^ p := by
    apply mul_le_mul_of_nonneg_right _ (by positivity)
    exact mul_le_mul hm1 h2e (by positivity) (by norm_num)
  have hB : ((2 : ℚ) ^ 53 - 1) * 2 ^ 971 * 10 ^ p
      = (((2 ^ 53 - 1) * 2 ^ 971 * 10 ^ p : ℕ) : ℚ) := by
    norm_num
  have h3 : ((fixedScaled p m e : ℕ) : ℚ) < (((2 ^ 53 - 1) * 2 ^ 971 * 10 ^ p : ℕ) : ℚ) + 1 := by
    rw [← hB]; linarith
  have h4 : fixedScaled p m e < (2 ^ 53 - 1) * 2 ^ 971 * 10 ^ p + 1 := by exact_mod_cast h3
  have h5 : fixedScaled p m e ≤ (2 ^ 53 - 1) * 2 ^ 971 * 10 ^ p := by omega
  have h6 : ((fixedScaled p m e : ℕ) : ℚ) ≤ (((2 ^ 53 - 1) * 2 ^ 971 * 10 ^ p : ℕ) : ℚ) := by
    exact_mod_cast h5
  rw [← hB] at h6
  push_cast
  exact h6

theorem not_tiny (n d : ℕ) (hn : n ≠ 0) (hd : d ≤ 10 ^ 6) : ¬ n * 2 ^ 1022 < d := by
  intro h
  have h1 : 2 ^ 1022 ≤ n * 2 ^ 1022 := Nat.le_mul_of_pos_left _ (Nat.pos_of_ne_zero hn)
  have h2 : (10 : ℕ) ^ 6 < 2 ^ 1022 := by norm_num
  exact absurd (lt_of_lt_of_le h (le_trans hd (le_of_lt h2))) (not_lt.2 h1)

/-- The binary64 number nearest to the rendered decimal is rendered to the
same digits. -/
theorem rendered_again (neg : Bool) (p m : ℕ) (e : ℤ) (hm : m < 2 ^ 53)
    (he1 : -1074 ≤ e) (he2 : e ≤ 971) (h0 : 0 < fixedScaled p m e) :
    ∃ m1 e1, roundToDouble neg (fixedScaled p m e) (10 ^ p) = Double.finite neg m1 e1 ∧
      fixedScaled p m1 e1 = fixedScaled p m e := by
  obtain ⟨m1, e1, hr, -, -, -, -, hopt⟩ := roundToDouble_nearest neg (fixedScaled p m e) (10 ^ p)
    h0 (by positivity) (fixedScaled_le_max p m e hm he2)
  refine ⟨m1, e1, hr, ?_⟩
  have hN := fixedScaled_nearestEven p m e
  have h10 : (0 : ℚ) < 10 ^ p := by positivity
  generalize fixedScaled p m e = N at *
  have hd := hopt m e hm he1
  have key : ∀ (a : ℕ) (b : ℤ), |(N : ℚ) - (a : ℚ) * 2 ^ b * 10 ^ p|
      = |(a : ℚ) * 2 ^ b - (N : ℚ) / ((10 ^ p : ℕ) : ℚ)| * 10 ^ p := by
    intro a b
    have : (N : ℚ) - (a : ℚ) * 2 ^ b * 10 ^ p
        = -(((a : ℚ) * 2 ^ b - (N : ℚ) / ((10 ^ p : ℕ) : ℚ)) * 10 ^ p) := by
      push_cast; field_simp
    rw [this, abs_neg, abs_mul, abs_of_pos h10]
  have hle : |(N : ℚ) - (m1 : ℚ) * 2 ^ e1 * 10 ^ p| ≤ |(N : ℚ) - (m : ℚ) * 2 ^ e * 10 ^ p| := by
    rw [key, key]
    exact mul_le_mul_of_nonneg_right hd h10.le
  have hN1 : NearestEven ((m1 : ℚ) * 2 ^ e1 * 10 ^ p) N := by
    refine ⟨le_trans hle hN.1, fun heq => hN.2 ?_⟩
    exact le_antisymm hN.1 (heq ▸ hle)
  exact nearestEven_unique _ _ _ (fixedScaled_nearestEven p m1 e1) hN1

theorem decimalValue_append (a b : List Char) :
    decimalValue (a ++ b) = decimalValue a * 10 ^ b.length + decimalValue b := by
  unfold decimalValue
  rw [List.foldl_append, foldl_decimal]
  rfl

theorem natDigits_eq_zero (q : ℕ) (h : natDigits q = ['0']) : q = 0 := by
  have := (natDigits_spec q).2.2
  rw [h] at this
  exact this.symm

/-- The text of `formatGCodeDecimals<p>` for a finite value is a decimal
text, and the decimal it denotes is the rendered one. -/
theorem format_decimalText (p : ℕ) (neg : Bool) (m : ℕ) (e : ℤ) :
    ∃ ip1 fp1 z, formatGCodeDecimals p (Double.finite neg m e)
        = decimalText (neg && decide (fixedScaled p m e ≠ 0)) ip1 (some fp1) ∧
      DecimalParts ip1 (some fp1) ∧
      decimalValue (ip1 ++ fp1) * 10 ^ z = fixedScaled p m e ∧
      10 ^ fp1.length * 10 ^ z = 10 ^ p := by
  rw [format_finite]
  unfold canonicalForm
  generalize hN : fixedScaled p m e = N
  have hq := natDigits_spec (N / 10 ^ p)
  have hfd := isDigits_padDigits p (N % 10 ^ p)
  have hfv := decimalValue_padDigits p (N % 10 ^ p)
  have hfl := padDigits_length p (N % 10 ^ p)
  rw [Nat.mod_mod] at hfv
  obtain ⟨z, hz⟩ := strip_decompose (padDigits p (N % 10 ^ p))
  have hs : IsDigits (stripTrailingZeros (padDigits p (N % 10 ^ p))) :=
    fun c hc => hfd c (strip_subset _ c hc)
  have hnil := strip_eq_nil_iff (padDigits p (N % 10 ^ p))
  generalize stripTrailingZeros (padDigits p (N % 10 ^ p)) = fp1 at *
  have hlen : fp1.length + z = p := by
    have := congrArg List.length hz
    rw [hfl, List.length_append, List.length_replicate] at this
    exact this.symm
  have hval : decimalValue fp1 * 10 ^ z = N % 10 ^ p := by
    have := congrArg decimalValue hz
    rw [hfv, decimalValue_append, List.length_replicate,
      decimalValue_zeros _ (fun c hc => (List.mem_replicate.1 hc).2)] at this
    omega
  have hpow : 10 ^ fp1.length * 10 ^ z = 10 ^ p := by rw [← pow_add, hlen]
  have hNdm : 10 ^ p * (N / 10 ^ p) + N % 10 ^ p = N := Nat.div_add_mod N (10 ^ p)
  by_cases hc : natDigits (N / 10 ^ p) = ['0'] ∧ fp1 = []
  · rw [if_pos hc]
    have hq0 := natDigits_eq_zero _ hc.1
    have hr0 : N % 10 ^ p = 0 := by
      rw [← hval, hc.2]; simp [decimalValue]
    have hN0 : N = 0 := by rw [← hNdm, hq0, hr0]; simp
    refine ⟨['0'], [], p, ?_, by decide, ?_, by simp⟩
    · rw [hN0]; simp [decimalText, minus, pointPart]
    · rw [hN0]; simp [decimalValue, digitVal]
  · rw [if_neg hc]
    have hN0 : N ≠ 0 := by
      intro h
      apply hc
      subst h
      constructor
      · rw [Nat.zero_div]; exact natDigits_zero
      · rw [hnil]; rw [Nat.zero_mod]; exact padDigits_zero p
    refine ⟨if natDigits (N / 10 ^ p) = ['0'] then [] else natDigits (N / 10 ^ p), fp1, z,
      ?_, ⟨?_, hs, ?_⟩, ?_, hpow⟩
    · simp [decimalText, pointPart, hN0]
    · split_ifs
      · exact IsDigits.nil
      · exact hq.1
    · by_cases h1 : natDigits (N / 10 ^ p) = ['0']
      · right
        intro h2
        exact hc ⟨h1, by simpa [fracDigits] using h2⟩
      · left
        rw [if_neg h1]
        exact hq.2.1
    · have hip : decimalValue (if natDigits (N / 10 ^ p) = ['0'] then []
          else natDigits (N / 10 ^ p)) = N / 10 ^ p := by
        split_ifs with h1
        · rw [natDigits_eq_zero _ h1]; rfl
        · exact hq.2.2
      rw [decimalValue_append, hip, add_mul, hval, mul_assoc, hpow, mul_comm]
      exact hNdm

/-- The conversion of the text of `formatGCodeDecimals<p>` by `strtod`. -/
theorem format_converted (p : ℕ) (neg : Bool) (m : ℕ) (e : ℤ) (hp : p ≤ 6) (hm : m < 2 ^ 53)
    (he2 : e ≤ 971) :
    ∃ ip1 fp1, formatGCodeDecimals p (Double.finite neg m e)
        = decimalText (neg && decide (fixedScaled p m e ≠ 0)) ip1 (some fp1) ∧
      DecimalParts ip1 (some fp1) ∧
      ∀ lib : CLib, strtodRound lib (neg && decide (fixedScaled p m e ≠ 0))
          (decimalValue (ip1 ++ fracDigits (some fp1))) (10 ^ (fracDigits (some fp1)).length)
        = .ok (roundToDouble (neg && decide (fixedScaled p m e ≠ 0)) (fixedScaled p m e)
            (10 ^ p)) := by
  obtain ⟨ip1, fp1, z, hf, hparts, hv, hpow⟩ := format_decimalText p neg m e
  refine ⟨ip1, fp1, hf, hparts, ?_⟩
  intro lib
  have hfd : fracDigits (some fp1) = fp1 := rfl
  rw [hfd]
  have hsc := roundToDouble_scale (neg && decide (fixedScaled p m e ≠ 0))
    (decimalValue (ip1 ++ fp1)) (10 ^ fp1.length) (10 ^ z) (by positivity) (by positivity)
  rw [hv, hpow] at hsc
  unfold strtodRound
  rw [← hsc]
  rcases Nat.eq_zero_or_pos (fixedScaled p m e) with h0 | h0
  · have hdv : decimalValue (ip1 ++ fp1) = 0 := by
      rw [h0] at hv
      rcases Nat.mul_eq_zero.1 hv with h | h
      · exact h
      · exact absurd h (by positivity)
    rw [hsc, h0]
    simp [roundToDouble, hdv]
  · obtain ⟨m1, e1, hr, -, -, -, -, -⟩ := roundToDouble_nearest
      (neg && decide (fixedScaled p m e ≠ 0)) (fixedScaled p m e) (10 ^ p)
      h0 (by positivity) (fixedScaled_le_max p m e hm he2)
    have hlen : 10 ^ fp1.length ≤ 10 ^ 6 := by
      calc 10 ^ fp1.length ≤ 10 ^ fp1.length * 10 ^ z := Nat.le_mul_of_pos_right _ (by positivity)
        _ = 10 ^ p := hpow
        _ ≤ 10 ^ 6 := Nat.pow_le_pow_right (by norm_num) hp
    rw [hr]
    simp only
    rw [if_neg]
    intro hcon
    exact not_tiny _ _ hcon.1 hlen hcon.2.1

/-- The conversion of the fixed-point rendering itself by `std::stod`. -/
theorem stod_toFixed (lib : CLib) (p : ℕ) (neg : Bool) (m : ℕ) (e : ℤ) (hp : p ≤ 6)
    (hm : m < 2 ^ 53) (he2 : e ≤ 971) :
    stod lib (toFixed p (Double.finite neg m e))
      = .ok (roundToDouble neg (fixedScaled p m e) (10 ^ p)) := by
  have hq := natDigits_spec (fixedScaled p m e / 10 ^ p)
  have hparts : DecimalParts (natDigits (fixedScaled p m e / 10 ^ p))
      (some (padDigits p (fixedScaled p m e % 10 ^ p))) :=
    ⟨hq.1, isDigits_padDigits _ _, Or.inl hq.2.1⟩
  have ht : toFixed p (Double.finite neg m e)
      = decimalText neg (natDigits (fixedScaled p m e / 10 ^ p))
          (some (padDigits p (fixedScaled p m e % 10 ^ p))) := by
    rw [toFixed_finite]
    simp [decimalText, pointPart]
  have hfd : ∀ P : List Char, fracDigits (some P) = P := fun _ => rfl
  have hv : decimalValue (natDigits (fixedScaled p m e / 10 ^ p)
      ++ padDigits p (fixedScaled p m e % 10 ^ p)) = fixedScaled p m e := by
    rw [decimalValue_append, hq.2.2, padDigits_length, decimalValue_padDigits, Nat.mod_mod,
      mul_comm]
    exact Nat.div_add_mod _ _
  rw [ht, stod_text lib neg _ _ hparts, hfd, hv, padDigits_length]
  unfold strtodRound
  rcases Nat.eq_zero_or_pos (fixedScaled p m e) with h0 | h0
  · rw [h0]
    simp [roundToDouble]
  · obtain ⟨m1, e1, hr, -, -, -, -, -⟩ := roundToDouble_nearest neg (fixedScaled p m e)
      (10 ^ p) h0 (by positivity) (fixedScaled_le_max p m e hm he2)
    rw [hr]
    simp only
    rw [if_neg]
    intro hcon
    exact not_tiny _ _ hcon.1 (Nat.pow_le_pow_right (by norm_num) hp) hcon.2.1

theorem strFind_some (s : List Char) (c : Char) (pos dp : Nat) (h : strFind s c pos = some dp) :
    s = s.take dp ++ c :: s.drop (dp + 1) := by
  unfold strFind at h
  simp only at h
  split at h
  · rename_i hlt
    have hdp : dp = pos + (s.drop pos).indexOf c := by
      simpa using h.symm
    have hget : (s.drop pos)[(s.drop pos).indexOf c] = c := List.indexOf_get hlt
    have hlen : dp < s.length := by
      rw [List.length_drop] at hlt
      omega
    have hs : s[dp] = c := by
      rw [List.getElem_drop] at hget
      simpa [hdp] using hget
    conv_lhs => rw [← List.take_append_drop dp s]
    rw [List.drop_eq_getElem_cons hlen, hs]
  · cases h

theorem point_branch (s : List Char) (startIdx decimalPos : Nat)
    (h : strFind s '.' startIdx = some decimalPos) :
    strFindLastNotOf s '0' (s.length - 1)
        = some (decimalPos + (stripTrailingZeros (s.drop (decimalPos + 1))).length) ∧
      ((∀ c ∈ s.drop (decimalPos + 1), c = '0') →
        stripTrailingZeros (s.drop (decimalPos + 1)) = []) := by
  have hs := strFind_some s '.' startIdx decimalPos h
  have hlen : (s.take decimalPos).length = decimalPos := by
    have : decimalPos < s.length := by
      have := congrArg List.length hs
      simp at this
      omega
    rw [List.length_take]; omega
  have ht := (trim_zeros (s.take decimalPos) (s.drop (decimalPos + 1))).1
  rw [← hs, hlen] at ht
  exact ⟨ht, fun hz => (strip_eq_nil_iff _).2 hz⟩

/-! ## Lemmas on the values the parser returns -/

/-- A finite result of the rounding is in canonical form and has the sign
asked for. -/
theorem roundToDouble_canonical (neg : Bool) (num den : ℕ) (hd : 0 < den) (s : Bool) (m : ℕ)
    (e : ℤ) (h : roundToDouble neg num den = Double.finite s m e) :
    s = neg ∧ m < 2 ^ 53 ∧ -1074 ≤ e ∧ e ≤ 971 := by
  rcases Nat.eq_zero_or_pos num with h0 | hn
  · subst h0
    simp only [roundToDouble, if_true, Double.finite.injEq] at h
    obtain ⟨h1, h2, h3⟩ := h
    subst h1 h2 h3
    exact ⟨rfl, by norm_num, le_refl _, by norm_num⟩
  · obtain ⟨hb1, hb2⟩ := binade_spec num den hn hd
    have hdq : (0 : ℚ) < den := by exact_mod_cast hd
    unfold roundToDouble at h
    rw [if_neg (Nat.pos_iff_ne_zero.1 hn)] at h
    simp only [] at h
    generalize binade num den = k at *
    obtain ⟨e0, he⟩ : ∃ e0 : ℤ, e0 = max (k - 52) (-1074) := ⟨_, rfl⟩
    rw [← he] at h
    have he1 : k - 52 ≤ e0 := by rw [he]; exact le_max_left _ _
    have he2 : -1074 ≤ e0 := by rw [he]; exact le_max_right _ _
    have hMle : scaledSignificand num den e0 ≤ 2 ^ 53 := by
      apply scaled_le _ _ _ _ hd
      have h1 : (2 : ℚ) ^ (k + 1) ≤ 2 ^ 53 * 2 ^ e0 := by
        rw [show (2 : ℚ) ^ 53 = 2 ^ (53 : ℤ) by norm_num, ← zpow_add₀ (by norm_num)]
        exact zpow_le_zpow_right₀ (by norm_num) (by omega)
      calc (num : ℚ) ≤ den * 2 ^ (k + 1) := le_of_lt hb2
        _ ≤ den * (2 ^ 53 * 2 ^ e0) := by exact mul_le_mul_of_nonneg_left h1 hdq.le
        _ = ((2 ^ 53 : ℕ) : ℚ) * den * 2 ^ e0 := by push_cast; ring
    generalize scaledSignificand num den e0 = M at *
    by_cases h53 : M = 2 ^ 53
    · rw [if_pos h53, if_pos h53] at h
      split_ifs at h with hov
      simp only [Double.finite.injEq] at h
      obtain ⟨h1, h2, h3⟩ := h
      subst h1 h2 h3
      exact ⟨rfl, by norm_num, by omega, by omega⟩
    · rw [if_neg h53, if_neg h53] at h
      split_ifs at h with hov
      simp only [Double.finite.injEq] at h
      obtain ⟨h1, h2, h3⟩ := h
      subst h1 h2 h3
      exact ⟨rfl, by omega, by omega, by omega⟩

theorem stoi_inRange (s : List Char) (v : Int) (h : stoi s = .ok v) : InIntRange v := by
  unfold stoi at h
  simp only [] at h
  unfold InIntRange
  split_ifs at h <;> simp only [Except.ok.injEq, reduceCtorEq] at h <;> omega

theorem ofInt_canonical (n : Int) (hr : InIntRange n) :
    ∃ m e, Double.ofInt n = Double.finite (decide (n < 0)) m e ∧ m < 2 ^ 53 ∧
      -1074 ≤ e ∧ e ≤ 971 ∧ (n ≠ 0 → m ≠ 0) := by
  by_cases h0 : n = 0
  · subst h0
    exact ⟨0, -1074, ofInt_zero, by norm_num, le_refl _, by norm_num, fun h => absurd rfl h⟩
  · obtain ⟨m, e, h1, h2, h3, h4, h5⟩ := ofInt_normal n h0 hr
    exact ⟨m, e, h1, h3, by omega, by omega, fun _ => by omega⟩

theorem strtodRound_ok (lib : CLib) (neg : Bool) (num den : ℕ) (hd : 0 < den) (v : Double)
    (h : strtodRound lib neg num den = .ok v) :
    ∃ m e, v = Double.finite neg m e ∧ m < 2 ^ 53 ∧ -1074 ≤ e ∧ e ≤ 971 := by
  unfold strtodRound at h
  split at h
  · rename_i s m e hr
    split_ifs at h
    simp only [Except.ok.injEq] at h
    obtain ⟨h1, h2, h3, h4⟩ := roundToDouble_canonical neg num den hd s m e hr
    subst h1
    exact ⟨m, e, h.symm, h2, h3, h4⟩
  · cases h

theorem enforce_accepted (mp mn : String) (rp rn az : Bool) (q v : Double)
    (h : enforce mp mn rp rn az false q = .accepted v) : v = q := by
  unfold enforce at h
  simp only [Bool.false_eq_true, if_false] at h
  split_ifs at h
  simp only [ParseResult.accepted.injEq] at h
  exact h.symm

/-- A value accepted by the parser without unit conversion is a finite
binary64 number in canonical form. -/
theorem parse_accepted_canonical (lib : CLib) (c : List Char) (rp rn az : Bool) (v : Double)
    (h : parseInputWithOptionalMM lib c false rp rn az = .ok (.accepted v)) :
    ∃ s m e, v = Double.finite s m e ∧ m < 2 ^ 53 ∧ -1074 ≤ e ∧ e ≤ 971 := by
  rw [parse_eq_parseCore, (core_without_flag c).1, (core_without_flag c).2] at h
  unfold parseCore at h
  split_ifs at h with hf hdm
  · -- the fraction grammar
    cases hn : stoi (fractionGroups c).1 with
    | error ex => rw [hn] at h; cases h
    | ok num =>
      rw [hn] at h
      cases hdn : stoi (fractionGroups c).2 with
      | error ex => rw [hdn] at h; cases h
      | ok den =>
        rw [hdn] at h
        simp only [] at h
        by_cases hz : den = 0
        · rw [if_pos hz] at h; cases h
        rw [if_neg hz] at h
        simp only [Except.ok.injEq] at h
        have hv := enforce_accepted _ _ _ _ _ _ _ h
        obtain ⟨m1, e1, hn1, -, -, -, -⟩ := ofInt_canonical num (stoi_inRange _ _ hn)
        obtain ⟨m2, e2, hd1, -, -, -, hd5⟩ := ofInt_canonical den (stoi_inRange _ _ hdn)
        have hm2 : m2 ≠ 0 := hd5 hz
        rw [hn1, hd1, div_finite, if_neg hm2] at hv
        have hdpos : 0 < m2 * 2 ^ (e2 - min e1 e2).toNat :=
          Nat.mul_pos (Nat.pos_of_ne_zero hm2) (by positivity)
        obtain ⟨q1, q2, hq, -, -⟩ : ∃ m e, (Double.ofInt num).div (Double.ofInt den)
            = Double.finite (xor (decide (num < 0)) (decide (den < 0))) m e ∧ True ∧ True := by
          by_cases hn0 : num = 0
          · subst hn0
            rw [ofInt_zero, hd1, div_finite, if_neg hm2]
            exact ⟨0, -1074, by simp [roundToDouble], trivial, trivial⟩
          · obtain ⟨a1, b1, ha1, ha2, ha3, ha4, ha5⟩ := ofInt_normal num hn0 (stoi_inRange _ _ hn)
            obtain ⟨a2, b2, hb1, hb2, hb3, hb4, hb5⟩ := ofInt_normal den hz (stoi_inRange _ _ hdn)
            obtain ⟨m, e, hq1, -, -⟩ := div_normal (decide (num < 0)) a1 b1 (decide (den < 0))
              a2 b2 ha2 ha3 hb2 hb3 (by omega) (by omega)
            rw [ha1, hb1]
            exact ⟨m, e, hq1, trivial, trivial⟩
        rw [hn1, hd1, div_finite, if_neg hm2] at hq
        obtain ⟨-, c2, c3, c4⟩ := roundToDouble_canonical _ _ _ hdpos _ _ _ hq
        exact ⟨_, q1, q2, hv.trans hq, c2, c3, c4⟩
  · -- the decimal grammar
    cases hs : stod lib c with
    | error ex => rw [hs] at h; simp only [] at h; cases h
    | ok val =>
      rw [hs] at h
      simp only [Except.ok.injEq] at h
      have hv := enforce_accepted _ _ _ _ _ _ _ h
      unfold stod at hs
      simp only [] at hs
      split_ifs at hs
      obtain ⟨m, e, h1, h2, h3, h4⟩ := strtodRound_ok lib _ _ _ (by positivity) val hs
      exact ⟨_, m, e, hv.trans h1, h2, h3, h4⟩
  · cases h

/-- The quotient of a finite binary64 number in canonical form by the
constant `25.4`: a finite number of the same sign, in canonical form, and no
binary64 number is nearer to the exact quotient of the two. -/
theorem div_c25_4_nearest (s : Bool) (m : ℕ) (e : ℤ) (hm : m < 2 ^ 53) (he1 : -1074 ≤ e)
    (he2 : e ≤ 971) :
    ∃ m1 e1, (Double.finite s m e).div Double.c25_4 = Double.finite s m1 e1 ∧ m1 < 2 ^ 53 ∧
      -1074 ≤ e1 ∧ e1 ≤ 971 ∧
      ∀ (mw : ℕ) (ew : ℤ), mw < 2 ^ 53 → -1074 ≤ ew →
        |(m1 : ℚ) * 2 ^ e1 - (m : ℚ) * 2 ^ e / (7149464408450662 * 2 ^ (-48 : ℤ))| ≤
          |(mw : ℚ) * 2 ^ ew - (m : ℚ) * 2 ^ e / (7149464408450662 * 2 ^ (-48 : ℤ))| := by
  rw [c25_4_eq, div_finite, if_neg (by norm_num), Bool.xor_false]
  obtain ⟨a, ha⟩ : ∃ a : ℕ, e - min e (-48) = (a : ℤ) :=
    Int.eq_ofNat_of_zero_le (by omega)
  obtain ⟨b, hb⟩ : ∃ b : ℕ, -48 - min e (-48) = (b : ℤ) :=
    Int.eq_ofNat_of_zero_le (by omega)
  rw [ha, hb]
  simp only [Int.toNat_ofNat]
  have hab : e = (a : ℤ) - b - 48 := by omega
  have hq : ((m * 2 ^ a : ℕ) : ℚ) / ((7149464408450662 * 2 ^ b : ℕ) : ℚ)
      = (m : ℚ) * 2 ^ e / (7149464408450662 * 2 ^ (-48 : ℤ)) := by
    rw [hab, zpow_sub₀ (by norm_num), zpow_sub₀ (by norm_num), zpow_neg, zpow_natCast,
      zpow_natCast]
    push_cast
    field_simp
    ring
  rcases Nat.eq_zero_or_pos m with h0 | hpos
  · subst h0
    refine ⟨0, -1074, by simp [roundToDouble], by norm_num, le_refl _, by norm_num, ?_⟩
    intro mw ew _ _
    simp only [Nat.cast_zero, zero_mul, zero_div, sub_zero, abs_zero]
    exact abs_nonneg _
  · have hmax : ((m * 2 ^ a : ℕ) : ℚ)
        ≤ (2 ^ 53 - 1) * 2 ^ 971 * ((7149464408450662 * 2 ^ b : ℕ) : ℚ) := by
      have h1 : (m : ℚ) ≤ 2 ^ 53 := by exact_mod_cast le_of_lt hm
      have h2 : (2 : ℚ) ^ a ≤ 2 ^ 1019 * 2 ^ b := by
        have : a ≤ 1019 + b := by omega
        rw [← pow_add]
        exact pow_le_pow_right₀ (by norm_num) this
      have h3 : (0 : ℚ) < 2 ^ b := by positivity
      push_cast
      calc (m : ℚ) * 2 ^ a ≤ 2 ^ 53 * (2 ^ 1019 * 2 ^ b) :=
            mul_le_mul h1 h2 (by positivity) (by positivity)
        _ ≤ (2 ^ 53 - 1) * 2 ^ 971 * (7149464408450662 * 2 ^ b) := by
          have : (2 : ℚ) ^ 53 * 2 ^ 1019 ≤ (2 ^ 53 - 1) * 2 ^ 971 * 7149464408450662 := by
            norm_num
          nlinarith
    obtain ⟨m1, e1, hr, c1, c2, c3, -, hopt⟩ := roundToDouble_nearest s (m * 2 ^ a)
      (7149464408450662 * 2 ^ b) (by positivity) (by positivity) hmax
    rw [hq] at hopt
    exact ⟨m1, e1, hr, c1, c2, c3, hopt⟩

/-- The quotient by `25.4` is zero exactly for the numbers of magnitude at
most `12 * 2^-1074`. -/
theorem div_c25_4_zero_iff (s : Bool) (m : ℕ) (e : ℤ) (hm : m < 2 ^ 53) (he1 : -1074 ≤ e)
    (he2 : e ≤ 971) :
    ((Double.finite s m e).div Double.c25_4).eqZero = true ↔ m * 2 ^ (e + 1074).toNat ≤ 12 := by
  obtain ⟨m1, e1, hr, -, c2, -, hopt⟩ := div_c25_4_nearest s m e hm he1 he2
  rw [hr]
  simp only [Double.eqZero, decide_eq_true_eq]
  obtain ⟨j, hj⟩ : ∃ j : ℕ, e + 1074 = (j : ℤ) := Int.eq_ofNat_of_zero_le (by omega)
  rw [hj]
  simp only [Int.toNat_ofNat]
  have hU : (0 : ℚ) < 2 ^ (-1074 : ℤ) := by positivity
  have hc : (0 : ℚ) < 7149464408450662 * 2 ^ (-48 : ℤ) := by positivity
  have hc1 : (24 : ℚ) < 7149464408450662 * 2 ^ (-48 : ℤ) := by
    rw [zpow_neg, ← div_eq_mul_inv, lt_div_iff₀ (by positivity)]; norm_num
  have hc2 : (7149464408450662 : ℚ) * 2 ^ (-48 : ℤ) < 26 := by
    rw [zpow_neg, ← div_eq_mul_inv, div_lt_iff₀ (by positivity)]; norm_num
  have hv : (m : ℚ) * 2 ^ e = ((m * 2 ^ j : ℕ) : ℚ) * 2 ^ (-1074 : ℤ) := by
    have : e = (j : ℤ) + (-1074) := by omega
    rw [this, zpow_add₀ (by norm_num), zpow_natCast]
    push_cast
    ring
  rw [hv] at hopt
  generalize m * 2 ^ j = u at *
  generalize hUe : (2 : ℚ) ^ (-1074 : ℤ) = U at *
  generalize (7149464408450662 : ℚ) * 2 ^ (-48 : ℤ) = c at *
  have hq0 : 0 ≤ (u : ℚ) * U / c := by positivity
  constructor
  · intro h0
    by_contra hu
    push_neg at hu
    have hu13 : (13 : ℚ) ≤ u := by exact_mod_cast hu
    have hq : U / 2 < (u : ℚ) * U / c := by
      rw [lt_div_iff₀ hc]
      nlinarith
    have h1 := hopt 1 (-1074) (by norm_num) (le_refl _)
    rw [h0] at h1
    simp only [Nat.cast_zero, zero_mul, zero_sub, abs_neg, Nat.cast_one, one_mul] at h1
    rw [abs_of_nonneg hq0, hUe] at h1
    rcases le_or_lt ((u : ℚ) * U / c) U with h2 | h2
    · rw [abs_of_nonneg (by linarith)] at h1
      linarith
    · rw [abs_of_neg (by linarith)] at h1
      linarith
  · intro hu
    by_contra hm1
    have hu12 : (u : ℚ) ≤ 12 := by exact_mod_cast hu
    have hq : (u : ℚ) * U / c < U / 2 := by
      rw [div_lt_iff₀ hc]
      nlinarith
    have hm1' : (1 : ℚ) ≤ m1 := by
      have : 1 ≤ m1 := Nat.one_le_iff_ne_zero.2 hm1
      exact_mod_cast this
    have hw : U ≤ (m1 : ℚ) * 2 ^ e1 := by
      have h2 : (2 : ℚ) ^ (-1074 : ℤ) ≤ 2 ^ e1 := zpow_le_zpow_right₀ (by norm_num) c2
      rw [hUe] at h2
      calc U ≤ 2 ^ e1 := h2
        _ = 1 * 2 ^ e1 := (one_mul _).symm
        _ ≤ (m1 : ℚ) * 2 ^ e1 := mul_le_mul_of_nonneg_right hm1' (by positivity)
    have h1 := hopt 0 (-1074) (by norm_num) (le_refl _)
    simp only [Nat.cast_zero, zero_mul, zero_sub, abs_neg] at h1
    rw [abs_of_nonneg hq0, abs_of_nonneg (by linarith)] at h1
    linarith

theorem map_toInches_accepted (v : Double) (r : Except Exn ParseResult)
    (h : r = .ok (.accepted v)) :
    r.map ParseResult.toInches = .ok (.accepted (v.div Double.c25_4)) := by
  rw [h]; rfl

/-! ## The unit conversion: claims -/

/-- C5: with `allowMM` true, for every core text `c` (a text from which no
unit suffix is taken off) that parses to a value `v` under the profile, and
for each of the four suffixes `mm`, `MM`, `mM`, `Mm`, parsing `c` followed
by the suffix returns `v / 25.4`, for decimal and fraction cores alike: the
quotient of `v` by the constant `25.4`, which is the binary64 number nearest
to 254/10; the quotient is a finite binary64 number with the sign of `v`, and
no binary64 number is nearer to the exact quotient of the two. -/
theorem C5_millimetres (lib : CLib) (c : List Char) (x y : Char) (allowC rp rn az : Bool)
    (v : Double) (hx : x = 'm' ∨ x = 'M') (hy : y = 'm' ∨ y = 'M')
    (hcore : inUnitSuffix allowC c = false)
    (hv : parseInputWithOptionalMM lib c allowC rp rn az = .ok (.accepted v)) :
    parseInputWithOptionalMM lib (c ++ [x, y]) true rp rn az
        = .ok (.accepted (v.div Double.c25_4)) ∧
      Double.c25_4 = Double.finite false 7149464408450662 (-48) ∧
      (∀ (mw : ℕ) (ew : ℤ), mw < 2 ^ 53 → -1074 ≤ ew →
        |(7149464408450662 : ℚ) * 2 ^ (-48 : ℤ) - 254 / 10| ≤ |(mw : ℚ) * 2 ^ ew - 254 / 10|) ∧
      ∃ s m e m1 e1, v = Double.finite s m e ∧
        v.div Double.c25_4 = Double.finite s m1 e1 ∧
        m1 < 2 ^ 53 ∧ -1074 ≤ e1 ∧ e1 ≤ 971 ∧
        ∀ (mw : ℕ) (ew : ℤ), mw < 2 ^ 53 → -1074 ≤ ew →
          |(m1 : ℚ) * 2 ^ e1 - (m : ℚ) * 2 ^ e / (7149464408450662 * 2 ^ (-48 : ℤ))| ≤
            |(mw : ℚ) * 2 ^ ew - (m : ℚ) * 2 ^ e / (7149464408450662 * 2 ^ (-48 : ℤ))| := by
  have hx1 : isM x = true := by rcases hx with h | h <;> subst h <;> decide
  have hy1 : isM y = true := by rcases hy with h | h <;> subst h <;> decide
  have hc : coreOf allowC c = c := by unfold coreOf; rw [hcore]; rfl
  have hv0 : parseInputWithOptionalMM lib c false rp rn az = .ok (.accepted v) := by
    rw [parse_eq_parseCore, (core_without_flag c).1, (core_without_flag c).2]
    rw [parse_eq_parseCore, hc, hcore] at hv
    exact hv
  refine ⟨?_, c25_4_eq, ?_, ?_⟩
  · rw [parse_suffixed lib c x y rp rn az hx1 hy1]
    exact map_toInches_accepted v _ hv0
  · obtain ⟨m1, e1, hr, -, -, -, -, hopt⟩ := roundToDouble_nearest false 254 10 (by norm_num)
      (by norm_num) (by norm_num)
    have h2 : roundToDouble false 254 10 = Double.finite false 7149464408450662 (-48) := c25_4_eq
    rw [h2] at hr
    simp only [Double.finite.injEq, true_and] at hr
    obtain ⟨h3, h4⟩ := hr
    subst h3 h4
    intro mw ew hmw hew
    have := hopt mw ew hmw hew
    simpa using this
  · obtain ⟨s, m, e, hfin, h1, h2, h3⟩ := parse_accepted_canonical lib c rp rn az v hv0
    obtain ⟨m1, e1, hr, c1, c2, c3, hopt⟩ := div_c25_4_nearest s m e h1 h2 h3
    exact ⟨s, m, e, m1, e1, hfin, by rw [hfin]; exact hr, c1, c2, c3, hopt⟩

/-- C5, witness: `25.4mm` and `25.4MM` under the any-sign profile return 1,
`1mm` under the positive-only profile returns the binary64 number nearest to
`1 / 25.4`, and `1/2mM` the one nearest to `0.5 / 25.4`. -/
theorem C5_millimetres_witness :
    parseInputWithOptionalMM CLib.ucrt ['2', '5', '.', '4'] true false false true
        = .ok (.accepted Double.c25_4) ∧
      parseInputWithOptionalMM CLib.ucrt (['2', '5', '.', '4'] ++ ['m', 'm']) true false false true
        = .ok (.accepted (Double.finite false (2 ^ 52) (-52))) ∧
      parseInputWithOptionalMM CLib.ucrt (['2', '5', '.', '4'] ++ ['M', 'M']) true false false true
        = .ok (.accepted (Double.finite false (2 ^ 52) (-52))) ∧
      Double.ofInt 1 = Double.finite false (2 ^ 52) (-52) ∧
      parseInputWithOptionalMM CLib.ucrt (['1'] ++ ['m', 'm']) true true false false
        = .ok (.accepted (Double.finite false 5673826302199050 (-57))) ∧
      parseInputWithOptionalMM CLib.ucrt (['1', '/', '2'] ++ ['m', 'M']) true true false false
        = .ok (.accepted (Double.finite false 5673826302199050 (-58))) :=
  ⟨by decide!,
    (C5_millimetres CLib.ucrt ['2', '5', '.', '4'] 'm' 'm' true false false true Double.c25_4
      (Or.inl rfl) (Or.inl rfl) (by decide) (by decide!)).1.trans (by decide!),
    (C5_millimetres CLib.ucrt ['2', '5', '.', '4'] 'M' 'M' true false false true Double.c25_4
      (Or.inr rfl) (Or.inr rfl) (by decide) (by decide!)).1.trans (by decide!),
    by decide!,
    (C5_millimetres CLib.ucrt ['1'] 'm' 'm' true true false false (Double.ofInt 1)
      (Or.inl rfl) (Or.inl rfl) (by decide) (by decide!)).1.trans (by decide!),
    (C5_millimetres CLib.ucrt ['1', '/', '2'] 'm' 'M' false true false false
      ((Double.ofInt 1).div (Double.ofInt 2)) (Or.inl rfl) (Or.inr rfl) (by decide)
      (by decide!)).1.trans (by decide!)⟩

/-- C17, counterexample: under the any-sign profile the exact decimal text
of `2^-1074` is parsed without a suffix to `2^-1074`, which is not zero, and
with the suffix `mm` to its quotient by 25.4, which is zero: both parses
succeed and the two results do not have the same zero-ness. This holds for
the C library of the Windows toolchain and for one that reports every
inexact conversion below the normal range. -/
theorem C17_counterexample :
    parseInputWithOptionalMM CLib.ucrt tinyExactText false false false true
        = .ok (.accepted (Double.finite false 1 (-1074))) ∧
      parseInputWithOptionalMM CLib.ucrt (tinyExactText ++ ['m', 'm']) true false false true
        = .ok (.accepted (Double.finite false 0 (-1074))) ∧
      parseInputWithOptionalMM CLib.inexact tinyExactText false false false true
        = .ok (.accepted (Double.finite false 1 (-1074))) ∧
      parseInputWithOptionalMM CLib.inexact (tinyExactText ++ ['m', 'm']) true false false true
        = .ok (.accepted (Double.finite false 0 (-1074))) ∧
      (Double.finite false 1 (-1074)).eqZero = false ∧
      (Double.finite false 0 (-1074)).eqZero = true := by
  have hn : 5 ^ 1074 < 10 ^ 1074 := by decide!
  have e1 : strtodRound CLib.ucrt false (5 ^ 1074) (10 ^ 1074)
      = .ok (Double.finite false 1 (-1074)) := by decide!
  have e2 : strtodRound CLib.inexact false (5 ^ 1074) (10 ^ 1074)
      = .ok (Double.finite false 1 (-1074)) := by decide!
  have h1 := parse_zeroPoint CLib.ucrt 1074 (5 ^ 1074) hn false false true
  have h2 := parse_zeroPoint CLib.inexact 1074 (5 ^ 1074) hn false false true
  rw [e1] at h1
  rw [e2] at h2
  have h1' : parseInputWithOptionalMM CLib.ucrt tinyExactText false false false true
      = .ok (.accepted (Double.finite false 1 (-1074))) := h1.trans (by decide!)
  have h2' : parseInputWithOptionalMM CLib.inexact tinyExactText false false false true
      = .ok (.accepted (Double.finite false 1 (-1074))) := h2.trans (by decide!)
  have hd : (Double.finite false 1 (-1074)).div Double.c25_4 = Double.finite false 0 (-1074) := by
    decide!
  refine ⟨h1', ?_, h2', ?_, by decide!, by decide!⟩
  · rw [parse_suffixed _ _ _ _ _ _ _ (by decide) (by decide),
      map_toInches_accepted _ _ h1', hd]
  · rw [parse_suffixed _ _ _ _ _ _ _ (by decide) (by decide),
      map_toInches_accepted _ _ h2', hd]

/-- C17, amended: for every text `c`, each of the four suffixes and every
profile, the parse of `c` followed by the suffix with `allowMM` true is the
parse of `c` with `allowMM` false with the conversion applied: the same
exception, the same error message, or, for an accepted value `v`, the
quotient of `v` by 25.4, which has the sign bit of `v` and is zero exactly
when the magnitude of `v` is at most `12 * 2^-1074`. So a zero stays a zero,
and a value that is not zero stays so unless it is one of the twelve smallest
subnormal magnitudes. -/
theorem C17_suffix_after_checks (lib : CLib) (c : List Char) (x y : Char) (rp rn az : Bool)
    (hx : x = 'm' ∨ x = 'M') (hy : y = 'm' ∨ y = 'M') :
    parseInputWithOptionalMM lib (c ++ [x, y]) true rp rn az
        = (parseInputWithOptionalMM lib c false rp rn az).map ParseResult.toInches ∧
      (∀ ex, parseInputWithOptionalMM lib c false rp rn az = .error ex →
        parseInputWithOptionalMM lib (c ++ [x, y]) true rp rn az = .error ex) ∧
      (∀ msg, parseInputWithOptionalMM lib c false rp rn az = .ok (.rejected msg) →
        parseInputWithOptionalMM lib (c ++ [x, y]) true rp rn az = .ok (.rejected msg)) ∧
      ∀ v, parseInputWithOptionalMM lib c false rp rn az = .ok (.accepted v) →
        ∃ s m e m1 e1, v = Double.finite s m e ∧ m < 2 ^ 53 ∧ -1074 ≤ e ∧ e ≤ 971 ∧
          v.div Double.c25_4 = Double.finite s m1 e1 ∧
          parseInputWithOptionalMM lib (c ++ [x, y]) true rp rn az
            = .ok (.accepted (Double.finite s m1 e1)) ∧
          (v.eqZero = true → (Double.finite s m1 e1).eqZero = true) ∧
          ((Double.finite s m1 e1).eqZero = true ↔ m * 2 ^ (e + 1074).toNat ≤ 12) ∧
          (13 ≤ m * 2 ^ (e + 1074).toNat → (Double.finite s m1 e1).eqZero = false) := by
  have hx1 : isM x = true := by rcases hx with h | h <;> subst h <;> decide
  have hy1 : isM y = true := by rcases hy with h | h <;> subst h <;> decide
  have hs := parse_suffixed lib c x y rp rn az hx1 hy1
  refine ⟨hs, ?_, ?_, ?_⟩
  · intro ex h
    rw [hs, h]; rfl
  · intro msg h
    rw [hs, h]; rfl
  · intro v h
    obtain ⟨s, m, e, hfin, c1, c2, c3⟩ := parse_accepted_canonical lib c rp rn az v h
    obtain ⟨m1, e1, hr, -, -, -, -⟩ := div_c25_4_nearest s m e c1 c2 c3
    have hz := div_c25_4_zero_iff s m e c1 c2 c3
    rw [hr] at hz
    have hdiv : v.div Double.c25_4 = Double.finite s m1 e1 := by rw [hfin]; exact hr
    refine ⟨s, m, e, m1, e1, hfin, c1, c2, c3, hdiv, ?_, ?_, hz, ?_⟩
    · rw [hs, map_toInches_accepted v _ h, hdiv]
    · intro h0
      rw [hfin] at h0
      simp only [Double.eqZero, decide_eq_true_eq] at h0
      rw [hz, h0]
      simp
    · intro h13
      cases hq : (Double.finite s m1 e1).eqZero with
      | false => rfl
      | true =>
        have := hz.1 hq
        omega

/-- C17, witness: `25.4mm` against `25.4` under the any-sign profile, and
`-3mm` against `-3` under the positive-only profile. -/
theorem C17_suffix_after_checks_witness :
    parseInputWithOptionalMM CLib.ucrt ['2', '5', '.', '4'] false false false true
        = .ok (.accepted (Double.finite false 7149464408450662 (-48))) ∧
      parseInputWithOptionalMM CLib.ucrt (['2', '5', '.', '4'] ++ ['m', 'm']) true false false true
        = .ok (.accepted (Double.finite false (2 ^ 52) (-52))) ∧
      parseInputWithOptionalMM CLib.ucrt ['-', '3'] false true false false
        = .ok (.rejected "Value must be positive.") ∧
      parseInputWithOptionalMM CLib.ucrt (['-', '3'] ++ ['M', 'm']) true true false false
        = .ok (.rejected "Value must be positive.") ∧
      ∃ s m e m1 e1, Double.finite false 7149464408450662 (-48) = Double.finite s m e ∧
        m < 2 ^ 53 ∧ -1074 ≤ e ∧ e ≤ 971 ∧
        (Double.finite false 7149464408450662 (-48)).div Double.c25_4 = Double.finite s m1 e1 ∧
        parseInputWithOptionalMM CLib.ucrt (['2', '5', '.', '4'] ++ ['m', 'm']) true
          false false true = .ok (.accepted (Double.finite s m1 e1)) ∧
        ((Double.finite false 7149464408450662 (-48)).eqZero = true →
          (Double.finite s m1 e1).eqZero = true) ∧
        ((Double.finite s m1 e1).eqZero = true ↔ m * 2 ^ (e + 1074).toNat ≤ 12) ∧
        (13 ≤ m * 2 ^ (e + 1074).toNat → (Double.finite s m1 e1).eqZero = false) :=
  ⟨by decide!,
    (C17_suffix_after_checks CLib.ucrt ['2', '5', '.', '4'] 'm' 'm' false false true
      (Or.inl rfl) (Or.inl rfl)).1.trans (by decide!),
    by decide!,
    (C17_suffix_after_checks CLib.ucrt ['-', '3'] 'M' 'm' true false false
      (Or.inr rfl) (Or.inl rfl)).2.2.1 "Value must be positive." (by decide!),
    (C17_suffix_after_checks CLib.ucrt ['2', '5', '.', '4'] 'm' 'm' false false true
      (Or.inl rfl) (Or.inl rfl)).2.2.2 _ (by decide!)⟩

/-! ## The readers, the entry points and the round trips: claims -/

/-- C11: for every finite binary64 value `v` in canonical form and every
`p` from 1 to 6, `std::stod` converts the text `formatGCodeDecimals<p>(v)`,
the parser under the any-sign profile accepts it with the same number, and
formatting that number with `p` places gives the same text again. -/
theorem C11_format_idempotent (lib : CLib) (p : ℕ) (neg : Bool) (m : ℕ) (e : ℤ)
    (_hp1 : 1 ≤ p) (hp6 : p ≤ 6) (hm : m < 2 ^ 53) (he1 : -1074 ≤ e) (he2 : e ≤ 971) :
    ∃ v1, stod lib (formatGCodeDecimals p (Double.finite neg m e)) = .ok v1 ∧
      parseInputWithOptionalMM lib (formatGCodeDecimals p (Double.finite neg m e))
        false false false true = .ok (.accepted v1) ∧
      formatGCodeDecimals p v1 = formatGCodeDecimals p (Double.finite neg m e) := by
  obtain ⟨ip1, fp1, hf, hparts, hconv⟩ := format_converted p neg m e hp6 hm he2
  have hst := stod_text lib (neg && decide (fixedScaled p m e ≠ 0)) ip1 (some fp1) hparts
  have hpar := parse_decimalText lib (neg && decide (fixedScaled p m e ≠ 0)) ip1 (some fp1)
    false false false true hparts
  rw [hconv lib] at hst hpar
  refine ⟨_, by rw [hf]; exact hst, by rw [hf, hpar]; rfl, ?_⟩
  rcases Nat.eq_zero_or_pos (fixedScaled p m e) with h0 | h0
  · have hz : fixedScaled p 0 (-1074) = 0 := by
      unfold fixedScaled
      rw [if_neg (by decide)]
      simp [roundNearestEven]
    rw [h0]
    have hr : roundToDouble (neg && decide ((0 : ℕ) ≠ 0)) 0 (10 ^ p)
        = Double.finite false 0 (-1074) := by
      simp [roundToDouble]
    rw [hr, format_finite, format_finite, hz, h0]
    have hs : stripTrailingZeros (padDigits p (0 % 10 ^ p)) = [] := by
      rw [strip_eq_nil_iff, Nat.zero_mod]; exact padDigits_zero p
    unfold canonicalForm
    rw [Nat.zero_div, natDigits_zero, hs, if_pos ⟨rfl, rfl⟩, if_pos ⟨rfl, rfl⟩]
  · have hne : (neg && decide (fixedScaled p m e ≠ 0)) = neg := by
      have : fixedScaled p m e ≠ 0 := by omega
      simp [this]
    rw [hne]
    obtain ⟨m1, e1, hr, hfix⟩ := rendered_again neg p m e hm he1 he2 h0
    rw [hr, format_finite, format_finite, hfix]

/-- C11, witness: 3.14159 at two places gives `3.14`; the number nearest
to 3.14 is formatted to `3.14` again. -/
theorem C11_format_idempotent_witness :
    formatGCodeDecimals 2 (Double.finite false 7074231776675438 (-51)) = ['3', '.', '1', '4'] ∧
      ∃ v1, stod CLib.ucrt (formatGCodeDecimals 2 (Double.finite false 7074231776675438 (-51)))
          = .ok v1 ∧
        parseInputWithOptionalMM CLib.ucrt
          (formatGCodeDecimals 2 (Double.finite false 7074231776675438 (-51)))
          false false false true = .ok (.accepted v1) ∧
        formatGCodeDecimals 2 v1
          = formatGCodeDecimals 2 (Double.finite false 7074231776675438 (-51)) :=
  ⟨by decide!,
    C11_format_idempotent CLib.ucrt 2 false 7074231776675438 (-51) (by decide) (by decide)
      (by decide) (by decide) (by decide)⟩

/-- C12: in `getUserInputString`, from every buffer state, a Backspace
removes the last character of a non-empty buffer (writing backspace, blank,
backspace) and changes nothing when the buffer is empty, the read going on in
both cases; and for every sequence `ks` of accepted characters and Backspaces
followed by Enter, the call returns the buffer obtained by replaying the
accepted characters as pushes and the Backspaces as pops of a non-empty
buffer. -/
theorem C12_backspace_replay (allowMM : Bool) (ks keys out : List Char)
    (hks : ∀ k ∈ ks, Accepted allowMM k ∨ k = BACKSPACE) :
    (∀ (more buf : List Char) (c : Char) (o : List Char),
        getUserInputStringFrom allowMM (BACKSPACE :: more) (buf ++ [c]) o
          = getUserInputStringFrom allowMM more buf (o ++ "\x08 \x08".toList) ∧
        getUserInputStringFrom allowMM (BACKSPACE :: more) [] o
          = getUserInputStringFrom allowMM more [] o) ∧
      ∃ out1, getUserInputString allowMM (ks ++ ENTER :: keys) out
        = .line (replay ks []) keys out1 := by
  refine ⟨?_, read_replay allowMM ks keys [] out hks⟩
  intro more buf c o
  constructor
  · rw [read_backspace, List.dropLast_concat, if_neg (by simp)]
  · rw [read_backspace]
    rfl

/-- C12, witness: the keystrokes `1`, `2`, Backspace, `3`, Enter return the
string `13`. -/
theorem C12_backspace_replay_witness :
    (∀ k ∈ ['1', '2', BACKSPACE, '3'], Accepted false k ∨ k = BACKSPACE) ∧
      replay ['1', '2', BACKSPACE, '3'] [] = ['1', '3'] ∧
      ∃ out1, getUserInputString false (['1', '2', BACKSPACE, '3'] ++ ENTER :: []) []
        = .line (replay ['1', '2', BACKSPACE, '3'] []) [] out1 :=
  ⟨by decide, by decide,
    (C12_backspace_replay false ['1', '2', BACKSPACE, '3'] [] [] (by decide)).2⟩

/-- C13: from every buffer state of `getUserInputString` and of
`userInputLR`, and whatever keys follow, the key Escape makes the call throw
`std::runtime_error("EscapePressed")`; no string or letter is returned and
the buffer is dropped. -/
theorem C13_escape_aborts (allowMM : Bool) (keys input out : List Char) :
    getUserInputStringFrom allowMM (ESC :: keys) input out = .threw Exn.escapePressed out ∧
      userInputLRFrom (ESC :: keys) input out = .threw Exn.escapePressed out :=
  ⟨read_escape allowMM keys input out, lr_escape keys input out⟩

/-- C14: in `getUserInputString`, from every buffer state, a special-key
prefix byte (0 or 224) followed by any byte `b` leaves the buffer and the
output as they are and the read goes on with the next key; and the outcome of
a script, its returned string included, is the outcome of the script with
every such pair of bytes deleted. -/
theorem C14_special_key_pairs (allowMM : Bool) (keys input out : List Char) :
    (∀ b : Char,
        getUserInputStringFrom allowMM (SPECIAL_KEY_PREFIX_1 :: b :: keys) input out
          = getUserInputStringFrom allowMM keys input out ∧
        getUserInputStringFrom allowMM (SPECIAL_KEY_PREFIX_2 :: b :: keys) input out
          = getUserInputStringFrom allowMM keys input out) ∧
      (getUserInputStringFrom allowMM keys input out).mapRest dropSpecial
        = getUserInputStringFrom allowMM (dropSpecial keys) input out :=
  ⟨fun b => ⟨read_special allowMM _ b keys input out (Or.inl rfl),
      read_special allowMM _ b keys input out (Or.inr rfl)⟩,
    read_dropSpecial allowMM keys input out⟩

/-- C15: every character of a string returned by `getUserInputString` is a
decimal digit, `.`, `/`, `-`, or, when `allowMM` is true, `m` or `M`; with
`allowMM` false the string contains neither `m` nor `M`; and a key `ch` that
is not a control key and not in this set leaves the buffer and the output as
they are, the read going on with the next key. -/
theorem C15_whitelist (allowMM : Bool) (keys out s rest out1 : List Char) (ch : Char)
    (h : getUserInputString allowMM keys out = .line s rest out1)
    (hc : ¬IsControl ch) (hn : ¬Accepted allowMM ch) :
    (∀ c ∈ s, c.isDigit = true ∨ c = '.' ∨ c = '/' ∨ c = '-' ∨
        (allowMM = true ∧ (c = 'm' ∨ c = 'M'))) ∧
      (allowMM = false → 'm' ∉ s ∧ 'M' ∉ s) ∧
      ∀ more buf o, getUserInputStringFrom allowMM (ch :: more) buf o
        = getUserInputStringFrom allowMM more buf o := by
  have hs : ∀ c ∈ s, Accepted allowMM c :=
    read_line_accepted allowMM keys [] out s rest out1 (by simp) h
  refine ⟨hs, ?_, fun more buf o => read_ignored allowMM ch more buf o hc hn⟩
  intro hf
  subst hf
  constructor
  · intro hm
    rcases hs _ hm with h | h | h | h | h
    · exact absurd h (by decide)
    · exact absurd h (by decide)
    · exact absurd h (by decide)
    · exact absurd h (by decide)
    · exact absurd h.1 (by decide)
  · intro hm
    rcases hs _ hm with h | h | h | h | h
    · exact absurd h (by decide)
    · exact absurd h (by decide)
    · exact absurd h (by decide)
    · exact absurd h (by decide)
    · exact absurd h.1 (by decide)

/-- C15, witness: with `allowMM` false the keystrokes `1`, `m`, `x`, `5`,
Enter return the string `15`; `x` is neither a control key nor accepted. -/
theorem C15_whitelist_witness :
    getUserInputString false ['1', 'm', 'x', '5', ENTER] [] = .line ['1', '5'] [] ['1', '5', '\n'] ∧
      ¬IsControl 'x' ∧ ¬Accepted false 'x' ∧
      (∀ c ∈ ['1', '5'], c.isDigit = true ∨ c = '.' ∨ c = '/' ∨ c = '-' ∨
        (false = true ∧ (c = 'm' ∨ c = 'M'))) ∧
      (false = false → 'm' ∉ ['1', '5'] ∧ 'M' ∉ ['1', '5']) ∧
      ∀ more buf o, getUserInputStringFrom false ('x' :: more) buf o
        = getUserInputStringFrom false more buf o :=
  ⟨by decide, by decide, by decide,
    C15_whitelist false ['1', 'm', 'x', '5', ENTER] [] ['1', '5'] [] ['1', '5', '\n'] 'x'
      (by decide) (by decide) (by decide)⟩

/-- C16: when `userInputLR` returns the letter `c` on a script, `c` is one
of `l`, `L`, `r`, `R`, and the script is a part `pre`, after which the call
is reading with the buffer holding exactly `c`, followed by Enter and the
keys left over. From every buffer state, Enter returns the buffer's letter
when the buffer is exactly one of the four letters; otherwise (an empty
buffer, more than one character, another character) it writes the hint,
clears the buffer, and the read goes on. -/
theorem C16_left_or_right (keys rest out : List Char) (c : Char)
    (h : userInputLR keys = .returned c rest out) :
    (c = 'l' ∨ c = 'L' ∨ c = 'r' ∨ c = 'R') ∧
      (∃ pre o, keys = pre ++ ENTER :: rest ∧ userInputLR pre = .waiting [c] o ∧
        out = o ++ ['\n']) ∧
      ∀ more buf o, userInputLRFrom (ENTER :: more) buf o =
        if buf = ['l'] ∨ buf = ['L'] ∨ buf = ['r'] ∨ buf = ['R'] then
          .returned (buf.getD 0 ' ') more (o ++ ['\n'])
        else userInputLRFrom more [] (o ++ ['\n'] ++ lrHint) := by
  obtain ⟨hc, hpre⟩ := lr_returns keys [] [] c rest out h
  refine ⟨hc, hpre, ?_⟩
  intro more buf o
  rw [lr_enter]
  have hiff : (buf.length = 1 ∧ (buf.getD 0 ' ' = 'l' ∨ buf.getD 0 ' ' = 'L' ∨
      buf.getD 0 ' ' = 'r' ∨ buf.getD 0 ' ' = 'R')) ↔
      (buf = ['l'] ∨ buf = ['L'] ∨ buf = ['r'] ∨ buf = ['R']) := by
    constructor
    · rintro ⟨hl, hx⟩
      match buf, hl with
      | [x], _ => simpa using hx
    · rintro (h | h | h | h) <;> subst h <;> decide
  by_cases hb : buf = ['l'] ∨ buf = ['L'] ∨ buf = ['r'] ∨ buf = ['R']
  · rw [if_pos hb, if_pos (hiff.2 hb)]
  · rw [if_neg hb, if_neg (fun h => hb (hiff.1 h))]

/-- C16, witness: on Enter, `x`, `l`, `r`, Backspace, Backspace, `R`,
Enter the call prints the hint at the first Enter, ignores `x` and the second
letter, and returns `R` at the second Enter. -/
theorem C16_left_or_right_witness :
    userInputLR [ENTER, 'x', 'l', 'r', BACKSPACE, BACKSPACE, 'R', ENTER]
        = .returned 'R' [] ('\n' :: lrHint ++ ['l'] ++ "\x08 \x08".toList ++ ['R', '\n']) ∧
      (('R' : Char) = 'l' ∨ 'R' = 'L' ∨ 'R' = 'r' ∨ 'R' = 'R') ∧
      (∃ pre o, [ENTER, 'x', 'l', 'r', BACKSPACE, BACKSPACE, 'R', ENTER] = pre ++ ENTER :: [] ∧
        userInputLR pre = .waiting ['R'] o ∧
        '\n' :: lrHint ++ ['l'] ++ "\x08 \x08".toList ++ ['R', '\n'] = o ++ ['\n']) ∧
      ∀ more buf o, userInputLRFrom (ENTER :: more) buf o =
        if buf = ['l'] ∨ buf = ['L'] ∨ buf = ['r'] ∨ buf = ['R'] then
          .returned (buf.getD 0 ' ') more (o ++ ['\n'])
        else userInputLRFrom more [] (o ++ ['\n'] ++ lrHint) :=
  ⟨by decide,
    C16_left_or_right [ENTER, 'x', 'l', 'r', BACKSPACE, BACKSPACE, 'R', ENTER] []
      ('\n' :: lrHint ++ ['l'] ++ "\x08 \x08".toList ++ ['R', '\n']) 'R' (by decide)⟩

/-- C18, at its failing input: on the script `99999999999/1`, Enter, `5`,
Enter (for `userInputNeg`: `-5`) no Escape is pressed and the second line
parses successfully under the profile, yet each of the four entry points
ends at the first line, with the `std::out_of_range` of `std::stoi` leaving
it: no error message is printed, no value is returned, and the exception is
not the abort signal of Escape. -/
theorem C18_entry_point_ends_by_stoi_exception (lib : CLib) (allowMM : Bool) :
    ESC ∉ "99999999999/1\r-5\r".toList ∧
      parseInputWithOptionalMM lib "5".toList allowMM true false false
        = .ok (.accepted (Double.ofInt 5)) ∧
      parseInputWithOptionalMM lib "5".toList allowMM true false true
        = .ok (.accepted (Double.ofInt 5)) ∧
      parseInputWithOptionalMM lib "-5".toList allowMM false true false
        = .ok (.accepted (Double.ofInt (-5))) ∧
      parseInputWithOptionalMM lib "5".toList allowMM false false true
        = .ok (.accepted (Double.ofInt 5)) ∧
      userInputPos lib allowMM "99999999999/1\r5\r".toList
        = .threw Exn.outOfRange "99999999999/1\n".toList ∧
      userInputPosZero lib allowMM "99999999999/1\r5\r".toList
        = .threw Exn.outOfRange "99999999999/1\n".toList ∧
      userInputNeg lib allowMM "99999999999/1\r-5\r".toList
        = .threw Exn.outOfRange "99999999999/1\n".toList ∧
      userInputPosNeg lib allowMM "99999999999/1\r5\r".toList
        = .threw Exn.outOfRange "99999999999/1\n".toList := by
  have hp : ∀ rp rn az, parseInputWithOptionalMM lib "99999999999/1".toList allowMM rp rn az
      = .error Exn.outOfRange := by
    intro rp rn az
    have h := parse_fractionText lib false "99999999999".toList false "1".toList allowMM rp rn az
      (by decide) (by decide) (by decide) (by decide)
    rw [if_neg (by decide)] at h
    exact h
  have h5 : ∀ (neg rp rn az : Bool),
      enforce "Value must be positive." "Value must be negative." rp rn az false
        (Double.finite neg 5629499534213120 (-50)) = .accepted (Double.finite neg 5629499534213120 (-50)) →
      parseInputWithOptionalMM lib (decimalText neg ['5'] none) allowMM rp rn az
        = .ok (.accepted (Double.finite neg 5629499534213120 (-50))) := by
    intro neg rp rn az he
    have h := parse_decimalText lib neg ['5'] none allowMM rp rn az (by decide)
    have e : strtodRound lib neg (decimalValue (['5'] ++ fracDigits none))
        (10 ^ (fracDigits none).length) = .ok (Double.finite neg 5629499534213120 (-50)) := by
      have er : roundToDouble neg (decimalValue (['5'] ++ fracDigits none))
          (10 ^ (fracDigits none).length) = Double.finite neg 5629499534213120 (-50) := by
        cases neg <;> decide!
      have ht : ¬ decimalValue (['5'] ++ fracDigits none) * 2 ^ 1022
          < 10 ^ (fracDigits none).length := by decide!
      unfold strtodRound
      rw [er]
      simp only [ht, false_and, and_false, if_false]
    rw [e] at h
    rw [h]
    simp only [he]
  have hg1 : getUserInputString allowMM "99999999999/1\r5\r".toList []
      = .line "99999999999/1".toList "5\r".toList "99999999999/1\n".toList := by
    cases allowMM <;> decide!
  have hg2 : getUserInputString allowMM "99999999999/1\r-5\r".toList []
      = .line "99999999999/1".toList "-5\r".toList "99999999999/1\n".toList := by
    cases allowMM <;> decide!
  refine ⟨by decide, h5 false true false false (by decide!), h5 false true false true (by decide!),
    h5 true false true false (by decide!), h5 false false false true (by decide!),
    userInputLoop_throws _ _ _ _ _ _ _ _ _ _ _ _ hg1 (hp _ _ _),
    userInputLoop_throws _ _ _ _ _ _ _ _ _ _ _ _ hg1 (hp _ _ _),
    userInputLoop_throws _ _ _ _ _ _ _ _ _ _ _ _ hg2 (hp _ _ _),
    userInputLoop_throws _ _ _ _ _ _ _ _ _ _ _ _ hg1 (hp _ _ _)⟩

/-- C19: for every finite binary64 value and every `p` from 1 to 6, the text
of `formatGCodeDecimals<p>` matches the decimal grammar and not the fraction
grammar, and the parser with `allowMM` false under the any-sign profile
accepts it, with the binary64 number nearest to the decimal the rendering
denotes (the digits `fixedScaled p m e` over `10^p`, with the sign of the
value unless all digits are zero). This is the number `std::stod` delivers
for the fixed-point rendering itself, but for the sign of a zero. -/
theorem C19_format_is_parsed (lib : CLib) (p : ℕ) (neg : Bool) (m : ℕ) (e : ℤ)
    (_hp1 : 1 ≤ p) (hp6 : p ≤ 6) (hm : m < 2 ^ 53) (he : e ≤ 971) :
    DecimalShape (formatGCodeDecimals p (Double.finite neg m e)) ∧
      ¬ FractionShape (formatGCodeDecimals p (Double.finite neg m e)) ∧
      regex_match (formatGCodeDecimals p (Double.finite neg m e)) decimalPattern = true ∧
      regex_match (formatGCodeDecimals p (Double.finite neg m e)) fractionPattern = false ∧
      parseInputWithOptionalMM lib (formatGCodeDecimals p (Double.finite neg m e))
          false false false true
        = .ok (.accepted (roundToDouble (neg && decide (fixedScaled p m e ≠ 0))
            (fixedScaled p m e) (10 ^ p))) ∧
      stod lib (toFixed p (Double.finite neg m e))
        = .ok (roundToDouble neg (fixedScaled p m e) (10 ^ p)) := by
  obtain ⟨ip1, fp1, hf, hparts, hconv⟩ := format_converted p neg m e hp6 hm he
  have hre := regex_match_decimalText (neg && decide (fixedScaled p m e ≠ 0)) ip1 (some fp1) hparts
  have hpar := parse_decimalText lib (neg && decide (fixedScaled p m e ≠ 0)) ip1 (some fp1)
    false false false true hparts
  rw [hconv lib] at hpar
  rw [hf]
  refine ⟨⟨_, ip1, some fp1, rfl, hparts⟩, not_fractionShape _ hre.1, hre.2, hre.1, ?_,
    stod_toFixed lib p neg m e hp6 hm he⟩
  rw [hpar]
  rfl

/-- C19, witness: 3.14159 at two places is rendered as `3.14`, which is
parsed to the binary64 number nearest to 314/100; and -0.001 at two places,
rendered as `-0.00`, gives `0.`, which is parsed to zero. -/
theorem C19_format_is_parsed_witness :
    formatGCodeDecimals 2 (Double.finite false 7074231776675438 (-51)) = ['3', '.', '1', '4'] ∧
      fixedScaled 2 7074231776675438 (-51) = 314 ∧
      roundToDouble false 314 100 = Double.finite false 7070651414971679 (-51) ∧
      (DecimalShape (formatGCodeDecimals 2 (Double.finite false 7074231776675438 (-51))) ∧
        ¬ FractionShape (formatGCodeDecimals 2 (Double.finite false 7074231776675438 (-51))) ∧
        regex_match (formatGCodeDecimals 2 (Double.finite false 7074231776675438 (-51)))
          decimalPattern = true ∧
        regex_match (formatGCodeDecimals 2 (Double.finite false 7074231776675438 (-51)))
          fractionPattern = false ∧
        parseInputWithOptionalMM CLib.ucrt
            (formatGCodeDecimals 2 (Double.finite false 7074231776675438 (-51)))
            false false false true
          = .ok (.accepted (roundToDouble
              (false && decide (fixedScaled 2 7074231776675438 (-51) ≠ 0))
              (fixedScaled 2 7074231776675438 (-51)) (10 ^ 2))) ∧
        stod CLib.ucrt (toFixed 2 (Double.finite false 7074231776675438 (-51)))
          = .ok (roundToDouble false (fixedScaled 2 7074231776675438 (-51)) (10 ^ 2))) ∧
      parseInputWithOptionalMM CLib.ucrt
          (formatGCodeDecimals 2 (Double.finite true 4611686018427388 (-62)))
          false false false true
        = .ok (.accepted (Double.finite false 0 (-1074))) :=
  ⟨by decide!, by decide!, by decide!,
    C19_format_is_parsed CLib.ucrt 2 false 7074231776675438 (-51) (by decide) (by decide)
      (by decide) (by decide),
    (C19_format_is_parsed CLib.ucrt 2 true 4611686018427388 (-62) (by decide) (by decide)
      (by decide) (by decide)).2.2.2.2.1.trans (by decide!)⟩

/-- C20: for every string `s` in which `s.find('.', startIdx)` finds a point
at `decimalPos`, the call `s.find_last_not_of('0', s.size() - 1)` finds an
index `lastNonZero`, and `decimalPos <= lastNonZero`: the branch
`lastNonZero < decimalPos` of `formatGCodeDecimals` is never taken. When
every character after the point is `0`, the branch that is taken erases from
`lastNonZero + 1`, which erases exactly what `s.erase(decimalPos + 1)` of the
other branch would. -/
theorem C20_zero_branch_unreachable (s : List Char) (startIdx decimalPos : Nat)
    (h : strFind s '.' startIdx = some decimalPos) :
    ∃ lastNonZero, strFindLastNotOf s '0' (s.length - 1) = some lastNonZero ∧
      decimalPos ≤ lastNonZero ∧ ¬ lastNonZero < decimalPos ∧
      ((∀ c ∈ s.drop (decimalPos + 1), c = '0') →
        strErase s (lastNonZero + 1) = strErase s (decimalPos + 1)) := by
  obtain ⟨h1, h2⟩ := point_branch s startIdx decimalPos h
  refine ⟨_, h1, by omega, by omega, ?_⟩
  intro hz
  rw [h2 hz]
  rfl

/-- C20, witness: in `-1.00` the point is found at index 2, and so is the
last character that is not `0`. -/
theorem C20_zero_branch_unreachable_witness :
    strFind "-1.00".toList '.' 1 = some 2 ∧
      ∃ lastNonZero, strFindLastNotOf "-1.00".toList '0' ("-1.00".toList.length - 1)
          = some lastNonZero ∧
        2 ≤ lastNonZero ∧ ¬ lastNonZero < 2 ∧
        ((∀ c ∈ "-1.00".toList.drop (2 + 1), c = '0') →
          strErase "-1.00".toList (lastNonZero + 1) = strErase "-1.00".toList (2 + 1)) :=
  ⟨by decide, C20_zero_branch_unreachable "-1.00".toList 1 2 (by decide)⟩

end GCode
